import Mathlib

/-!
Verification of the easy_sast Veracode client (SeisoLLC/easy_sast).

This file shallowly embeds the Python modules under `veracode/` —
`submit_artifacts.py`, `check_compliance.py`, `api.py`, `utils.py`,
`config.py`, `constants.py` — as executable Lean definitions and proves
properties of them.  Python values are modelled by the inductive
`PyValue`; fallible Python code is modelled with `Except`; remote HTTP
calls are modelled by passing the scripted transport outcome explicitly.
-/

namespace EasySast

/-- Model of a Python value as it can occur in this code base:
`None`, booleans, integers, strings, `pathlib.Path` objects, lists,
tuples, sets and dicts (a dict is an insertion-ordered association
list; Python guarantees its keys are distinct). -/
inductive PyValue where
  | none : PyValue
  | bool : Bool → PyValue
  | int : Int → PyValue
  | str : String → PyValue
  | path : String → PyValue
  | list : List PyValue → PyValue
  | tuple : List PyValue → PyValue
  | set : List PyValue → PyValue
  | dict : List (PyValue × PyValue) → PyValue

mutual

/-- Structural equality on `PyValue`.  (Python `==` on the values this
code base manipulates: the code only ever compares like-typed values or
checks a value against `{}`, where Python equality coincides with
structural equality; dict insertion order is preserved by every
operation modelled here.) -/
def pyBeq : PyValue → PyValue → Bool
  | .none, .none => true
  | .bool a, .bool b => a == b
  | .int a, .int b => a == b
  | .str a, .str b => a == b
  | .path a, .path b => a == b
  | .list a, .list b => pyBeqList a b
  | .tuple a, .tuple b => pyBeqList a b
  | .set a, .set b => pyBeqList a b
  | .dict a, .dict b => pyBeqPairs a b
  | _, _ => false

/-- Elementwise `pyBeq` on lists. -/
def pyBeqList : List PyValue → List PyValue → Bool
  | [], [] => true
  | x :: xs, y :: ys => pyBeq x y && pyBeqList xs ys
  | _, _ => false

/-- Pairwise `pyBeq` on dict entry lists. -/
def pyBeqPairs : List (PyValue × PyValue) → List (PyValue × PyValue) → Bool
  | [], [] => true
  | (k1, v1) :: xs, (k2, v2) :: ys =>
    pyBeq k1 k2 && pyBeq v1 v2 && pyBeqPairs xs ys
  | _, _ => false

end

theorem pyBeqList_iff (xs ys : List PyValue)
    (h : ∀ x ∈ xs, ∀ b, pyBeq x b = true ↔ x = b) :
    pyBeqList xs ys = true ↔ xs = ys := by
  induction xs generalizing ys with
  | nil => cases ys <;> simp [pyBeqList]
  | cons x xs ih =>
    cases ys with
    | nil => simp [pyBeqList]
    | cons y ys =>
      simp only [pyBeqList, Bool.and_eq_true, List.cons.injEq]
      rw [h x (by simp), ih ys (fun z hz => h z (List.mem_cons_of_mem x hz))]

theorem pyBeqPairs_iff (xs ys : List (PyValue × PyValue))
    (h : ∀ p ∈ xs, ∀ b, (pyBeq p.1 b = true ↔ p.1 = b) ∧
      (pyBeq p.2 b = true ↔ p.2 = b)) :
    pyBeqPairs xs ys = true ↔ xs = ys := by
  induction xs generalizing ys with
  | nil => cases ys <;> simp [pyBeqPairs]
  | cons x xs ih =>
    cases ys with
    | nil => simp [pyBeqPairs]
    | cons y ys =>
      obtain ⟨k1, v1⟩ := x
      obtain ⟨k2, v2⟩ := y
      simp only [pyBeqPairs, Bool.and_eq_true, List.cons.injEq, Prod.mk.injEq]
      rw [(h (k1, v1) (by simp) k2).1, (h (k1, v1) (by simp) v2).2,
        ih ys (fun z hz b => h z (List.mem_cons_of_mem (k1, v1) hz) b)]

theorem pyBeq_iff : ∀ a b : PyValue, pyBeq a b = true ↔ a = b := by
  have main : ∀ n, ∀ a : PyValue, sizeOf a < n → ∀ b, (pyBeq a b = true ↔ a = b) := by
    intro n
    induction n with
    | zero => intro a ha; exact absurd ha (by omega)
    | succ n ih =>
      intro a ha b
      cases a <;> cases b <;>
        first
        | (simp only [pyBeq, beq_iff_eq, PyValue.bool.injEq,
            PyValue.int.injEq, PyValue.str.injEq, PyValue.path.injEq,
            PyValue.list.injEq, PyValue.tuple.injEq, PyValue.set.injEq,
            PyValue.dict.injEq, reduceCtorEq, iff_self, Bool.false_eq_true])
        | skip
      case list.list xs ys =>
        refine pyBeqList_iff xs ys (fun x hx b => ih x ?_ b)
        have h1 : sizeOf x < sizeOf xs := List.sizeOf_lt_of_mem hx
        have h2 : sizeOf (PyValue.list xs) ≤ n := by omega
        simp only [PyValue.list.sizeOf_spec] at h2
        omega
      case tuple.tuple xs ys =>
        refine pyBeqList_iff xs ys (fun x hx b => ih x ?_ b)
        have h1 : sizeOf x < sizeOf xs := List.sizeOf_lt_of_mem hx
        have h2 : sizeOf (PyValue.tuple xs) ≤ n := by omega
        simp only [PyValue.tuple.sizeOf_spec] at h2
        omega
      case set.set xs ys =>
        refine pyBeqList_iff xs ys (fun x hx b => ih x ?_ b)
        have h1 : sizeOf x < sizeOf xs := List.sizeOf_lt_of_mem hx
        have h2 : sizeOf (PyValue.set xs) ≤ n := by omega
        simp only [PyValue.set.sizeOf_spec] at h2
        omega
      case dict.dict xs ys =>
        refine pyBeqPairs_iff xs ys (fun p hp b => ⟨ih p.1 ?_ b, ih p.2 ?_ b⟩) <;>
        · have h1 : sizeOf p < sizeOf xs := List.sizeOf_lt_of_mem hp
          have h2 : sizeOf (PyValue.dict xs) ≤ n := by omega
          have h3 : sizeOf p.1 < sizeOf p ∧ sizeOf p.2 < sizeOf p := by
            obtain ⟨x, y⟩ := p
            simp only [Prod.mk.sizeOf_spec]
            omega
          simp only [PyValue.dict.sizeOf_spec] at h2
          omega
  exact fun a b => main (sizeOf a + 1) a (by omega) b

instance : DecidableEq PyValue :=
  fun a b => decidable_of_iff (pyBeq a b = true) (pyBeq_iff a b)

/-! ## pathlib suffix model

`filter_file` in `submit_artifacts.py` uses `PurePath.suffix` and
`PurePath.suffixes`.  These are modelled below on the final path
component (the file name), following the CPython `pathlib`
implementation:

  suffix:   `i = name.rfind('.'); name[i:] if 0 < i < len(name) - 1 else ''`
  suffixes: `[] if name.endswith('.') else
             ['.' + s for s in name.lstrip('.').split('.')[1:]]`
-/

/-- Index of the last `'.'` in a character list, if any
(`str.rfind('.')` when it does not return -1). -/
def rfindDot : List Char → Option Nat
  | [] => Option.none
  | c :: cs =>
    match rfindDot cs with
    | Option.some i => Option.some (i + 1)
    | Option.none => if c = '.' then Option.some 0 else Option.none

/-- `PurePath.suffix` of a file name. -/
def pySuffix (name : List Char) : List Char :=
  match rfindDot name with
  | Option.some i => if 0 < i ∧ i < name.length - 1 then name.drop i else []
  | Option.none => []

/-- `PurePath.suffixes` of a file name. -/
def pySuffixes (name : List Char) : List (List Char) :=
  if name.getLast? = Option.some '.' then []
  else
    let stripped := name.dropWhile (· = '.')
    (List.splitOn '.' stripped).tail.map (fun s => '.' :: s)

/-! ## constants.py -/

/-- `constants.WHITELIST_FILE_SUFFIX_SET` (a Python set literal; the
duplicate `".jar"` entry in the source collapses). -/
def WHITELIST_FILE_SUFFIX_SET : List String :=
  [".exe", ".pdb", ".dll", ".jar", ".zip", ".tar", ".tgz", ".war",
   ".ear", ".apk", ".ipa"]

/-- `constants.WHITELIST_FILE_SUFFIXES_LIST` -/
def WHITELIST_FILE_SUFFIXES_LIST : List String := [".tar", ".gz"]

/-! ## submit_artifacts.filter_file -/

/-- `submit_artifacts.filter_file`, on the artifact's file name.
Mirrors: `allowed = False`; set `allowed = True` if
`artifact.suffix in WHITELIST_FILE_SUFFIX_SET`; set `allowed = True` if
`artifact.suffixes[-2:] == WHITELIST_FILE_SUFFIXES_LIST`; return
`allowed`. -/
def filter_file (name : String) : Bool :=
  let allowed := false
  let suffix := String.mk (pySuffix name.data)
  let allowed := if WHITELIST_FILE_SUFFIX_SET.contains suffix then true else allowed
  let suffixes := (pySuffixes name.data).map String.mk
  let lastTwo := suffixes.drop (suffixes.length - 2)
  let allowed := if lastTwo = WHITELIST_FILE_SUFFIXES_LIST then true else allowed
  allowed

/-- C5: `filter_file` accepts a file name exactly when its final suffix
is in the whitelist set `{.exe, .pdb, .dll, .jar, .zip, .tar, .tgz,
.war, .ear, .apk, .ipa}` or its last two suffixes are exactly
`[.tar, .gz]`; in particular `file.thingy`, a suffixless `file`, and
`file.tar.gz.bar` are rejected. -/
theorem filter_file_whitelist_iff :
    (∀ name : String, filter_file name = true ↔
      (String.mk (pySuffix name.data) ∈
        [".exe", ".pdb", ".dll", ".jar", ".zip", ".tar", ".tgz", ".war",
         ".ear", ".apk", ".ipa"] ∨
       ∃ pre, (pySuffixes name.data).map String.mk = pre ++ [".tar", ".gz"])) ∧
    filter_file "file.thingy" = false ∧
    filter_file "file" = false ∧
    filter_file "file.tar.gz.bar" = false := by
  refine ⟨fun name => ?_, by decide, by decide, by decide⟩
  unfold filter_file
  simp only [WHITELIST_FILE_SUFFIXES_LIST, WHITELIST_FILE_SUFFIX_SET,
    List.contains, List.elem_iff]
  constructor
  · intro h
    by_cases hmem :
        String.mk (pySuffix name.data) ∈
          [".exe", ".pdb", ".dll", ".jar", ".zip", ".tar", ".tgz", ".war",
         ".ear", ".apk", ".ipa"]
    · exact Or.inl hmem
    · refine Or.inr ?_
      simp only [hmem, if_false] at h
      by_cases heq : ((pySuffixes name.data).map String.mk).drop
          (((pySuffixes name.data).map String.mk).length - 2) = [".tar", ".gz"]
      · refine ⟨((pySuffixes name.data).map String.mk).take
          (((pySuffixes name.data).map String.mk).length - 2), ?_⟩
        rw [← heq]
        exact (List.take_append_drop _ _).symm
      · rw [if_neg heq] at h
        exact absurd h (by simp)
  · intro h
    rcases h with hmem | ⟨pre, hpre⟩
    · simp [hmem]
    · have hsub : (pre ++ [".tar", ".gz"]).length - 2 = pre.length := by simp
      have : ((pySuffixes name.data).map String.mk).drop
          (((pySuffixes name.data).map String.mk).length - 2) = [".tar", ".gz"] := by
        rw [hpre, hsub, List.drop_left]
      rw [this]
      simp

/-! ## Exceptions and XML documents

Python exception classes that appear in the embedded code.  The five
transport exception classes of the `requests` library are kept distinct
from `RuntimeError`, `xml.etree.ElementTree.ParseError` and the
built-in `ValueError`/`KeyError`/`TypeError`/`AttributeError`. -/

inductive PyErr where
  | httpError
  | connectionError
  | timeout
  | tooManyRedirects
  | requestException
  | parseError
  | runtimeError
  | valueError
  | keyError
  | typeError
  | attributeError
  deriving DecidableEq

/-- Is this one of the five `requests` transport exception classes
caught as `(HTTPError, ConnectionError, Timeout, TooManyRedirects,
RequestException)`? -/
def PyErr.isTransport : PyErr → Bool
  | .httpError | .connectionError | .timeout | .tooManyRedirects
  | .requestException => true
  | _ => false

/-- A parsed XML element (`xml.etree.ElementTree.Element`): tag,
attributes and child elements. -/
inductive Xml where
  | elem : String → List (String × String) → List Xml → Xml

/-- Structural equality on XML elements. -/
def xmlBeq : Xml → Xml → Bool
  | .elem t1 a1 c1, .elem t2 a2 c2 =>
    t1 == t2 && a1 == a2 && xmlBeqList c1 c2
where
  /-- Elementwise `xmlBeq`. -/
  xmlBeqList : List Xml → List Xml → Bool
  | [], [] => true
  | x :: xs, y :: ys => xmlBeq x y && xmlBeqList xs ys
  | _, _ => false

theorem xmlBeqList_iff (xs ys : List Xml)
    (h : ∀ x ∈ xs, ∀ b, xmlBeq x b = true ↔ x = b) :
    xmlBeq.xmlBeqList xs ys = true ↔ xs = ys := by
  induction xs generalizing ys with
  | nil => cases ys <;> simp [xmlBeq.xmlBeqList]
  | cons x xs ih =>
    cases ys with
    | nil => simp [xmlBeq.xmlBeqList]
    | cons y ys =>
      simp only [xmlBeq.xmlBeqList, Bool.and_eq_true, List.cons.injEq]
      rw [h x (by simp), ih ys (fun z hz => h z (List.mem_cons_of_mem x hz))]

theorem xmlBeq_iff : ∀ a b : Xml, xmlBeq a b = true ↔ a = b := by
  have main : ∀ n, ∀ a : Xml, sizeOf a < n → ∀ b, (xmlBeq a b = true ↔ a = b) := by
    intro n
    induction n with
    | zero => intro a ha; exact absurd ha (by omega)
    | succ n ih =>
      intro a ha b
      obtain ⟨t1, a1, c1⟩ := a
      obtain ⟨t2, a2, c2⟩ := b
      simp only [xmlBeq, Bool.and_eq_true, beq_iff_eq, Xml.elem.injEq]
      have hc : xmlBeq.xmlBeqList c1 c2 = true ↔ c1 = c2 := by
        refine xmlBeqList_iff c1 c2 (fun x hx b => ih x ?_ b)
        have h1 : sizeOf x < sizeOf c1 := List.sizeOf_lt_of_mem hx
        simp only [Xml.elem.sizeOf_spec] at ha
        omega
      rw [hc]
      tauto
  exact fun a b => main (sizeOf a + 1) a (by omega) b

instance : DecidableEq Xml :=
  fun a b => decidable_of_iff (xmlBeq a b = true) (xmlBeq_iff a b)

instance {ε α : Type} [DecidableEq ε] [DecidableEq α] : DecidableEq (Except ε α) :=
  fun x y =>
    match x, y with
    | .ok a, .ok b =>
      if h : a = b then isTrue (by rw [h]) else isFalse (by simp [h])
    | .error a, .error b =>
      if h : a = b then isTrue (by rw [h]) else isFalse (by simp [h])
    | .ok _, .error _ => isFalse (by simp)
    | .error _, .ok _ => isFalse (by simp)

/-- The element's tag. -/
def Xml.tag : Xml → String
  | .elem t _ _ => t

/-- The element's attribute dict. -/
def Xml.attrib : Xml → List (String × String)
  | .elem _ a _ => a

/-- The element's children. -/
def Xml.children : Xml → List Xml
  | .elem _ _ c => c

/-- `element.get(key)`: attribute lookup returning `None` when
absent.  (`element.attrib[key]` is the same lookup but raises
`KeyError` when absent; callers below model that with `Option`.) -/
def Xml.get (x : Xml) (key : String) : Option String :=
  (x.attrib.find? (fun p => p.1 = key)).map (fun p => p.2)

/-- `str.casefold` restricted to the ASCII tag names this program
compares. -/
def pyCasefold (s : String) : String := String.mk (s.data.map Char.toLower)

/-- `utils.element_contains_error` / `api.element_contains_error`:
`parsed_xml.tag.casefold() == "error"`. -/
def element_contains_error (parsed_xml : Xml) : Bool :=
  pyCasefold parsed_xml.tag = "error"

/-! ## The remote call wrapper (`http_request`)

The transport (`requests.get`/`requests.post`) is an external
collaborator; its outcome is passed in explicitly: either one of the
five transport exceptions, or a response with a status code and a body.
The body is abstracted by its parse outcome (`parse_xml` either raises
`ParseError` or yields an element). -/

inductive ParsedBody where
  | ok : Xml → ParsedBody
  | malformed : ParsedBody

inductive TransportResult where
  | exc : PyErr → TransportResult
  | resp : Nat → ParsedBody → TransportResult

/-- `requests.Response.raise_for_status` raises `HTTPError` exactly for
status codes in [400, 600). -/
def raise_for_status (status : Nat) : Except PyErr Unit :=
  if 400 ≤ status ∧ status < 600 then .error .httpError else .ok ()

/-- `api.http_request` (`veracode/api.py`): perform the transport call,
re-raise each transport exception as-is, `raise_for_status` on a
non-200 status, parse the body (`ParseError` propagates), and raise
`RuntimeError` when the parsed root is an `error` element; otherwise
return the parsed document. -/
def api_http_request (t : TransportResult) : Except PyErr Xml :=
  match t with
  | .exc e => .error e
  | .resp status body =>
    match raise_for_status status with
    | .error e => .error e
    | .ok _ =>
      match body with
      | .malformed => .error .parseError
      | .ok parsed_xml =>
        if element_contains_error parsed_xml then .error .runtimeError
        else .ok parsed_xml

/-- `utils.http_request` (`veracode/utils.py`): identical transport and
parse handling, but with no error-root check — the parsed document is
returned as-is. -/
def utils_http_request (t : TransportResult) : Except PyErr Xml :=
  match t with
  | .exc e => .error e
  | .resp status body =>
    match raise_for_status status with
    | .error e => .error e
    | .ok _ =>
      match body with
      | .malformed => .error .parseError
      | .ok parsed_xml => .ok parsed_xml

/-- C3 as stated, for one of the two `http_request` functions: the
parsed document is returned only for a 200 status with a non-error
root; an error root raises `RuntimeError`; a malformed body raises
`ParseError`. -/
def claimC3for (f : TransportResult → Except PyErr Xml) : Prop :=
  (∀ t x, f t = .ok x →
    (∃ b, t = .resp 200 b) ∧ pyCasefold x.tag ≠ "error") ∧
  (∀ x, pyCasefold x.tag = "error" →
    f (.resp 200 (.ok x)) = .error .runtimeError) ∧
  (f (.resp 200 .malformed) = .error .parseError)

/-- C3 as stated: both `http_request` implementations
(`veracode/api.py` and `veracode/utils.py`) behave as claimed. -/
def claimC3 : Prop := claimC3for api_http_request ∧ claimC3for utils_http_request

/-- C3 fails on the code: `utils.http_request` returns a successfully
transported `<error>` document instead of raising, and
`api.http_request` returns the parsed document for the non-200 status
204 (since `raise_for_status` is silent below 400). -/
theorem http_request_claim_counterexample :
    utils_http_request (.resp 200 (.ok (.elem "error" [] []))) =
      .ok (.elem "error" [] []) ∧
    api_http_request (.resp 204 (.ok (.elem "report" [] []))) =
      .ok (.elem "report" [] []) ∧
    ¬ claimC3 := by
  refine ⟨by decide, by decide, fun h => ?_⟩
  have := h.2.2.1 (.elem "error" [] []) (by decide)
  exact absurd this (by decide)

/-- C3 amended: for both implementations the parsed document is
returned exactly when (iff) the transport raised no exception, the
status is outside [400, 600) (`raise_for_status` is silent, not only
at 200) and the body parses — with, for `api.http_request` only, the
additional requirement that the root tag is not case-insensitively
`error`, which otherwise raises `RuntimeError` (an exception distinct
from every transport exception); `utils.http_request` performs no
error-root check and returns the parsed `<error>` document.  A
malformed body raises `ParseError` in both. -/
theorem http_request_characterization :
    (∀ t x, api_http_request t = .ok x ↔
      ((∃ s b, t = .resp s b ∧ ¬(400 ≤ s ∧ s < 600) ∧ b = .ok x) ∧
       pyCasefold x.tag ≠ "error")) ∧
    (∀ t x, utils_http_request t = .ok x ↔
      (∃ s b, t = .resp s b ∧ ¬(400 ≤ s ∧ s < 600) ∧ b = .ok x)) ∧
    (∀ s x, ¬(400 ≤ s ∧ s < 600) → pyCasefold x.tag = "error" →
      api_http_request (.resp s (.ok x)) = .error .runtimeError ∧
      utils_http_request (.resp s (.ok x)) = .ok x) ∧
    (∀ s, ¬(400 ≤ s ∧ s < 600) →
      api_http_request (.resp s .malformed) = .error .parseError ∧
      utils_http_request (.resp s .malformed) = .error .parseError) ∧
    (∀ e, api_http_request (.exc e) = .error e ∧
      utils_http_request (.exc e) = .error e) ∧
    (PyErr.runtimeError.isTransport = false) := by
  refine ⟨?_, ?_, ?_, ?_, fun e => ⟨rfl, rfl⟩, rfl⟩
  · intro t x
    constructor
    · intro h
      cases t with
      | exc e => exact absurd h (by simp [api_http_request])
      | resp s b =>
        by_cases hs : 400 ≤ s ∧ s < 600
        · simp [api_http_request, raise_for_status, hs] at h
        · cases b with
          | malformed => simp [api_http_request, raise_for_status, hs] at h
          | ok parsed =>
            by_cases herr : element_contains_error parsed = true
            · simp [api_http_request, raise_for_status, hs, herr] at h
            · rw [Bool.not_eq_true] at herr
              simp only [api_http_request, raise_for_status, hs, if_false,
                herr, Bool.false_eq_true, Except.ok.injEq] at h
              cases h
              exact ⟨⟨s, .ok x, rfl, hs, rfl⟩, by
                simpa [element_contains_error] using herr⟩
    · rintro ⟨⟨s, b, ht, hs, hb⟩, herr⟩
      subst ht
      subst hb
      have herr2 : element_contains_error x = false := by
        simp only [element_contains_error]
        exact decide_eq_false herr
      simp [api_http_request, raise_for_status, hs, herr2]
  · intro t x
    constructor
    · intro h
      cases t with
      | exc e => exact absurd h (by simp [utils_http_request])
      | resp s b =>
        by_cases hs : 400 ≤ s ∧ s < 600
        · simp [utils_http_request, raise_for_status, hs] at h
        · cases b with
          | malformed => simp [utils_http_request, raise_for_status, hs] at h
          | ok parsed =>
            simp only [utils_http_request, raise_for_status, hs, if_false,
              Except.ok.injEq] at h
            cases h
            exact ⟨s, .ok x, rfl, hs, rfl⟩
    · rintro ⟨s, b, ht, hs, hb⟩
      subst ht
      subst hb
      simp [utils_http_request, raise_for_status, hs]
  · intro s x hs herr
    constructor <;>
      simp [api_http_request, utils_http_request, raise_for_status, hs,
        element_contains_error, herr]
  · intro s hs
    constructor <;>
      simp [api_http_request, utils_http_request, raise_for_status, hs]

/-- Witness for the amended C3 theorem at concrete inputs: a 200
non-error response is returned by both implementations (via the
sufficiency direction of the iff), a 204 non-error response is
likewise returned (raise_for_status tolerates 204), and a 204
`<Error>` response makes `api.http_request` raise `RuntimeError` while
`utils.http_request` returns the document. -/
theorem http_request_characterization_witness :
    api_http_request (.resp 200 (.ok (.elem "report" [] []))) =
      .ok (.elem "report" [] []) ∧
    utils_http_request (.resp 204 (.ok (.elem "report" [] []))) =
      .ok (.elem "report" [] []) ∧
    api_http_request (.resp 204 (.ok (.elem "Error" [] []))) =
      .error .runtimeError ∧
    utils_http_request (.resp 204 (.ok (.elem "Error" [] []))) =
      .ok (.elem "Error" [] []) := by
  refine ⟨?_, ?_, ?_, ?_⟩
  · exact (http_request_characterization.1 _ _).mpr
      ⟨⟨200, .ok (.elem "report" [] []), rfl, by decide, rfl⟩, by decide⟩
  · exact (http_request_characterization.2.1 _ _).mpr
      ⟨204, .ok (.elem "report" [] []), rfl, by decide, rfl⟩
  · exact (http_request_characterization.2.2.1 204
      (.elem "Error" [] []) (by decide) (by decide)).1
  · exact (http_request_characterization.2.2.1 204
      (.elem "Error" [] []) (by decide) (by decide)).2

/-! ## check_compliance.py

The four functions of `veracode/check_compliance.py`, parameterised by
the outcome of `results_api.http_get(endpoint="getappbuilds.do", ...)`
(which is `api.http_request`, so the outcome is an `Except PyErr Xml`)
and by the session's validated `app_id` and
`ignore_compliance_status` fields. -/

/-- The loop body of `get_latest_completed_build`: find the first child
whose `app_id` attribute equals the session's `app_id`
(`app.attrib["app_id"]` raises `KeyError` when the attribute is
absent). -/
def findApp : List Xml → String → Except PyErr (Option Xml)
  | [], _ => .ok Option.none
  | app :: rest, appid =>
    match app.get "app_id" with
    | Option.some v =>
      if v = appid then .ok (Option.some app) else findApp rest appid
    | Option.none => .error .keyError

/-- `check_compliance.get_latest_completed_build`: on any of the five
transport exceptions or `RuntimeError` from `http_get`, log and return
`False` (modelled `Option.none`); a `ParseError` is not in the caught
tuple and propagates.  Otherwise scan the returned children for the
matching `app_id` and return the element, or `False` when absent. -/
def get_latest_completed_build (resp : Except PyErr Xml) (app_id : String) :
    Except PyErr (Option Xml) :=
  match resp with
  | .error e => if e = .parseError then .error .parseError else .ok Option.none
  | .ok appbuilds => findApp appbuilds.children app_id

/-- Python truthiness of an `ElementTree.Element`: an element is truthy
iff it has children. -/
def xmlTruthy (x : Xml) : Bool := !x.children.isEmpty

/-- The namespaced build tag used by `get_policy_compliance_status`. -/
def buildTag : String :=
  "{https://analysiscenter.veracode.com/schema/2.0/applicationbuilds}build"

/-- `Element.iter(tag)`: self-inclusive descendants with the given tag
in document order. -/
def iterTag (t : String) : Xml → List Xml
  | .elem tg attrs ch =>
    (if tg = t then [Xml.elem tg attrs ch] else []) ++ iterTagList t ch
where
  /-- `iterTag` over a child list. -/
  iterTagList (t : String) : List Xml → List Xml
  | [] => []
  | c :: cs => iterTag t c ++ iterTagList t cs

/-- The loop of `get_policy_compliance_status`: each matching build
element overwrites `policy_compliance_status` with its
`policy_compliance_status` attribute (`build.attrib[...]` raises
`KeyError` when absent). -/
def foldStatuses : List Xml → String → Except PyErr String
  | [], acc => .ok acc
  | b :: bs, _ =>
    match b.get "policy_compliance_status" with
    | Option.some v => foldStatuses bs v
    | Option.none => .error .keyError

/-- `check_compliance.get_policy_compliance_status`: start from
`"Unknown"`; if a latest completed build was found and is truthy
(`if latest_completed_build:`), take the attribute of each
build-tagged descendant, last match winning. -/
def get_policy_compliance_status (resp : Except PyErr Xml) (app_id : String) :
    Except PyErr String :=
  match get_latest_completed_build resp app_id with
  | .error e => .error e
  | .ok Option.none => .ok "Unknown"
  | .ok (Option.some b) =>
    if xmlTruthy b then foldStatuses (iterTag buildTag b) "Unknown"
    else .ok "Unknown"

/-- `check_compliance.in_compliance`: raise `ValueError` when the
status is `"Unknown"`, otherwise report whether it is `"Pass"`. -/
def in_compliance (resp : Except PyErr Xml) (app_id : String) :
    Except PyErr Bool :=
  match get_policy_compliance_status resp app_id with
  | .error e => .error e
  | .ok st => if st = "Unknown" then .error .valueError else .ok (st = "Pass")

/-- `check_compliance.check_compliance`: `True` when in compliance;
when not in compliance, `True` iff `ignore_compliance_status`; a
`ValueError` (undetermined status) is caught and yields `False`
regardless of the flag. -/
def check_compliance (resp : Except PyErr Xml) (app_id : String)
    (ignore_compliance_status : Bool) : Except PyErr Bool :=
  match in_compliance resp app_id with
  | .ok true => .ok true
  | .ok false => if ignore_compliance_status then .ok true else .ok false
  | .error .valueError => .ok false
  | .error e => .error e

/-- C1: with valid session fields, `check_compliance` returns true when
the retrieved policy compliance status is `"Pass"`; for a concrete
non-`"Pass"`, non-`"Unknown"` status it returns the
`ignore_compliance_status` flag (false when the flag is false, true
when it is true); and for status `"Unknown"` (no matching build, or a
failed build-list query) it returns false regardless of the flag. -/
theorem check_compliance_mapping (resp : Except PyErr Xml) (app_id : String)
    (flag : Bool) :
    (get_policy_compliance_status resp app_id = .ok "Pass" →
      check_compliance resp app_id flag = .ok true) ∧
    (∀ s, get_policy_compliance_status resp app_id = .ok s →
      s ≠ "Pass" → s ≠ "Unknown" →
      check_compliance resp app_id flag = .ok flag) ∧
    (get_policy_compliance_status resp app_id = .ok "Unknown" →
      check_compliance resp app_id flag = .ok false) := by
  refine ⟨fun h => ?_, fun s h hp hu => ?_, fun h => ?_⟩
  · simp [check_compliance, in_compliance, h]
  · simp only [check_compliance, in_compliance, h, hu, if_false]
    have : (s = "Pass") = False := by simp [hp]
    simp only [this, decide_False]
    cases flag <;> simp
  · simp [check_compliance, in_compliance, h]

/-- A sample `getappbuilds.do` response whose matching application has
a build in `"Pass"`. -/
def passBuilds : Xml :=
  .elem "applicationbuilds" []
    [.elem "application" [("app_id", "1337")]
      [.elem buildTag [("policy_compliance_status", "Pass")] []]]

/-- The same response with a `"Did Not Pass"` verdict. -/
def dnpBuilds : Xml :=
  .elem "applicationbuilds" []
    [.elem "application" [("app_id", "1337")]
      [.elem buildTag [("policy_compliance_status", "Did Not Pass")] []]]

/-- Witness for C1 at concrete inputs: a `"Pass"` response, a `"Did Not
Pass"` response under both flag values, and a timed-out build-list
query under both flag values. -/
theorem check_compliance_mapping_witness :
    check_compliance (.ok passBuilds) "1337" false = .ok true ∧
    check_compliance (.ok dnpBuilds) "1337" false = .ok false ∧
    check_compliance (.ok dnpBuilds) "1337" true = .ok true ∧
    check_compliance (.error .timeout) "1337" false = .ok false ∧
    check_compliance (.error .timeout) "1337" true = .ok false :=
  ⟨(check_compliance_mapping (.ok passBuilds) "1337" false).1 (by decide),
   (check_compliance_mapping (.ok dnpBuilds) "1337" false).2.1 "Did Not Pass"
     (by decide) (by decide) (by decide),
   (check_compliance_mapping (.ok dnpBuilds) "1337" true).2.1 "Did Not Pass"
     (by decide) (by decide) (by decide),
   (check_compliance_mapping (.error .timeout) "1337" false).2.2 (by decide),
   (check_compliance_mapping (.error .timeout) "1337" true).2.2 (by decide)⟩

/-! ## submit_artifacts.py: build setup

`create_build`, `cancel_build`, `is_ready_for_new_build` and
`setup_scan_prereqs`, each parameterised by the scripted transport
outcome of its one remote call (`upload_api.http_get`/`http_post` is
`api.http_request`).  `setup_scan_prereqs` additionally returns the
trace of `.do` endpoints it called, in order. -/

/-- `submit_artifacts.create_build`: POST `createbuild.do`; the five
transport exception classes are caught and yield `False` (the caught
tuple does not include `RuntimeError`, so a `RuntimeError` or
`ParseError` from `http_post` propagates); an error root yields
`False`; otherwise `True`. -/
def create_build (t : TransportResult) : Except PyErr Bool :=
  match api_http_request t with
  | .error e => if e.isTransport then .ok false else .error e
  | .ok response =>
    if element_contains_error response then .ok false else .ok true

/-- `submit_artifacts.cancel_build`: GET `deletebuild.do`; the caught
tuple here includes `RuntimeError`, so every failure except a
`ParseError` yields `False`; an error root yields `False`; otherwise
`True`. -/
def cancel_build (t : TransportResult) : Except PyErr Bool :=
  match api_http_request t with
  | .error e => if e = .parseError then .error .parseError else .ok false
  | .ok response =>
    if element_contains_error response then .ok false else .ok true

/-- `submit_artifacts.is_ready_for_new_build`: GET `getbuildinfo.do`;
any caught failure (transport, error root, missing pieces of the
response) is re-raised as `RuntimeError` (`ParseError` propagates).
Ready iff the first child has `results_ready="true"`, or the last
`status` attribute among its children is `"Vendor Reviewing"`; a
missing status raises; any other status is not ready. -/
def is_ready_for_new_build (t : TransportResult) : Except PyErr Bool :=
  match api_http_request t with
  | .error e => if e = .parseError then .error .parseError else .error .runtimeError
  | .ok response =>
    if element_contains_error response then .error .runtimeError
    else
      match response.children.head? with
      | Option.none => .error .runtimeError
      | Option.some child =>
        if child.get "results_ready" = Option.some "true" then .ok true
        else
          match (child.children.filterMap (fun e => Xml.get e "status")).getLast? with
          | Option.some st =>
            if st = "Vendor Reviewing" then .ok true else .ok false
          | Option.none => .error .runtimeError

/-- The scripted remote responses consumed by `setup_scan_prereqs`:
one `getbuildinfo.do` response, one `deletebuild.do` response, and the
successive `createbuild.do` responses (the program only ever performs
the first creation call; the rest of the list records what a retry
would have received). -/
structure BuildWorld where
  buildinfo : TransportResult
  delete : TransportResult
  create : List TransportResult

/-- `submit_artifacts.setup_scan_prereqs`, with the endpoint-call trace
made explicit: if `is_ready_for_new_build` says not ready, cancel the
existing build (returning `False` if the cancel fails); then attempt
`create_build` once and return its outcome.  Exceptions
(`RuntimeError` from the readiness query, `ParseError`) propagate. -/
def setup_scan_prereqs (w : BuildWorld) : Except PyErr Bool × List String :=
  match is_ready_for_new_build w.buildinfo with
  | .error e => (.error e, ["getbuildinfo.do"])
  | .ok ready =>
    if ready then
      match create_build (w.create.headD (.exc .requestException)) with
      | .error e => (.error e, ["getbuildinfo.do", "createbuild.do"])
      | .ok b => (.ok b, ["getbuildinfo.do", "createbuild.do"])
    else
      match cancel_build w.delete with
      | .error e => (.error e, ["getbuildinfo.do", "deletebuild.do"])
      | .ok false => (.ok false, ["getbuildinfo.do", "deletebuild.do"])
      | .ok true =>
        match create_build (w.create.headD (.exc .requestException)) with
        | .error e =>
          (.error e, ["getbuildinfo.do", "deletebuild.do", "createbuild.do"])
        | .ok b =>
          (.ok b, ["getbuildinfo.do", "deletebuild.do", "createbuild.do"])

/-- C2 as stated: the build-setup step starts by attempting to create a
build, cancels only in reaction to a failed creation, and after a
cancel retries creation exactly once (so a run that cancelled performs
two creation calls). -/
def claimC2 : Prop :=
  ∀ w : BuildWorld,
    ((setup_scan_prereqs w).2.head? = Option.some "createbuild.do") ∧
    ("deletebuild.do" ∈ (setup_scan_prereqs w).2 →
      ((setup_scan_prereqs w).2.count "createbuild.do") = 2)

/-- A world where the app is not ready for a new build
(`results_ready="false"`, analysis status `"Scan In Process"`), the
cancel succeeds, and the single creation call fails with a transport
exception while a second creation call would have succeeded. -/
def notReadyWorld : BuildWorld where
  buildinfo :=
    .resp 200 (.ok (.elem "buildinfo" []
      [.elem "build" [("results_ready", "false")]
        [.elem "analysis_unit" [("status", "Scan In Process")] []]]))
  delete := .resp 200 (.ok (.elem "deletebuildresult" [] []))
  create :=
    [.exc .requestException,
     .resp 200 (.ok (.elem "buildinfo" [] []))]

/-- C2 fails on the code: on `notReadyWorld` the call trace is
`getbuildinfo.do, deletebuild.do, createbuild.do` — the first remote
call is a readiness query, not a creation attempt; the cancel happens
before any creation call; and creation is attempted exactly once (no
retry), so the step returns false even though a retry would have
succeeded. -/
theorem setup_scan_prereqs_counterexample :
    (setup_scan_prereqs notReadyWorld).2 =
      ["getbuildinfo.do", "deletebuild.do", "createbuild.do"] ∧
    (setup_scan_prereqs notReadyWorld).1 = .ok false ∧
    create_build (.resp 200 (.ok (.elem "buildinfo" [] []))) = .ok true ∧
    ¬ claimC2 := by
  refine ⟨by decide, by decide, by decide, fun h => ?_⟩
  have := (h notReadyWorld).1
  exact absurd this (by decide)

/-- C2 amended: `setup_scan_prereqs` first queries build readiness
(`getbuildinfo.do`); a readiness-query failure raises and aborts the
workflow.  If the app is not ready it cancels the existing build once
(`deletebuild.do`) and returns false if the cancel fails, without
attempting creation.  It then attempts creation exactly once — at most
one `createbuild.do` call ever happens, never a retry — and returns
true iff that single creation succeeds. -/
theorem setup_scan_prereqs_characterization (w : BuildWorld) :
    ((setup_scan_prereqs w).2.head? = Option.some "getbuildinfo.do") ∧
    (((setup_scan_prereqs w).2.count "createbuild.do") ≤ 1) ∧
    (∀ e, is_ready_for_new_build w.buildinfo = .error e →
      setup_scan_prereqs w = (.error e, ["getbuildinfo.do"])) ∧
    (is_ready_for_new_build w.buildinfo = .ok true →
      setup_scan_prereqs w =
        (create_build (w.create.headD (.exc .requestException)),
         ["getbuildinfo.do", "createbuild.do"])) ∧
    (is_ready_for_new_build w.buildinfo = .ok false →
      cancel_build w.delete = .ok false →
      setup_scan_prereqs w = (.ok false, ["getbuildinfo.do", "deletebuild.do"])) ∧
    (is_ready_for_new_build w.buildinfo = .ok false →
      cancel_build w.delete = .ok true →
      setup_scan_prereqs w =
        (create_build (w.create.headD (.exc .requestException)),
         ["getbuildinfo.do", "deletebuild.do", "createbuild.do"])) := by
  have tr : (setup_scan_prereqs w).2 = ["getbuildinfo.do"] ∨
      (setup_scan_prereqs w).2 = ["getbuildinfo.do", "deletebuild.do"] ∨
      (setup_scan_prereqs w).2 = ["getbuildinfo.do", "createbuild.do"] ∨
      (setup_scan_prereqs w).2 =
        ["getbuildinfo.do", "deletebuild.do", "createbuild.do"] := by
    unfold setup_scan_prereqs
    rcases is_ready_for_new_build w.buildinfo with e | b
    · simp
    · cases b
      · rcases cancel_build w.delete with e | c
        · simp
        · cases c
          · simp
          · rcases create_build (w.create.headD (.exc .requestException)) with
              e | b2 <;> simp
      · rcases create_build (w.create.headD (.exc .requestException)) with
          e | b2 <;> simp
  refine ⟨?_, ?_, fun e he => ?_, fun hr => ?_, fun hr hc => ?_, fun hr hc => ?_⟩
  · rcases tr with h | h | h | h <;> rw [h] <;> rfl
  · rcases tr with h | h | h | h <;> rw [h] <;> decide
  · simp [setup_scan_prereqs, he]
  · simp only [setup_scan_prereqs, hr]
    rcases hcr : create_build (w.create.headD (.exc .requestException)) with
      e | b2 <;> simp
  · simp [setup_scan_prereqs, hr, hc]
  · simp only [setup_scan_prereqs, hr, hc]
    rcases hcr : create_build (w.create.headD (.exc .requestException)) with
      e | b2 <;> simp

/-- Witness for the amended C2 theorem on `notReadyWorld`, discharging
the not-ready and cancel-succeeded hypotheses concretely. -/
theorem setup_scan_prereqs_characterization_witness :
    setup_scan_prereqs notReadyWorld =
      (create_build (notReadyWorld.create.headD (.exc .requestException)),
       ["getbuildinfo.do", "deletebuild.do", "createbuild.do"]) :=
  (setup_scan_prereqs_characterization notReadyWorld).2.2.2.2.2
    (by decide) (by decide)

/-! ## submit_artifacts.upload_large_file and the upload loop -/

/-- `submit_artifacts.upload_large_file`: read the artifact bytes and
POST them to `uploadlargefile.do`.  The file read outcome and transport
outcome are passed explicitly.  The bare `except:` clause logs and
re-raises, so every failure propagates; only `True` is ever
returned. -/
def upload_large_file (readResult : Except PyErr Unit) (t : TransportResult) :
    Except PyErr Bool :=
  match readResult with
  | .error e => .error e
  | .ok _ =>
    match api_http_request t with
    | .error e => .error e
    | .ok _ => .ok true

/-- The upload loop of `submit_artifacts.submit_artifacts`: for each
artifact, `if upload_large_file(...)` continue, `else` log the failure
and return `False`; an exception propagates.  An empty list means the
loop completed and control moved on. -/
def uploadLoop : List (Except PyErr Unit × TransportResult) → Except PyErr Bool
  | [] => .ok true
  | (rd, t) :: rest =>
    match upload_large_file rd t with
    | .error e => .error e
    | .ok true => uploadLoop rest
    | .ok false => .ok false

/-- C10: `upload_large_file` either returns `True` or raises — it never
returns `False` — and hence the upload loop's log-and-return-`False`
branch is unreachable: the loop never produces `.ok false`. -/
theorem upload_large_file_never_false :
    (∀ (rd : Except PyErr Unit) (t : TransportResult) (b : Bool),
      upload_large_file rd t = .ok b → b = true) ∧
    (∀ xs : List (Except PyErr Unit × TransportResult),
      uploadLoop xs ≠ .ok false) := by
  have h1 : ∀ (rd : Except PyErr Unit) (t : TransportResult) (b : Bool),
      upload_large_file rd t = .ok b → b = true := by
    intro rd t b h
    cases rd with
    | error e => simp [upload_large_file] at h
    | ok u =>
      unfold upload_large_file at h
      rcases ha : api_http_request t with e | x <;> rw [ha] at h
      · simp at h
      · simp only [Except.ok.injEq] at h
        exact h.symm
  refine ⟨h1, fun xs => ?_⟩
  induction xs with
  | nil => simp [uploadLoop]
  | cons p rest ih =>
    obtain ⟨rd, t⟩ := p
    unfold uploadLoop
    rcases hu : upload_large_file rd t with e | b
    · simp
    · have := h1 rd t b hu
      subst this
      simpa using ih

/-- Witness for C10 at a concrete input: a successful read and
transport, where the theorem forces the returned boolean to be true. -/
theorem upload_large_file_never_false_witness :
    true = true ∧
    uploadLoop [(.ok (), .resp 200 (.ok (.elem "result" [] [])))] ≠ .ok false :=
  ⟨upload_large_file_never_false.1 (.ok ())
      (.resp 200 (.ok (.elem "result" [] []))) true (by decide),
   upload_large_file_never_false.2 _⟩

/-! ## Python `int()` string parsing

`is_valid_attribute` decides hex-ness of `api_key_id`/`api_key_secret`
with `int(value, 16)` and whole-number-ness of `app_id`/`sandbox_id`
with `int(value)`.  The CPython grammar for `int` on an (ASCII) string
is: optional surrounding whitespace, an optional sign, for base 16 an
optional `0x`/`0X` prefix, then at least one digit, with single
underscores permitted between digits (and directly after the
prefix). -/

/-- The whitespace characters stripped by `int()` (ASCII subset). -/
def isPyWS (c : Char) : Bool :=
  c = ' ' || c = '\t' || c = '\n' || c = '\r' || c = '\x0b' || c = '\x0c'

/-- Strip leading and trailing whitespace. -/
def stripWS (cs : List Char) : List Char :=
  ((cs.dropWhile isPyWS).reverse.dropWhile isPyWS).reverse

/-- A hexadecimal digit (either case). -/
def isHexDigitCh (c : Char) : Bool :=
  c.isDigit || ('a' ≤ c && c ≤ 'f') || ('A' ≤ c && c ≤ 'F')

mutual

/-- `d (('_')? d)*`: a non-empty digit run with single underscores
between digits. -/
def digitsUnd (isD : Char → Bool) : List Char → Bool
  | [] => false
  | c :: cs => isD c && digitsUndRest isD cs

/-- The continuation of `digitsUnd` after at least one digit. -/
def digitsUndRest (isD : Char → Bool) : List Char → Bool
  | [] => true
  | '_' :: cs =>
    match cs with
    | d :: cs2 => isD d && digitsUndRest isD cs2
    | [] => false
  | c :: cs => isD c && digitsUndRest isD cs

end

/-- Strip one optional leading sign. -/
def stripSign : List Char → List Char
  | '+' :: r => r
  | '-' :: r => r
  | r => r

/-- Whether `int(s)` (base 10) succeeds on the string. -/
def pyInt10Ok (cs : List Char) : Bool :=
  digitsUnd Char.isDigit (stripSign (stripWS cs))

/-- The numeric value of a digit run with underscores. -/
def digitsVal (l : List Char) : Nat :=
  l.foldl (fun acc c => if c = '_' then acc else acc * 10 + (c.toNat - 48)) 0

/-- `int(s)` (base 10) as a value, `Option.none` when it raises
`ValueError`. -/
def pyParseInt10 (cs : List Char) : Option Int :=
  let t := stripWS cs
  match t with
  | '+' :: r => if digitsUnd Char.isDigit r then Option.some (digitsVal r) else Option.none
  | '-' :: r => if digitsUnd Char.isDigit r then Option.some (-(digitsVal r : Int)) else Option.none
  | r => if digitsUnd Char.isDigit r then Option.some (digitsVal r) else Option.none

/-- Whether `int(s, 16)` succeeds on the string: after whitespace and
sign, an optional `0x`/`0X` prefix (optionally followed by one
underscore) and a hex digit run with underscores. -/
def pyInt16Ok (cs : List Char) : Bool :=
  let t := stripSign (stripWS cs)
  match t with
  | '0' :: x :: r =>
    if x = 'x' || x = 'X' then
      match r with
      | '_' :: r2 => digitsUnd isHexDigitCh r2
      | _ => digitsUnd isHexDigitCh r
    else digitsUnd isHexDigitCh t
  | _ => digitsUnd isHexDigitCh t

/-! ## urllib.parse model

`is_valid_attribute`'s `base_url` branch calls
`urllib.parse.urlparse` and reads `.scheme`, `.netloc`, `.path` and
`.port`.  Modelled from the CPython implementation, restricted to
bracketless netlocs (the IPv6 bracket-mismatch error is omitted; the
hostname grammar used by the code rejects bracketed hosts anyway). -/

/-- Split a list at the first occurrence of `c`:
`(before, after)` without the separator. -/
def splitFirst (c : Char) : List Char → Option (List Char × List Char)
  | [] => Option.none
  | x :: xs =>
    if x = c then Option.some ([], xs)
    else
      match splitFirst c xs with
      | Option.some (pre, post) => Option.some (x :: pre, post)
      | Option.none => Option.none

/-- The part after the last occurrence of `c` (the whole list when `c`
is absent), as in `str.rpartition`. -/
def afterLast (c : Char) (l : List Char) : List Char :=
  (l.reverse.takeWhile (fun x => x ≠ c)).reverse

/-- The characters CPython accepts in a URL scheme. -/
def schemeCharOk (c : Char) : Bool :=
  c.isAlpha || c.isDigit || c = '+' || c = '-' || c = '.'

structure UrlParts where
  scheme : List Char
  netloc : List Char
  path : List Char

/-- `urllib.parse.urlparse`, reduced to the fields the code reads:
split a (lowercased) scheme at the first `':'` when the prefix is a
valid scheme, take the netloc after `"//"` up to `/`, `?` or `#`, and
strip fragment and query from the remainder to obtain the path. -/
def urlparse (s : String) : UrlParts :=
  let cs := s.data
  let schemeRest : List Char × List Char :=
    match splitFirst ':' cs with
    | Option.some (pre, post) =>
      if pre ≠ [] && (pre.headD ' ').isAlpha && pre.all schemeCharOk
      then (pre.map Char.toLower, post)
      else ([], cs)
    | Option.none => ([], cs)
  let netlocRest : List Char × List Char :=
    match schemeRest.2 with
    | '/' :: '/' :: r =>
      let nl := r.takeWhile (fun c => c ≠ '/' && c ≠ '?' && c ≠ '#')
      (nl, r.drop nl.length)
    | rest => ([], rest)
  let beforeFrag := netlocRest.2.takeWhile (fun c => c ≠ '#')
  let path := beforeFrag.takeWhile (fun c => c ≠ '?')
  ⟨schemeRest.1, netlocRest.1, path⟩

/-- `ParseResult.port`: the port part of the netloc (after the last
`'@'` and the first `':'`), converted with `int(·, 10)`;
`ValueError` when nonempty and not an in-range (0..65535) integer. -/
def urlPort (netloc : List Char) : Except PyErr (Option Int) :=
  let hostinfo := afterLast '@' netloc
  let port : List Char :=
    match splitFirst '[' hostinfo with
    | Option.some (_, bracketed) =>
      match splitFirst ']' bracketed with
      | Option.some (_, afterBr) =>
        match splitFirst ':' afterBr with
        | Option.some (_, p) => p
        | Option.none => []
      | Option.none => []
    | Option.none =>
      match splitFirst ':' hostinfo with
      | Option.some (_, p) => p
      | Option.none => []
  if port = [] then .ok Option.none
  else
    match pyParseInt10 port with
    | Option.some n =>
      if 0 ≤ n && n ≤ 65535 then .ok (Option.some n) else .error .valueError
    | Option.none => .error .valueError

/-! ## is_valid_netloc

The hostname/port regular expression of `utils.is_valid_netloc`
(`api.py` carries the same pattern with two stray spaces inside the
last port alternative, so it rejects ports 65530-65535), transliterated
alternative by alternative. -/

/-- `[a-z0-9]` (the pattern is lowercase-only). -/
def isLowerAlnum (c : Char) : Bool :=
  ('a' ≤ c && c ≤ 'z') || c.isDigit

/-- `[a-z0-9-_]` -/
def isLabelChar (c : Char) : Bool :=
  isLowerAlnum c || c = '-' || c = '_'

/-- One non-final hostname label:
`[a-z0-9](?:[a-z0-9-_]{0,61}[a-z0-9])?`. -/
def labelOk (l : List Char) : Bool :=
  match l, l.getLast? with
  | [], _ => false
  | _, Option.none => false
  | c :: rest, Option.some lastc =>
    if rest = [] then isLowerAlnum c
    else
      decide (l.length ≤ 63) && isLowerAlnum c && isLowerAlnum lastc &&
        rest.dropLast.all isLabelChar

/-- The final hostname label: `[a-z0-9][a-z0-9-_]{0,61}[a-z0-9]`
(length at least 2). -/
def finalLabelOk (l : List Char) : Bool :=
  match l, l.getLast? with
  | [], _ => false
  | _, Option.none => false
  | c :: rest, Option.some lastc =>
    if rest = [] then false
    else
      decide (l.length ≤ 63) && isLowerAlnum c && isLowerAlnum lastc &&
        rest.dropLast.all isLabelChar

/-- The hostname part `(?:label\.)+final`: split on dots, at least two
components, every leading component a label, the last the final
label. -/
def hostOk (host : List Char) : Bool :=
  let parts := List.splitOn '.' host
  decide (2 ≤ parts.length) &&
    parts.dropLast.all labelOk &&
    (parts.getLast?.elim false finalLabelOk)

/-- The port alternatives of `utils.py`:
`[0-9]{1,4}`, `[1-5][0-9]{4}`, `6[0-4][0-9]{3}`, `65[0-4][0-9]{2}`,
`655[0-2][0-9]`, `6553[0-5]`. -/
def portOkUtils (d : List Char) : Bool :=
  if 1 ≤ d.length && d.length ≤ 4 then d.all Char.isDigit
  else
    match d with
    | [a, b, c, e, f] =>
      (('1' ≤ a && a ≤ '5') && [b, c, e, f].all Char.isDigit) ||
      (a = '6' && ('0' ≤ b && b ≤ '4') && [c, e, f].all Char.isDigit) ||
      (a = '6' && b = '5' && ('0' ≤ c && c ≤ '4') && [e, f].all Char.isDigit) ||
      (a = '6' && b = '5' && c = '5' && ('0' ≤ e && e ≤ '2') && f.isDigit) ||
      (a = '6' && b = '5' && c = '5' && e = '3' && ('0' ≤ f && f ≤ '5'))
    | _ => false

/-- The port alternatives of `api.py`: identical except that the last
alternative reads `655  3[0-5]` (two literal spaces), so it matches a
seven-character port with spaces instead of 65530-65535. -/
def portOkApi (d : List Char) : Bool :=
  if 1 ≤ d.length && d.length ≤ 4 then d.all Char.isDigit
  else
    match d with
    | [a, b, c, e, f] =>
      (('1' ≤ a && a ≤ '5') && [b, c, e, f].all Char.isDigit) ||
      (a = '6' && ('0' ≤ b && b ≤ '4') && [c, e, f].all Char.isDigit) ||
      (a = '6' && b = '5' && ('0' ≤ c && c ≤ '4') && [e, f].all Char.isDigit) ||
      (a = '6' && b = '5' && c = '5' && ('0' ≤ e && e ≤ '2') && f.isDigit)
    | ['6', '5', '5', ' ', ' ', '3', x] => '0' ≤ x && x ≤ '5'
    | _ => false

/-- The full-match of the netloc pattern: hostname optionally followed
by `:port`.  Host labels cannot contain `':'`, so the first colon
separates the port. -/
def netlocMatch (portAlt : List Char → Bool) (netloc : List Char) : Bool :=
  match splitFirst ':' netloc with
  | Option.none => hostOk netloc
  | Option.some (host, rest) => hostOk host && portAlt rest

/-- `utils.is_valid_netloc` (over strings: the non-string guard is
handled at the call site, which always passes a parsed netloc
string). -/
def is_valid_netloc (netloc : List Char) : Bool := netlocMatch portOkUtils netloc

/-- `api.is_valid_netloc`: the variant with the corrupted final port
alternative. -/
def api_is_valid_netloc (netloc : List Char) : Bool := netlocMatch portOkApi netloc

/-! ## The attribute validator (`is_valid_attribute`)

Branch helpers shared by the `utils.py` and `api.py` copies of
`is_valid_attribute` (their per-key bodies are textually identical,
except that `api.py` lacks the `sandbox_id`/`sandbox_name` branches
and carries the corrupted netloc pattern). -/

mutual

/-- Python hashability of a modelled value: containers `list`, `set`
and `dict` are unhashable; a tuple is hashable iff all its elements
are; scalars are hashable.  (`x in some_set` raises `TypeError` on an
unhashable `x`.) -/
def pyHashable : PyValue → Bool
  | .list _ => false
  | .set _ => false
  | .dict _ => false
  | .tuple xs => pyHashableList xs
  | _ => true

/-- `pyHashable` over a tuple's elements. -/
def pyHashableList : List PyValue → Bool
  | [] => true
  | x :: xs => pyHashable x && pyHashableList xs

end

/-- Python iteration over a modelled value: `set(value)` iterates
strings per character, lists/tuples/sets per element and dicts per
key; `None`, booleans, integers and `Path` objects are not iterable
(`TypeError`). -/
def pyIterElems : PyValue → Option (List PyValue)
  | .str s => Option.some (s.data.map (fun c => PyValue.str (String.mk [c])))
  | .list xs => Option.some xs
  | .tuple xs => Option.some xs
  | .set xs => Option.some xs
  | .dict kvs => Option.some (kvs.map (fun p => p.1))
  | _ => Option.none

/-- The `base_url` branch: `urlparse(value)` (raising
`AttributeError` on a non-string), the four accumulated checks on
scheme, netloc and path, and the `parsed_url.port` access which
re-raises `ValueError` for a syntactically invalid port. -/
def validate_base_url (netlocCheck : List Char → Bool) (value : PyValue) :
    Except PyErr Bool :=
  match value with
  | .str s =>
    let u := urlparse s
    let okScheme := pyCasefold (String.mk u.scheme) = "https"
    let okNetlocNonempty := u.netloc ≠ []
    let okNetloc := netlocCheck u.netloc
    match urlPort u.netloc with
    | .error e => .error e
    | .ok _ =>
      let okPathNonRoot := ¬ (u.path = ['/'] || u.path = [])
      let okPathSlash := u.path.getLast? = Option.some '/'
      .ok (okScheme && okNetlocNonempty && okNetloc && okPathNonRoot && okPathSlash)
  | _ => .error .attributeError

/-- The `version` branch: a dict whose every key and value is a
string. -/
def validate_version (value : PyValue) : Except PyErr Bool :=
  match value with
  | .dict kvs =>
    .ok (kvs.all (fun p =>
      (match p.1 with | .str _ => true | _ => false) &&
      (match p.2 with | .str _ => true | _ => false)))
  | _ => .ok false

/-- `[a-zA-Z0-9-._~]` (RFC 3986 unreserved characters). -/
def isUnreservedCh (c : Char) : Bool :=
  c.isAlphanum || c = '-' || c = '.' || c = '_' || c = '~'

/-- The `endpoint`/`build_id` branch: a string fully matching
`[a-zA-Z0-9-._~]+`. -/
def validate_unreserved (value : PyValue) : Except PyErr Bool :=
  match value with
  | .str s => .ok (s.data ≠ [] && s.data.all isUnreservedCh)
  | _ => .ok false

/-- The `app_id` branch: must be a string, and `int(value)` must
succeed (both `ValueError` and `TypeError` are caught, so non-strings
are simply invalid). -/
def validate_app_id (value : PyValue) : Except PyErr Bool :=
  match value with
  | .str s => .ok (pyInt10Ok s.data)
  | _ => .ok false

/-- The `build_dir` branch: must be a `pathlib.Path`. -/
def validate_build_dir (value : PyValue) : Except PyErr Bool :=
  match value with
  | .path _ => .ok true
  | _ => .ok false

/-- The `sandbox_id` branch: `None`, or a string on which `int(value)`
succeeds. -/
def validate_sandbox_id (value : PyValue) : Except PyErr Bool :=
  match value with
  | .none => .ok true
  | .str s => .ok (pyInt10Ok s.data)
  | _ => .ok false

/-- The boolean-flag branches (`scan_all_nonfatal_top_level_modules`,
`auto_scan`, `ignore_compliance_status`): must be a `bool`. -/
def validate_bool_flag (value : PyValue) : Except PyErr Bool :=
  match value with
  | .bool _ => .ok true
  | _ => .ok false

/-- The sandbox-name character set
(`[a-zA-Z0-9`~!@#$%^&*()_+=\-\[\]|}{;:,./? ]`, i.e. alphanumerics, a
broad punctuation set including the backquote, excluding the
backslash). -/
def isSandboxNameCh (c : Char) : Bool :=
  c.isAlphanum || c = Char.ofNat 96 ||
    "~!@#$%^&*()_+=-[]|\x7d\x7b;:,./? ".data.contains c

/-- The `sandbox_name` branch: a string fully matching the allowed
character set. -/
def validate_sandbox_name (value : PyValue) : Except PyErr Bool :=
  match value with
  | .str s => .ok (s.data ≠ [] && s.data.all isSandboxNameCh)
  | _ => .ok false

/-- The `api_key_id` branch: must be a string of length 32
(`len(str(value)) != 32` also fails non-strings since the
`isinstance` check already did), and `int(value, 16)` must succeed
(`TypeError` on every modelled non-string). -/
def validate_api_key_id (value : PyValue) : Except PyErr Bool :=
  match value with
  | .str s => .ok (decide (s.data.length = 32) && pyInt16Ok s.data)
  | _ => .ok false

/-- The `api_key_secret` branch: no `isinstance` check, but
`len(str(value)) == 128` and `int(value, 16)` must both hold, and
`int(·, 16)` raises `TypeError` (caught, hence invalid) on every
modelled non-string value. -/
def validate_api_key_secret (value : PyValue) : Except PyErr Bool :=
  match value with
  | .str s => .ok (decide (s.data.length = 128) && pyInt16Ok s.data)
  | _ => .ok false

/-- The allowed log level names (`constants.ALLOWED_LOG_LEVELS`). -/
def ALLOWED_LOG_LEVELS : List String :=
  ["DEBUG", "INFO", "WARNING", "ERROR", "CRITICAL"]

/-- The `loglevel` branch: `value not in ALLOWED_LOG_LEVELS` — a set
membership test, raising `TypeError` on an unhashable value. -/
def validate_loglevel (value : PyValue) : Except PyErr Bool :=
  if pyHashable value then
    .ok (match value with
      | .str s => ALLOWED_LOG_LEVELS.contains s
      | _ => false)
  else .error .typeError

/-- `constants.SUPPORTED_WORKFLOWS` -/
def SUPPORTED_WORKFLOWS : List String := ["submit_artifacts", "check_compliance"]

/-- The `workflow` branch: `isinstance(value, list)` and
`SUPPORTED_WORKFLOWS.issuperset(set(value))` — the second check runs
unconditionally, so `set(value)` raises `TypeError` on a non-iterable
value or one with unhashable elements. -/
def validate_workflow (value : PyValue) : Except PyErr Bool :=
  match pyIterElems value with
  | Option.none => .error .typeError
  | Option.some elems =>
    if ¬ pyHashableList elems then .error .typeError
    else
      .ok ((match value with | .list _ => true | _ => false) &&
        elems.all (fun e =>
          match e with
          | .str s => SUPPORTED_WORKFLOWS.contains s
          | _ => false))

/-- `constants.SUPPORTED_VERBS` -/
def SUPPORTED_VERBS : List String := ["get", "post"]

/-- The `verb` branch: `value not in SUPPORTED_VERBS`, a set
membership test (raises `TypeError` on an unhashable value). -/
def validate_verb (value : PyValue) : Except PyErr Bool :=
  if pyHashable value then
    .ok (match value with
      | .str s => SUPPORTED_VERBS.contains s
      | _ => false)
  else .error .typeError

/-- `utils.is_valid_attribute`: the per-key rule table; an unknown key
is logged at debug level and left valid. -/
def is_valid_attribute (key : String) (value : PyValue) : Except PyErr Bool :=
  if key = "base_url" then validate_base_url is_valid_netloc value
  else if key = "version" then validate_version value
  else if key = "endpoint" then validate_unreserved value
  else if key = "app_id" then validate_app_id value
  else if key = "build_dir" then validate_build_dir value
  else if key = "build_id" then validate_unreserved value
  else if key = "sandbox_id" then validate_sandbox_id value
  else if key = "scan_all_nonfatal_top_level_modules" then validate_bool_flag value
  else if key = "auto_scan" then validate_bool_flag value
  else if key = "sandbox_name" then validate_sandbox_name value
  else if key = "api_key_id" then validate_api_key_id value
  else if key = "api_key_secret" then validate_api_key_secret value
  else if key = "ignore_compliance_status" then validate_bool_flag value
  else if key = "loglevel" then validate_loglevel value
  else if key = "workflow" then validate_workflow value
  else if key = "verb" then validate_verb value
  else .ok true

/-- `api.is_valid_attribute`: the older copy in `api.py` — the same
table without the `sandbox_id`/`sandbox_name` branches and with the
corrupted netloc pattern. -/
def api_is_valid_attribute (key : String) (value : PyValue) : Except PyErr Bool :=
  if key = "base_url" then validate_base_url api_is_valid_netloc value
  else if key = "version" then validate_version value
  else if key = "endpoint" then validate_unreserved value
  else if key = "app_id" then validate_app_id value
  else if key = "build_dir" then validate_build_dir value
  else if key = "build_id" then validate_unreserved value
  else if key = "scan_all_nonfatal_top_level_modules" then validate_bool_flag value
  else if key = "auto_scan" then validate_bool_flag value
  else if key = "api_key_id" then validate_api_key_id value
  else if key = "api_key_secret" then validate_api_key_secret value
  else if key = "ignore_compliance_status" then validate_bool_flag value
  else if key = "loglevel" then validate_loglevel value
  else if key = "workflow" then validate_workflow value
  else if key = "verb" then validate_verb value
  else .ok true

/-- The keys with a rule in `utils.is_valid_attribute`. -/
def KNOWN_VALIDATOR_KEYS : List String :=
  ["base_url", "version", "endpoint", "app_id", "build_dir", "build_id",
   "sandbox_id", "scan_all_nonfatal_top_level_modules", "auto_scan",
   "sandbox_name", "api_key_id", "api_key_secret",
   "ignore_compliance_status", "loglevel", "workflow", "verb"]

/-- C8 as stated: the `api_key_id` rule accepts exactly the strings of
32 hex characters, and the `api_key_secret` rule exactly the values of
128 hex characters. -/
def claimC8 : Prop :=
  (∀ v, is_valid_attribute "api_key_id" v = .ok true ↔
    ∃ s, v = .str s ∧ s.data.length = 32 ∧ s.data.all isHexDigitCh = true) ∧
  (∀ v, is_valid_attribute "api_key_secret" v = .ok true ↔
    ∃ s, v = .str s ∧ s.data.length = 128 ∧ s.data.all isHexDigitCh = true)

/-- C9 as stated: `is_valid_attribute` is total — for every key and
value it returns a boolean (never raises) — and every key outside the
rule table is vacuously valid. -/
def claimC9 : Prop :=
  ∀ (key : String) (v : PyValue),
    (∃ b, is_valid_attribute key v = .ok b) ∧
    (key ∉ KNOWN_VALIDATOR_KEYS → is_valid_attribute key v = .ok true)

/-- A 32-character string accepted by `int(·, 16)` that is not made of
hex digits: a leading `'+'` sign followed by 31 zeros. -/
def plusKeyId : String := "+0000000000000000000000000000000"

/-- The 128-character analogue for `api_key_secret`. -/
def plusKeySecret : String :=
  String.mk ('+' :: List.replicate 127 '0')

set_option maxRecDepth 8000 in
/-- C8 fails on the code: `int(value, 16)` also accepts signs (and
`0x` prefixes, underscores and surrounding whitespace), so the
32-character string `+0…0` validates as an `api_key_id` although it is
not 32 hex characters, and likewise for `api_key_secret`. -/
theorem is_valid_attribute_hex_counterexample :
    is_valid_attribute "api_key_id" (.str plusKeyId) = .ok true ∧
    plusKeyId.data.all isHexDigitCh = false ∧
    is_valid_attribute "api_key_secret" (.str plusKeySecret) = .ok true ∧
    plusKeySecret.data.all isHexDigitCh = false ∧
    ¬ claimC8 := by
  refine ⟨by decide, by decide, by decide, by decide, fun h => ?_⟩
  have h1 := (h.1 (.str plusKeyId)).1 (by decide)
  obtain ⟨s, hs, _, hhex⟩ := h1
  cases hs
  exact absurd hhex (by decide)

/-- C8 amended: the `api_key_id` rule accepts exactly the strings of
length 32 accepted by Python's `int(·, 16)` — hex digits, optionally
with surrounding whitespace, a sign, a `0x`/`0X` prefix and single
underscores between digits — and the `api_key_secret` rule the same
with length 128 (among the modelled value types only strings can pass,
since `int(non-string, 16)` raises `TypeError`, which the code catches
and treats as invalid). -/
theorem is_valid_attribute_hex_characterization :
    (∀ v, is_valid_attribute "api_key_id" v = .ok true ↔
      ∃ s, v = .str s ∧ s.data.length = 32 ∧ pyInt16Ok s.data = true) ∧
    (∀ v, is_valid_attribute "api_key_secret" v = .ok true ↔
      ∃ s, v = .str s ∧ s.data.length = 128 ∧ pyInt16Ok s.data = true) := by
  have hid : ∀ v, is_valid_attribute "api_key_id" v = validate_api_key_id v :=
    fun v => rfl
  have hsec : ∀ v, is_valid_attribute "api_key_secret" v =
      validate_api_key_secret v := fun v => rfl
  constructor
  · intro v
    rw [hid]
    cases v <;> simp [validate_api_key_id]
  · intro v
    rw [hsec]
    cases v <;> simp [validate_api_key_secret]

/-- Totality of the branches that can never raise. -/
theorem branch_validators_total :
    (∀ v, ∃ b, validate_version v = .ok b) ∧
    (∀ v, ∃ b, validate_unreserved v = .ok b) ∧
    (∀ v, ∃ b, validate_app_id v = .ok b) ∧
    (∀ v, ∃ b, validate_build_dir v = .ok b) ∧
    (∀ v, ∃ b, validate_sandbox_id v = .ok b) ∧
    (∀ v, ∃ b, validate_bool_flag v = .ok b) ∧
    (∀ v, ∃ b, validate_sandbox_name v = .ok b) ∧
    (∀ v, ∃ b, validate_api_key_id v = .ok b) ∧
    (∀ v, ∃ b, validate_api_key_secret v = .ok b) := by
  refine ⟨?_, ?_, ?_, ?_, ?_, ?_, ?_, ?_, ?_⟩ <;>
    intro v <;> cases v <;>
    simp [validate_version, validate_unreserved, validate_app_id,
      validate_build_dir, validate_sandbox_id, validate_bool_flag,
      validate_sandbox_name, validate_api_key_id, validate_api_key_secret]

/-- C9 fails on the code: the validator can raise — a `base_url` with
a syntactically invalid port re-raises `ValueError`, a non-string
`base_url` raises `AttributeError` from `urlparse`, and the `workflow`
and `loglevel` membership/iteration checks raise `TypeError` on
non-iterable or unhashable values. -/
theorem is_valid_attribute_raises_counterexample :
    is_valid_attribute "base_url" (.str "https://example.com:x/api/") =
      .error .valueError ∧
    is_valid_attribute "base_url" (.int 7) = .error .attributeError ∧
    is_valid_attribute "workflow" PyValue.none = .error .typeError ∧
    is_valid_attribute "loglevel" (.dict []) = .error .typeError ∧
    ¬ claimC9 := by
  refine ⟨by decide, by decide, by decide, by decide, fun h => ?_⟩
  have h1 := (h "base_url" (.str "https://example.com:x/api/")).1
  rw [show is_valid_attribute "base_url" (.str "https://example.com:x/api/") =
      .error .valueError from by decide] at h1
  obtain ⟨b, hb⟩ := h1
  cases hb

/-- C9 amended: `is_valid_attribute` is stateless and pure; unknown
keys are vacuously valid; the `version`, `endpoint`, `app_id`,
`build_dir`, `build_id`, `sandbox_id`, boolean-flag, `sandbox_name`,
`api_key_id` and `api_key_secret` branches always return a boolean;
but the `base_url` branch returns a boolean only for strings whose
parsed port is absent or valid (otherwise it raises), and the
`loglevel`, `verb` and `workflow` branches raise `TypeError` on
unhashable (resp. non-iterable or unhashable-element) values. -/
theorem is_valid_attribute_totality :
    (∀ (key : String) (v : PyValue), key ∉ KNOWN_VALIDATOR_KEYS →
      is_valid_attribute key v = .ok true) ∧
    (∀ key ∈ ["version", "endpoint", "app_id", "build_dir", "build_id",
       "sandbox_id", "scan_all_nonfatal_top_level_modules", "auto_scan",
       "sandbox_name", "api_key_id", "api_key_secret",
       "ignore_compliance_status"],
      ∀ v, ∃ b, is_valid_attribute key v = .ok b) ∧
    (∀ v, (∃ b, is_valid_attribute "base_url" v = .ok b) ↔
      (∃ s, v = .str s ∧ (urlPort (urlparse s).netloc).isOk = true)) ∧
    (∀ v, (∃ b, is_valid_attribute "loglevel" v = .ok b) ↔ pyHashable v = true) ∧
    (∀ v, (∃ b, is_valid_attribute "verb" v = .ok b) ↔ pyHashable v = true) ∧
    (∀ v, (∃ b, is_valid_attribute "workflow" v = .ok b) ↔
      (∃ elems, pyIterElems v = Option.some elems ∧
        pyHashableList elems = true)) := by
  refine ⟨?_, ?_, ?_, ?_, ?_, ?_⟩
  · intro key v hk
    simp only [KNOWN_VALIDATOR_KEYS, List.mem_cons, List.not_mem_nil,
      or_false, not_or] at hk
    obtain ⟨k1, k2, k3, k4, k5, k6, k7, k8, k9, k10, k11, k12, k13, k14,
      k15, k16⟩ := hk
    unfold is_valid_attribute
    rw [if_neg k1, if_neg k2, if_neg k3, if_neg k4, if_neg k5, if_neg k6,
      if_neg k7, if_neg k8, if_neg k9, if_neg k10, if_neg k11, if_neg k12,
      if_neg k13, if_neg k14, if_neg k15, if_neg k16]
  · intro key hk v
    fin_cases hk
    · exact branch_validators_total.1 v
    · exact branch_validators_total.2.1 v
    · exact branch_validators_total.2.2.1 v
    · exact branch_validators_total.2.2.2.1 v
    · exact branch_validators_total.2.1 v
    · exact branch_validators_total.2.2.2.2.1 v
    · exact branch_validators_total.2.2.2.2.2.1 v
    · exact branch_validators_total.2.2.2.2.2.1 v
    · exact branch_validators_total.2.2.2.2.2.2.1 v
    · exact branch_validators_total.2.2.2.2.2.2.2.1 v
    · exact branch_validators_total.2.2.2.2.2.2.2.2 v
    · exact branch_validators_total.2.2.2.2.2.1 v
  · intro v
    have hb : ∀ w, is_valid_attribute "base_url" w =
        validate_base_url is_valid_netloc w := fun w => rfl
    rw [hb]
    cases v <;> simp only [validate_base_url]
    case str s =>
      rcases hp : urlPort (urlparse s).netloc with e | p
      · simp [hp, Except.isOk, Except.toBool]
      · simp [hp, Except.isOk, Except.toBool]
    all_goals
      simp [Except.isOk, Except.toBool]
  · intro v
    have hl : ∀ w, is_valid_attribute "loglevel" w = validate_loglevel w :=
      fun w => rfl
    rw [hl]
    unfold validate_loglevel
    by_cases hh : pyHashable v = true <;> simp [hh]
  · intro v
    have hv : ∀ w, is_valid_attribute "verb" w = validate_verb w :=
      fun w => rfl
    rw [hv]
    unfold validate_verb
    by_cases hh : pyHashable v = true <;> simp [hh]
  · intro v
    have hw : ∀ w, is_valid_attribute "workflow" w = validate_workflow w :=
      fun w => rfl
    rw [hw]
    unfold validate_workflow
    rcases hi : pyIterElems v with _ | elems
    · simp
    · by_cases hh : pyHashableList elems = true <;> simp [hh]

/-- Witness for the amended C9 theorem: an unknown key is valid for a
concrete exotic value, and the totality clauses applied at concrete
keys and values. -/
theorem is_valid_attribute_totality_witness :
    is_valid_attribute "frobnicate" (.dict [(.str "x", PyValue.none)]) =
      .ok true ∧
    (∃ b, is_valid_attribute "endpoint" (.str "getappbuilds.do") = .ok b) :=
  ⟨is_valid_attribute_totality.1 "frobnicate"
      (.dict [(.str "x", PyValue.none)]) (by decide),
   is_valid_attribute_totality.2.1 "endpoint" (by simp) (.str "getappbuilds.do")⟩

/-! ## API session objects (`api.py`)

`VeracodeXMLAPI` declares every session field as a property whose
getter validates the stored value and whose setter validates the new
value before assigning, both through
`VeracodeXMLAPI._validate(key, value)` which raises `ValueError` on an
invalid value (and lets an exception raised by `is_valid_attribute`
itself propagate).  A session is modelled as a map from its field enum
to stored `PyValue`s; setters produce a new map. -/

/-- The fields of `UploadAPI` (those of `VeracodeXMLAPI` plus the
upload-specific ones).  `api.py` as present in this repository does
not define the `sandbox_id` property that `submit_artifacts.py`
assigns and reads; it is included modelled from the spec (see
`uploadFieldValidate`). -/
inductive UploadField where
  | base_url | version | app_id | build_dir | build_id
  | scan_all_nonfatal_top_level_modules | auto_scan | sandbox_id
  deriving DecidableEq

/-- The attribute name of an `UploadAPI` field. -/
def UploadField.key : UploadField → String
  | .base_url => "base_url"
  | .version => "version"
  | .app_id => "app_id"
  | .build_dir => "build_dir"
  | .build_id => "build_id"
  | .scan_all_nonfatal_top_level_modules => "scan_all_nonfatal_top_level_modules"
  | .auto_scan => "auto_scan"
  | .sandbox_id => "sandbox_id"

/-- The fields of `ResultsAPI`. -/
inductive ResultsField where
  | base_url | version | app_id | ignore_compliance_status
  deriving DecidableEq

/-- The attribute name of a `ResultsAPI` field. -/
def ResultsField.key : ResultsField → String
  | .base_url => "base_url"
  | .version => "version"
  | .app_id => "app_id"
  | .ignore_compliance_status => "ignore_compliance_status"

/-- Modelled from the spec: the fields of the `SandboxAPI` session
class, whose definition is missing from `src/veracode/api.py` (it is
imported and used by `submit_artifacts.py` and `config.py`): base
URL, version map, application id, build id, sandbox id and sandbox
name (spec §3). -/
inductive SandboxField where
  | base_url | version | app_id | build_id | sandbox_id | sandbox_name
  deriving DecidableEq

/-- The attribute name of a `SandboxAPI` field. -/
def SandboxField.key : SandboxField → String
  | .base_url => "base_url"
  | .version => "version"
  | .app_id => "app_id"
  | .build_id => "build_id"
  | .sandbox_id => "sandbox_id"
  | .sandbox_name => "sandbox_name"

/-- The validator `api.py` sessions consult for an `UploadAPI` field:
`api.is_valid_attribute` on the field's name.  The `sandbox_id`
property is modelled from the spec ("string whole-number or absent"),
i.e. the `sandbox_id` rule of `utils.is_valid_attribute`. -/
def uploadFieldValidate (f : UploadField) (v : PyValue) : Except PyErr Bool :=
  match f with
  | .sandbox_id => is_valid_attribute "sandbox_id" v
  | _ => api_is_valid_attribute (UploadField.key f) v

/-- The validator for a `ResultsAPI` field. -/
def resultsFieldValidate (f : ResultsField) (v : PyValue) : Except PyErr Bool :=
  api_is_valid_attribute (ResultsField.key f) v

/-- Modelled from the spec: the validator for a `SandboxAPI` field —
the Attribute Validator's rule for the field's name
(`utils.is_valid_attribute` carries the `sandbox_id`/`sandbox_name`
rules the spec describes). -/
def sandboxFieldValidate (f : SandboxField) (v : PyValue) : Except PyErr Bool :=
  is_valid_attribute (SandboxField.key f) v

/-- `VeracodeXMLAPI._validate`: return when `is_valid_attribute` says
valid, raise `ValueError` when it says invalid, and let an exception
raised by the validator itself propagate. -/
def runValidate (r : Except PyErr Bool) : Except PyErr Unit :=
  match r with
  | .error e => .error e
  | .ok true => .ok ()
  | .ok false => .error .valueError

/-- A property setter: validate what was provided, then assign; on
failure nothing is assigned (the returned exception carries no new
state, so the stored map is unchanged). -/
def setField {F : Type} [DecidableEq F]
    (validator : F → PyValue → Except PyErr Bool)
    (s : F → PyValue) (f : F) (v : PyValue) : Except PyErr (F → PyValue) :=
  match runValidate (validator f v) with
  | .error e => .error e
  | .ok _ => .ok (fun g => if g = f then v else s g)

/-- A property getter: validate what was already stored, then return
it. -/
def getField {F : Type}
    (validator : F → PyValue → Except PyErr Bool)
    (s : F → PyValue) (f : F) : Except PyErr PyValue :=
  match runValidate (validator f (s f)) with
  | .error e => .error e
  | .ok _ => .ok (s f)

/-- The read/write invariant of one session kind: a successful write
means the written value passed that field's rule and only that field
changed; a failed write yields no new state; a successful read returns
the stored value and means it passes the rule now; an invalid stored
value makes the read itself fail. -/
def FieldInvariant {F : Type} [DecidableEq F]
    (validator : F → PyValue → Except PyErr Bool) : Prop :=
  ∀ (s : F → PyValue) (f : F) (v : PyValue),
    (∀ s2, setField validator s f v = .ok s2 →
      validator f v = .ok true ∧ s2 f = v ∧ ∀ g, g ≠ f → s2 g = s g) ∧
    (validator f v ≠ .ok true → ∀ s2, setField validator s f v ≠ .ok s2) ∧
    (∀ x, getField validator s f = .ok x →
      x = s f ∧ validator f (s f) = .ok true) ∧
    (validator f (s f) ≠ .ok true → ∀ x, getField validator s f ≠ .ok x)

/-- The invariant holds for any validator (the getter/setter pattern
enforces it uniformly). -/
theorem fieldInvariant_holds {F : Type} [DecidableEq F]
    (validator : F → PyValue → Except PyErr Bool) :
    FieldInvariant validator := by
  intro s f v
  refine ⟨fun s2 h => ?_, fun hv s2 h => ?_, fun x h => ?_, fun hv x h => ?_⟩
  · unfold setField runValidate at h
    rcases hval : validator f v with e | b
    · rw [hval] at h; cases h
    · rw [hval] at h
      cases b
      · cases h
      · simp only [Except.ok.injEq] at h
        subst h
        exact ⟨rfl, by simp, fun g hg => by simp [hg]⟩
  · unfold setField runValidate at h
    rcases hval : validator f v with e | b
    · rw [hval] at h; cases h
    · rw [hval] at h
      cases b
      · cases h
      · exact hv hval
  · unfold getField runValidate at h
    rcases hval : validator f (s f) with e | b
    · rw [hval] at h; cases h
    · rw [hval] at h
      cases b
      · cases h
      · simp only [Except.ok.injEq] at h
        exact ⟨h.symm, rfl⟩
  · unfold getField runValidate at h
    rcases hval : validator f (s f) with e | b
    · rw [hval] at h; cases h
    · rw [hval] at h
      cases b
      · cases h
      · exact hv hval

/-- C4: for every field of the Upload, Results and Sandbox sessions,
every write validates the new value against the Attribute Validator's
rule for that field's name before assigning (a failed write stores
nothing and changes no other field), and every read validates the
currently stored value (an invalid stored value makes the read raise),
so an invalid value can never be stored through, or read from, a
session field. -/
theorem session_fields_revalidate :
    FieldInvariant uploadFieldValidate ∧
    FieldInvariant resultsFieldValidate ∧
    FieldInvariant sandboxFieldValidate :=
  ⟨fieldInvariant_holds uploadFieldValidate,
   fieldInvariant_holds resultsFieldValidate,
   fieldInvariant_holds sandboxFieldValidate⟩

/-- The stored state of an `UploadAPI` right after `__init__` (the
defaults `UploadAPI.__init__` assigns through the setters, with
`app_id "1337"` and a timestamp-shaped default build id). -/
def defaultUploadState : UploadField → PyValue
  | .base_url => .str "https://analysiscenter.veracode.com/api/"
  | .version => .dict
      [(.str "beginprescan.do", .str "5.0"), (.str "beginscan.do", .str "5.0"),
       (.str "createapp.do", .str "5.0"), (.str "createbuild.do", .str "5.0"),
       (.str "deleteapp.do", .str "5.0"), (.str "deletebuild.do", .str "5.0"),
       (.str "getappinfo.do", .str "5.0"), (.str "getapplist.do", .str "5.0"),
       (.str "getbuildinfo.do", .str "5.0"), (.str "getbuildlist.do", .str "5.0"),
       (.str "getfilelist.do", .str "5.0"), (.str "getpolicylist.do", .str "5.0"),
       (.str "getprescanresults.do", .str "5.0"),
       (.str "getvendorlist.do", .str "5.0"), (.str "removefile.do", .str "5.0"),
       (.str "updateapp.do", .str "5.0"), (.str "updatebuild.do", .str "5.0"),
       (.str "uploadfile.do", .str "5.0"), (.str "uploadlargefile.do", .str "5.0")]
  | .app_id => .str "1337"
  | .build_dir => .path "/build"
  | .build_id => .str "2024-01-01_00-00-00"
  | .scan_all_nonfatal_top_level_modules => .bool true
  | .auto_scan => .bool true
  | .sandbox_id => PyValue.none

/-- Witness for C4: on the default `UploadAPI` state, writing
`auto_scan := False` succeeds and the theorem yields that the value
passed its rule, was stored, and left `app_id` untouched; and writing
the invalid `auto_scan := "yes"` is rejected. -/
theorem session_fields_revalidate_witness :
    (uploadFieldValidate .auto_scan (.bool false) = .ok true ∧
      (fun g => if g = UploadField.auto_scan then PyValue.bool false
        else defaultUploadState g) UploadField.auto_scan = .bool false ∧
      ∀ g, g ≠ UploadField.auto_scan →
        (fun g => if g = UploadField.auto_scan then PyValue.bool false
          else defaultUploadState g) g = defaultUploadState g) ∧
    (∀ s2, setField uploadFieldValidate defaultUploadState .auto_scan
      (.str "yes") ≠ .ok s2) :=
  ⟨(session_fields_revalidate.1 defaultUploadState .auto_scan (.bool false)).1
      (fun g => if g = UploadField.auto_scan then PyValue.bool false
        else defaultUploadState g) rfl,
   (session_fields_revalidate.1 defaultUploadState .auto_scan (.str "yes")).2.1
      (by decide)⟩

/-! ## config.py: structural cleanup (`remove_nones`,
`remove_empty_dicts`, `filter_config`) -/

mutual

/-- `config.remove_nones`: rebuild lists/tuples/sets keeping the items
that are not `None` (recursing into the kept ones), rebuild dicts
keeping the entries whose key and value are both not `None` (recursing
into both); return anything else unchanged. -/
def remove_nones : PyValue → PyValue
  | .list xs => .list (removeNonesList xs)
  | .tuple xs => .tuple (removeNonesList xs)
  | .set xs => .set (removeNonesList xs)
  | .dict kvs => .dict (removeNonesPairs kvs)
  | v => v

/-- The list comprehension of `remove_nones`. -/
def removeNonesList : List PyValue → List PyValue
  | [] => []
  | x :: xs =>
    if x = PyValue.none then removeNonesList xs
    else remove_nones x :: removeNonesList xs

/-- The dict comprehension of `remove_nones`. -/
def removeNonesPairs : List (PyValue × PyValue) → List (PyValue × PyValue)
  | [] => []
  | (k, v) :: rest =>
    if k = PyValue.none ∨ v = PyValue.none then removeNonesPairs rest
    else (remove_nones k, remove_nones v) :: removeNonesPairs rest

end

/-- `value != {}` is false exactly for an empty dict. -/
def isEmptyDict : PyValue → Bool
  | .dict [] => true
  | _ => false

mutual

/-- `config.remove_empty_dicts`: rebuild lists/tuples/sets keeping the
items that are not `{}`, rebuild dicts keeping the entries whose value
is not `{}` (recursing into kept keys and values); return anything
else unchanged. -/
def remove_empty_dicts : PyValue → PyValue
  | .list xs => .list (removeEmptyList xs)
  | .tuple xs => .tuple (removeEmptyList xs)
  | .set xs => .set (removeEmptyList xs)
  | .dict kvs => .dict (removeEmptyPairs kvs)
  | v => v

/-- The list comprehension of `remove_empty_dicts`. -/
def removeEmptyList : List PyValue → List PyValue
  | [] => []
  | x :: xs =>
    if isEmptyDict x then removeEmptyList xs
    else remove_empty_dicts x :: removeEmptyList xs

/-- The dict comprehension of `remove_empty_dicts` (only the value is
tested against `{}`). -/
def removeEmptyPairs : List (PyValue × PyValue) → List (PyValue × PyValue)
  | [] => []
  | (k, v) :: rest =>
    if isEmptyDict v then removeEmptyPairs rest
    else (remove_empty_dicts k, remove_empty_dicts v) :: removeEmptyPairs rest

end

mutual

/-- A size measure on `PyValue` decreased by both cleanup passes. -/
def psize : PyValue → Nat
  | .list xs => 1 + psizeList xs
  | .tuple xs => 1 + psizeList xs
  | .set xs => 1 + psizeList xs
  | .dict kvs => 1 + psizePairs kvs
  | _ => 1

/-- `psize` summed over a list. -/
def psizeList : List PyValue → Nat
  | [] => 0
  | x :: xs => psize x + psizeList xs

/-- `psize` summed over dict entries. -/
def psizePairs : List (PyValue × PyValue) → Nat
  | [] => 0
  | (k, v) :: rest => psize k + psize v + psizePairs rest

end

theorem psize_pos : ∀ x : PyValue, 1 ≤ psize x := by
  intro x
  cases x <;> simp [psize] <;> omega

theorem removeNones_psize :
    ∀ x : PyValue, psize (remove_nones x) ≤ psize x := by
  have aux : ∀ n, ∀ x : PyValue, sizeOf x < n →
      psize (remove_nones x) ≤ psize x := by
    intro n
    induction n with
    | zero => intro x hx; exact absurd hx (by omega)
    | succ n ih =>
      intro x hx
      have auxList : ∀ xs : List PyValue,
          (∀ y ∈ xs, psize (remove_nones y) ≤ psize y) →
          psizeList (removeNonesList xs) ≤ psizeList xs := by
        intro xs h
        induction xs with
        | nil => simp [removeNonesList]
        | cons y ys ihl =>
          have hy := h y (by simp)
          have hys := ihl (fun z hz => h z (List.mem_cons_of_mem y hz))
          by_cases hny : y = PyValue.none
          · have hrw : removeNonesList (y :: ys) = removeNonesList ys := by
              simp [removeNonesList, hny]
            rw [hrw]
            have hpos := psize_pos y
            simp only [psizeList]
            omega
          · have hrw : removeNonesList (y :: ys) =
                remove_nones y :: removeNonesList ys := by
              simp [removeNonesList, hny]
            rw [hrw]
            simp only [psizeList]
            omega
      have auxPairs : ∀ kvs : List (PyValue × PyValue),
          (∀ p ∈ kvs, psize (remove_nones p.1) ≤ psize p.1 ∧
            psize (remove_nones p.2) ≤ psize p.2) →
          psizePairs (removeNonesPairs kvs) ≤ psizePairs kvs := by
        intro kvs h
        induction kvs with
        | nil => simp [removeNonesPairs]
        | cons p ps ihl =>
          obtain ⟨k, v⟩ := p
          have hp := h (k, v) (by simp)
          have hps := ihl (fun z hz => h z (List.mem_cons_of_mem (k, v) hz))
          by_cases hnv : k = PyValue.none ∨ v = PyValue.none
          · have hrw : removeNonesPairs ((k, v) :: ps) = removeNonesPairs ps := by
              simp [removeNonesPairs, hnv]
            rw [hrw]
            have h1 := psize_pos k
            have h2 := psize_pos v
            simp only [psizePairs]
            omega
          · have hrw : removeNonesPairs ((k, v) :: ps) =
                (remove_nones k, remove_nones v) :: removeNonesPairs ps := by
              simp [removeNonesPairs, hnv]
            rw [hrw]
            simp only [psizePairs]
            simp only at hp
            omega
      cases x with
      | list xs =>
        simp only [remove_nones, psize]
        have := auxList xs (fun y hy => ih y (by
          have h1 : sizeOf y < sizeOf xs := List.sizeOf_lt_of_mem hy
          simp only [PyValue.list.sizeOf_spec] at hx
          omega))
        omega
      | tuple xs =>
        simp only [remove_nones, psize]
        have := auxList xs (fun y hy => ih y (by
          have h1 : sizeOf y < sizeOf xs := List.sizeOf_lt_of_mem hy
          simp only [PyValue.tuple.sizeOf_spec] at hx
          omega))
        omega
      | set xs =>
        simp only [remove_nones, psize]
        have := auxList xs (fun y hy => ih y (by
          have h1 : sizeOf y < sizeOf xs := List.sizeOf_lt_of_mem hy
          simp only [PyValue.set.sizeOf_spec] at hx
          omega))
        omega
      | dict kvs =>
        simp only [remove_nones, psize]
        have := auxPairs kvs (fun p hp => by
          have h1 : sizeOf p < sizeOf kvs := List.sizeOf_lt_of_mem hp
          have h2 : sizeOf p.1 < sizeOf p ∧ sizeOf p.2 < sizeOf p := by
            obtain ⟨a, b⟩ := p
            simp only [Prod.mk.sizeOf_spec]
            omega
          simp only [PyValue.dict.sizeOf_spec] at hx
          exact ⟨ih p.1 (by omega), ih p.2 (by omega)⟩)
        omega
      | none => simp [remove_nones]
      | bool b => simp [remove_nones]
      | int i => simp [remove_nones]
      | str s => simp [remove_nones]
      | path s => simp [remove_nones]
  exact fun x => aux (sizeOf x + 1) x (by omega)

theorem removeNonesList_psize (xs : List PyValue) :
    psizeList (removeNonesList xs) ≤ psizeList xs := by
  have h := removeNones_psize (.list xs)
  simp only [remove_nones, psize] at h
  omega

theorem removeNonesPairs_psize (kvs : List (PyValue × PyValue)) :
    psizePairs (removeNonesPairs kvs) ≤ psizePairs kvs := by
  have h := removeNones_psize (.dict kvs)
  simp only [remove_nones, psize] at h
  omega

theorem removeEmpty_psize :
    ∀ x : PyValue, psize (remove_empty_dicts x) ≤ psize x := by
  refine remove_empty_dicts.induct
    (fun x => psize (remove_empty_dicts x) ≤ psize x)
    (fun kvs => psizePairs (removeEmptyPairs kvs) ≤ psizePairs kvs)
    (fun xs => psizeList (removeEmptyList xs) ≤ psizeList xs)
    ?_ ?_ ?_ ?_ ?_ ?_ ?_ ?_ ?_ ?_ ?_
  · intro xs ih; simp only [remove_empty_dicts, psize]; omega
  · intro xs ih; simp only [remove_empty_dicts, psize]; omega
  · intro xs ih; simp only [remove_empty_dicts, psize]; omega
  · intro kvs ih; simp only [remove_empty_dicts, psize]; omega
  · intro v h1 h2 h3 h4
    cases v
    case list xs => exact absurd rfl (h1 _)
    case tuple xs => exact absurd rfl (h2 _)
    case set xs => exact absurd rfl (h3 _)
    case dict kvs => exact absurd rfl (h4 _)
    all_goals simp [remove_empty_dicts]
  · simp [removeEmptyList, psizeList]
  · intro x xs hx ih
    have hrw : removeEmptyList (x :: xs) = removeEmptyList xs := by
      simp [removeEmptyList, hx]
    rw [hrw]
    have h1 := psize_pos x
    simp only [psizeList]
    omega
  · intro x xs hx ihx ih
    have hrw : removeEmptyList (x :: xs) =
        remove_empty_dicts x :: removeEmptyList xs := by
      simp [removeEmptyList, hx]
    rw [hrw]
    simp only [psizeList]
    omega
  · simp [removeEmptyPairs, psizePairs]
  · intro k v rest hkv ih
    have hrw : removeEmptyPairs ((k, v) :: rest) = removeEmptyPairs rest := by
      simp [removeEmptyPairs, hkv]
    rw [hrw]
    have h1 := psize_pos k
    have h2 := psize_pos v
    simp only [psizePairs]
    omega
  · intro k v rest hkv ihk ihv ih
    have hrw : removeEmptyPairs ((k, v) :: rest) =
        (remove_empty_dicts k, remove_empty_dicts v) :: removeEmptyPairs rest := by
      simp [removeEmptyPairs, hkv]
    rw [hrw]
    simp only [psizePairs]
    omega

theorem removeEmptyList_psize (xs : List PyValue) :
    psizeList (removeEmptyList xs) ≤ psizeList xs := by
  have h := removeEmpty_psize (.list xs)
  simp only [remove_empty_dicts, psize] at h
  omega

theorem removeEmptyPairs_psize (kvs : List (PyValue × PyValue)) :
    psizePairs (removeEmptyPairs kvs) ≤ psizePairs kvs := by
  have h := removeEmpty_psize (.dict kvs)
  simp only [remove_empty_dicts, psize] at h
  omega

theorem removeNones_ne_lt :
    ∀ x : PyValue, remove_nones x ≠ x → psize (remove_nones x) < psize x := by
  refine remove_nones.induct
    (fun x => remove_nones x ≠ x → psize (remove_nones x) < psize x)
    (fun kvs => removeNonesPairs kvs ≠ kvs →
      psizePairs (removeNonesPairs kvs) < psizePairs kvs)
    (fun xs => removeNonesList xs ≠ xs →
      psizeList (removeNonesList xs) < psizeList xs)
    ?_ ?_ ?_ ?_ ?_ ?_ ?_ ?_ ?_ ?_ ?_
  · intro xs ih hne
    simp only [remove_nones, psize]
    have hne2 : removeNonesList xs ≠ xs := by
      intro h; exact hne (by simp [remove_nones, h])
    have := ih hne2
    omega
  · intro xs ih hne
    simp only [remove_nones, psize]
    have hne2 : removeNonesList xs ≠ xs := by
      intro h; exact hne (by simp [remove_nones, h])
    have := ih hne2
    omega
  · intro xs ih hne
    simp only [remove_nones, psize]
    have hne2 : removeNonesList xs ≠ xs := by
      intro h; exact hne (by simp [remove_nones, h])
    have := ih hne2
    omega
  · intro kvs ih hne
    simp only [remove_nones, psize]
    have hne2 : removeNonesPairs kvs ≠ kvs := by
      intro h; exact hne (by simp [remove_nones, h])
    have := ih hne2
    omega
  · intro v h1 h2 h3 h4 hne
    refine absurd ?_ hne
    cases v
    case list xs => exact absurd rfl (h1 _)
    case tuple xs => exact absurd rfl (h2 _)
    case set xs => exact absurd rfl (h3 _)
    case dict kvs => exact absurd rfl (h4 _)
    all_goals simp [remove_nones]
  · intro hne; exact absurd rfl hne
  · intro xs ih _
    have hrw : removeNonesList (PyValue.none :: xs) = removeNonesList xs := by
      simp [removeNonesList]
    rw [hrw]
    have hle := removeNonesList_psize xs
    simp only [psizeList, psize]
    omega
  · intro x xs hx ihx ih hne
    have hrw : removeNonesList (x :: xs) =
        remove_nones x :: removeNonesList xs := by
      simp [removeNonesList, hx]
    rw [hrw] at hne ⊢
    simp only [psizeList]
    by_cases hameq : remove_nones x = x
    · have hne2 : removeNonesList xs ≠ xs := by
        intro h; exact hne (by rw [hameq, h])
      have := ih hne2
      have := removeNones_psize x
      omega
    · have := ihx hameq
      have := removeNonesList_psize xs
      omega
  · intro hne; exact absurd rfl hne
  · intro k v rest hkv ih _
    have hrw : removeNonesPairs ((k, v) :: rest) = removeNonesPairs rest := by
      simp [removeNonesPairs, hkv]
    rw [hrw]
    have hle := removeNonesPairs_psize rest
    have h1 := psize_pos k
    have h2 := psize_pos v
    simp only [psizePairs]
    omega
  · intro k v rest hkv ihk ihv ih hne
    have hrw : removeNonesPairs ((k, v) :: rest) =
        (remove_nones k, remove_nones v) :: removeNonesPairs rest := by
      simp [removeNonesPairs, hkv]
    rw [hrw] at hne ⊢
    simp only [psizePairs]
    by_cases hk : remove_nones k = k
    · by_cases hv : remove_nones v = v
      · have hne2 : removeNonesPairs rest ≠ rest := by
          intro h; exact hne (by rw [hk, hv, h])
        have := ih hne2
        have := removeNones_psize k
        have := removeNones_psize v
        omega
      · have := ihv hv
        have := removeNones_psize k
        have := removeNonesPairs_psize rest
        omega
    · have := ihk hk
      have := removeNones_psize v
      have := removeNonesPairs_psize rest
      omega

theorem removeEmpty_ne_lt :
    ∀ x : PyValue, remove_empty_dicts x ≠ x →
      psize (remove_empty_dicts x) < psize x := by
  refine remove_empty_dicts.induct
    (fun x => remove_empty_dicts x ≠ x → psize (remove_empty_dicts x) < psize x)
    (fun kvs => removeEmptyPairs kvs ≠ kvs →
      psizePairs (removeEmptyPairs kvs) < psizePairs kvs)
    (fun xs => removeEmptyList xs ≠ xs →
      psizeList (removeEmptyList xs) < psizeList xs)
    ?_ ?_ ?_ ?_ ?_ ?_ ?_ ?_ ?_ ?_ ?_
  · intro xs ih hne
    simp only [remove_empty_dicts, psize]
    have hne2 : removeEmptyList xs ≠ xs := by
      intro h; exact hne (by simp [remove_empty_dicts, h])
    have := ih hne2
    omega
  · intro xs ih hne
    simp only [remove_empty_dicts, psize]
    have hne2 : removeEmptyList xs ≠ xs := by
      intro h; exact hne (by simp [remove_empty_dicts, h])
    have := ih hne2
    omega
  · intro xs ih hne
    simp only [remove_empty_dicts, psize]
    have hne2 : removeEmptyList xs ≠ xs := by
      intro h; exact hne (by simp [remove_empty_dicts, h])
    have := ih hne2
    omega
  · intro kvs ih hne
    simp only [remove_empty_dicts, psize]
    have hne2 : removeEmptyPairs kvs ≠ kvs := by
      intro h; exact hne (by simp [remove_empty_dicts, h])
    have := ih hne2
    omega
  · intro v h1 h2 h3 h4 hne
    refine absurd ?_ hne
    cases v
    case list xs => exact absurd rfl (h1 _)
    case tuple xs => exact absurd rfl (h2 _)
    case set xs => exact absurd rfl (h3 _)
    case dict kvs => exact absurd rfl (h4 _)
    all_goals simp [remove_empty_dicts]
  · intro hne; exact absurd rfl hne
  · intro x xs hx ih _
    have hrw : removeEmptyList (x :: xs) = removeEmptyList xs := by
      simp [removeEmptyList, hx]
    rw [hrw]
    have hle := removeEmptyList_psize xs
    have h1 := psize_pos x
    simp only [psizeList]
    omega
  · intro x xs hx ihx ih hne
    have hrw : removeEmptyList (x :: xs) =
        remove_empty_dicts x :: removeEmptyList xs := by
      simp [removeEmptyList, hx]
    rw [hrw] at hne ⊢
    simp only [psizeList]
    by_cases hameq : remove_empty_dicts x = x
    · have hne2 : removeEmptyList xs ≠ xs := by
        intro h; exact hne (by rw [hameq, h])
      have := ih hne2
      have := removeEmpty_psize x
      omega
    · have := ihx hameq
      have := removeEmptyList_psize xs
      omega
  · intro hne; exact absurd rfl hne
  · intro k v rest hkv ih _
    have hrw : removeEmptyPairs ((k, v) :: rest) = removeEmptyPairs rest := by
      simp [removeEmptyPairs, hkv]
    rw [hrw]
    have hle := removeEmptyPairs_psize rest
    have h1 := psize_pos k
    have h2 := psize_pos v
    simp only [psizePairs]
    omega
  · intro k v rest hkv ihk ihv ih hne
    have hrw : removeEmptyPairs ((k, v) :: rest) =
        (remove_empty_dicts k, remove_empty_dicts v) :: removeEmptyPairs rest := by
      simp [removeEmptyPairs, hkv]
    rw [hrw] at hne ⊢
    simp only [psizePairs]
    by_cases hk : remove_empty_dicts k = k
    · by_cases hv : remove_empty_dicts v = v
      · have hne2 : removeEmptyPairs rest ≠ rest := by
          intro h; exact hne (by rw [hk, hv, h])
        have := ih hne2
        have := removeEmpty_psize k
        have := removeEmpty_psize v
        omega
      · have := ihv hv
        have := removeEmpty_psize k
        have := removeEmptyPairs_psize rest
        omega
    · have := ihk hk
      have := removeEmpty_psize v
      have := removeEmptyPairs_psize rest
      omega

/-- One filtering pass: `remove_nones` then `remove_empty_dicts`
(the body of both the initial filtering and the `while` loop of
`filter_config`). -/
def stepFC (x : PyValue) : PyValue := remove_empty_dicts (remove_nones x)

theorem stepFC_ne_lt (x : PyValue) (h : stepFC x ≠ x) :
    psize (stepFC x) < psize x := by
  unfold stepFC at h ⊢
  by_cases hn : remove_nones x = x
  · rw [hn] at h ⊢
    exact removeEmpty_ne_lt x h
  · have h1 := removeNones_ne_lt x hn
    have h2 := removeEmpty_psize (remove_nones x)
    omega

/-- The `while True` loop of `filter_config`: keep applying the pass
until a pass makes no change, then return. -/
def filterLoop (x : PyValue) : PyValue :=
  if h : stepFC x = x then x else filterLoop (stepFC x)
termination_by psize x
decreasing_by exact stepFC_ne_lt x h

/-- `config.filter_config`: one initial pass; if it changed nothing
return the input, otherwise iterate the pass to a fixed point. -/
def filter_config (config : PyValue) : PyValue :=
  if config = stepFC config then config else filterLoop (stepFC config)

theorem filterLoop_fixpoint : ∀ x : PyValue, stepFC (filterLoop x) = filterLoop x := by
  have aux : ∀ n, ∀ x : PyValue, psize x < n →
      stepFC (filterLoop x) = filterLoop x := by
    intro n
    induction n with
    | zero => intro x hx; have := psize_pos x; omega
    | succ n ih =>
      intro x hx
      rw [filterLoop]
      by_cases h : stepFC x = x
      · simp [h]
      · simp only [h, dite_false]
        exact ih (stepFC x) (by have := stepFC_ne_lt x h; omega)
  exact fun x => aux (psize x + 1) x (by omega)

theorem filter_config_fixpoint (config : PyValue) :
    stepFC (filter_config config) = filter_config config := by
  unfold filter_config
  by_cases h : config = stepFC config
  · rw [if_pos h]
    exact h.symm
  · rw [if_neg h]
    exact filterLoop_fixpoint (stepFC config)

theorem filterLoop_preserves (P : PyValue → Prop)
    (hstep : ∀ x, P x → P (stepFC x)) :
    ∀ x : PyValue, P x → P (filterLoop x) := by
  have aux : ∀ n, ∀ x : PyValue, psize x < n → P x → P (filterLoop x) := by
    intro n
    induction n with
    | zero => intro x hx; have := psize_pos x; omega
    | succ n ih =>
      intro x hx hP
      rw [filterLoop]
      by_cases h : stepFC x = x
      · simp [h, hP]
      · simp only [h, dite_false]
        exact ih (stepFC x) (by have := stepFC_ne_lt x h; omega) (hstep x hP)
  exact fun x => aux (psize x + 1) x (by omega)

theorem filter_config_preserves (P : PyValue → Prop)
    (hstep : ∀ x, P x → P (stepFC x)) (config : PyValue) (hP : P config) :
    P (filter_config config) := by
  unfold filter_config
  by_cases h : config = stepFC config
  · rw [if_pos h]
    exact hP
  · rw [if_neg h]
    exact filterLoop_preserves P hstep (stepFC config) (hstep config hP)

mutual

/-- No `None` occurs inside any container of the value. -/
def noNones : PyValue → Bool
  | .list xs => noNonesList xs
  | .tuple xs => noNonesList xs
  | .set xs => noNonesList xs
  | .dict kvs => noNonesPairs kvs
  | _ => true

/-- `noNones` over list items (no item is `None`). -/
def noNonesList : List PyValue → Bool
  | [] => true
  | x :: xs => decide (x ≠ PyValue.none) && noNones x && noNonesList xs

/-- `noNones` over dict entries (no key or value is `None`). -/
def noNonesPairs : List (PyValue × PyValue) → Bool
  | [] => true
  | (k, v) :: r =>
    decide (k ≠ PyValue.none) && decide (v ≠ PyValue.none) &&
      noNones k && noNones v && noNonesPairs r

end

mutual

/-- No empty dict occurs inside any container of the value. -/
def noEmpties : PyValue → Bool
  | .list xs => noEmptiesList xs
  | .tuple xs => noEmptiesList xs
  | .set xs => noEmptiesList xs
  | .dict kvs => noEmptiesPairs kvs
  | _ => true

/-- `noEmpties` over list items. -/
def noEmptiesList : List PyValue → Bool
  | [] => true
  | x :: xs => !(isEmptyDict x) && noEmpties x && noEmptiesList xs

/-- `noEmpties` over dict entries. -/
def noEmptiesPairs : List (PyValue × PyValue) → Bool
  | [] => true
  | (k, v) :: r =>
    !(isEmptyDict k) && !(isEmptyDict v) &&
      noEmpties k && noEmpties v && noEmptiesPairs r

end

mutual

/-- Removable content in the claim's sense: `None`, or a mapping all
of whose values are themselves removable. -/
def removable : PyValue → Bool
  | .none => true
  | .dict kvs => removablePairs kvs
  | _ => false

/-- `removable` over dict entries. -/
def removablePairs : List (PyValue × PyValue) → Bool
  | [] => true
  | (_, v) :: r => removable v && removablePairs r

end

mutual

/-- Every dict key anywhere in the value is hashable — the
well-formedness Python's runtime guarantees for any actual dict. -/
def goodKeys : PyValue → Bool
  | .list xs => goodKeysList xs
  | .tuple xs => goodKeysList xs
  | .set xs => goodKeysList xs
  | .dict kvs => goodKeysPairs kvs
  | _ => true

/-- `goodKeys` over list items. -/
def goodKeysList : List PyValue → Bool
  | [] => true
  | x :: xs => goodKeys x && goodKeysList xs

/-- `goodKeys` over dict entries. -/
def goodKeysPairs : List (PyValue × PyValue) → Bool
  | [] => true
  | (k, v) :: r => pyHashable k && goodKeys v && goodKeysPairs r

end

theorem remove_nones_ne_none (x : PyValue) (h : x ≠ PyValue.none) :
    remove_nones x ≠ PyValue.none := by
  cases x <;> simp [remove_nones] at h ⊢

theorem remove_empty_ne_none (x : PyValue) (h : x ≠ PyValue.none) :
    remove_empty_dicts x ≠ PyValue.none := by
  cases x <;> simp [remove_empty_dicts] at h ⊢

theorem remove_nones_noNones :
    ∀ x : PyValue, noNones (remove_nones x) = true := by
  refine remove_nones.induct
    (fun x => noNones (remove_nones x) = true)
    (fun kvs => noNonesPairs (removeNonesPairs kvs) = true)
    (fun xs => noNonesList (removeNonesList xs) = true)
    ?_ ?_ ?_ ?_ ?_ ?_ ?_ ?_ ?_ ?_ ?_
  · intro xs ih; simpa [remove_nones, noNones] using ih
  · intro xs ih; simpa [remove_nones, noNones] using ih
  · intro xs ih; simpa [remove_nones, noNones] using ih
  · intro kvs ih; simpa [remove_nones, noNones] using ih
  · intro v h1 h2 h3 h4
    cases v
    case list xs => exact absurd rfl (h1 _)
    case tuple xs => exact absurd rfl (h2 _)
    case set xs => exact absurd rfl (h3 _)
    case dict kvs => exact absurd rfl (h4 _)
    all_goals simp [remove_nones, noNones]
  · simp [removeNonesList, noNonesList]
  · intro xs ih
    have hrw : removeNonesList (PyValue.none :: xs) = removeNonesList xs := by
      simp [removeNonesList]
    rw [hrw]; exact ih
  · intro x xs hx ihx ih
    have hrw : removeNonesList (x :: xs) =
        remove_nones x :: removeNonesList xs := by
      simp [removeNonesList, hx]
    rw [hrw]
    simp only [noNonesList, Bool.and_eq_true, decide_eq_true_eq]
    exact ⟨⟨remove_nones_ne_none x hx, ihx⟩, ih⟩
  · simp [removeNonesPairs, noNonesPairs]
  · intro k v rest hkv ih
    have hrw : removeNonesPairs ((k, v) :: rest) = removeNonesPairs rest := by
      simp [removeNonesPairs, hkv]
    rw [hrw]; exact ih
  · intro k v rest hkv ihk ihv ih
    have hrw : removeNonesPairs ((k, v) :: rest) =
        (remove_nones k, remove_nones v) :: removeNonesPairs rest := by
      simp [removeNonesPairs, hkv]
    rw [hrw]
    simp only [noNonesPairs, Bool.and_eq_true, decide_eq_true_eq]
    push_neg at hkv
    exact ⟨⟨⟨⟨remove_nones_ne_none k hkv.1, remove_nones_ne_none v hkv.2⟩,
      ihk⟩, ihv⟩, ih⟩

theorem removeEmpty_preserves_noNones :
    ∀ x : PyValue, noNones x = true → noNones (remove_empty_dicts x) = true := by
  refine remove_empty_dicts.induct
    (fun x => noNones x = true → noNones (remove_empty_dicts x) = true)
    (fun kvs => noNonesPairs kvs = true →
      noNonesPairs (removeEmptyPairs kvs) = true)
    (fun xs => noNonesList xs = true → noNonesList (removeEmptyList xs) = true)
    ?_ ?_ ?_ ?_ ?_ ?_ ?_ ?_ ?_ ?_ ?_
  · intro xs ih h
    simp only [noNones] at h
    simpa [remove_empty_dicts, noNones] using ih h
  · intro xs ih h
    simp only [noNones] at h
    simpa [remove_empty_dicts, noNones] using ih h
  · intro xs ih h
    simp only [noNones] at h
    simpa [remove_empty_dicts, noNones] using ih h
  · intro kvs ih h
    simp only [noNones] at h
    simpa [remove_empty_dicts, noNones] using ih h
  · intro v h1 h2 h3 h4 h
    cases v
    case list xs => exact absurd rfl (h1 _)
    case tuple xs => exact absurd rfl (h2 _)
    case set xs => exact absurd rfl (h3 _)
    case dict kvs => exact absurd rfl (h4 _)
    all_goals simpa [remove_empty_dicts, noNones] using h
  · intro h; simpa [removeEmptyList] using h
  · intro x xs hx ih h
    simp only [noNonesList, Bool.and_eq_true] at h
    have hrw : removeEmptyList (x :: xs) = removeEmptyList xs := by
      simp [removeEmptyList, hx]
    rw [hrw]
    exact ih h.2
  · intro x xs hx ihx ih h
    simp only [noNonesList, Bool.and_eq_true, decide_eq_true_eq] at h
    have hrw : removeEmptyList (x :: xs) =
        remove_empty_dicts x :: removeEmptyList xs := by
      simp [removeEmptyList, hx]
    rw [hrw]
    simp only [noNonesList, Bool.and_eq_true, decide_eq_true_eq]
    exact ⟨⟨remove_empty_ne_none x h.1.1, ihx h.1.2⟩, ih h.2⟩
  · intro h; simpa [removeEmptyPairs] using h
  · intro k v rest hkv ih h
    simp only [noNonesPairs, Bool.and_eq_true] at h
    have hrw : removeEmptyPairs ((k, v) :: rest) = removeEmptyPairs rest := by
      simp [removeEmptyPairs, hkv]
    rw [hrw]
    exact ih h.2
  · intro k v rest hkv ihk ihv ih h
    simp only [noNonesPairs, Bool.and_eq_true, decide_eq_true_eq] at h
    have hrw : removeEmptyPairs ((k, v) :: rest) =
        (remove_empty_dicts k, remove_empty_dicts v) :: removeEmptyPairs rest := by
      simp [removeEmptyPairs, hkv]
    rw [hrw]
    simp only [noNonesPairs, Bool.and_eq_true, decide_eq_true_eq]
    exact ⟨⟨⟨⟨remove_empty_ne_none k h.1.1.1.1, remove_empty_ne_none v h.1.1.1.2⟩,
      ihk h.1.1.2⟩, ihv h.1.2⟩, ih h.2⟩

theorem noNones_remove_nones_id :
    ∀ x : PyValue, noNones x = true → remove_nones x = x := by
  refine remove_nones.induct
    (fun x => noNones x = true → remove_nones x = x)
    (fun kvs => noNonesPairs kvs = true → removeNonesPairs kvs = kvs)
    (fun xs => noNonesList xs = true → removeNonesList xs = xs)
    ?_ ?_ ?_ ?_ ?_ ?_ ?_ ?_ ?_ ?_ ?_
  · intro xs ih h
    simp only [noNones] at h
    simp [remove_nones, ih h]
  · intro xs ih h
    simp only [noNones] at h
    simp [remove_nones, ih h]
  · intro xs ih h
    simp only [noNones] at h
    simp [remove_nones, ih h]
  · intro kvs ih h
    simp only [noNones] at h
    simp [remove_nones, ih h]
  · intro v h1 h2 h3 h4 h
    cases v
    case list xs => exact absurd rfl (h1 _)
    case tuple xs => exact absurd rfl (h2 _)
    case set xs => exact absurd rfl (h3 _)
    case dict kvs => exact absurd rfl (h4 _)
    all_goals simp [remove_nones]
  · intro h; simp [removeNonesList]
  · intro xs ih h
    simp [noNonesList] at h
  · intro x xs hx ihx ih h
    simp only [noNonesList, Bool.and_eq_true, decide_eq_true_eq] at h
    have hrw : removeNonesList (x :: xs) =
        remove_nones x :: removeNonesList xs := by
      simp [removeNonesList, hx]
    rw [hrw, ihx h.1.2, ih h.2]
  · intro h; simp [removeNonesPairs]
  · intro k v rest hkv ih h
    simp only [noNonesPairs, Bool.and_eq_true, decide_eq_true_eq] at h
    rcases hkv with hk | hv
    · exact absurd hk h.1.1.1.1
    · exact absurd hv h.1.1.1.2
  · intro k v rest hkv ihk ihv ih h
    simp only [noNonesPairs, Bool.and_eq_true, decide_eq_true_eq] at h
    have hrw : removeNonesPairs ((k, v) :: rest) =
        (remove_nones k, remove_nones v) :: removeNonesPairs rest := by
      simp [removeNonesPairs, hkv]
    rw [hrw, ihk h.1.1.2, ihv h.1.2, ih h.2]

theorem pyHashable_noEmpties :
    ∀ x : PyValue, pyHashable x = true →
      noEmpties x = true ∧ isEmptyDict x = false := by
  refine pyHashable.induct
    (fun x => pyHashable x = true → noEmpties x = true ∧ isEmptyDict x = false)
    (fun xs => pyHashableList xs = true → noEmptiesList xs = true)
    ?_ ?_ ?_ ?_ ?_ ?_ ?_
  · intro xs h; simp [pyHashable] at h
  · intro xs h; simp [pyHashable] at h
  · intro kvs h; simp [pyHashable] at h
  · intro xs ih h
    simp only [pyHashable] at h
    exact ⟨by simpa [noEmpties] using ih h, by simp [isEmptyDict]⟩
  · intro v h1 h2 h3 h4 _
    cases v
    case list xs => exact absurd rfl (h1 _)
    case set xs => exact absurd rfl (h2 _)
    case dict kvs => exact absurd rfl (h3 _)
    case tuple xs => exact absurd rfl (h4 _)
    all_goals simp [noEmpties, isEmptyDict]
  · intro _; simp [noEmptiesList]
  · intro x xs ihx ih h
    simp only [pyHashableList, Bool.and_eq_true] at h
    simp only [noEmptiesList, Bool.and_eq_true]
    exact ⟨⟨by simp [(ihx h.1).2], (ihx h.1).1⟩, ih h.2⟩

theorem remove_nones_goodKeys :
    ∀ x : PyValue,
      (pyHashable x = true → pyHashable (remove_nones x) = true) ∧
      (goodKeys x = true → goodKeys (remove_nones x) = true) := by
  refine remove_nones.induct
    (fun x => (pyHashable x = true → pyHashable (remove_nones x) = true) ∧
      (goodKeys x = true → goodKeys (remove_nones x) = true))
    (fun kvs => goodKeysPairs kvs = true →
      goodKeysPairs (removeNonesPairs kvs) = true)
    (fun xs => (pyHashableList xs = true →
        pyHashableList (removeNonesList xs) = true) ∧
      (goodKeysList xs = true → goodKeysList (removeNonesList xs) = true))
    ?_ ?_ ?_ ?_ ?_ ?_ ?_ ?_ ?_ ?_ ?_
  · intro xs ih
    exact ⟨fun h => by simp [pyHashable] at h,
      fun h => by
        simp only [goodKeys] at h
        simpa [remove_nones, goodKeys] using ih.2 h⟩
  · intro xs ih
    exact ⟨fun h => by
        simp only [pyHashable] at h
        simpa [remove_nones, pyHashable] using ih.1 h,
      fun h => by
        simp only [goodKeys] at h
        simpa [remove_nones, goodKeys] using ih.2 h⟩
  · intro xs ih
    exact ⟨fun h => by simp [pyHashable] at h,
      fun h => by
        simp only [goodKeys] at h
        simpa [remove_nones, goodKeys] using ih.2 h⟩
  · intro kvs ih
    exact ⟨fun h => by simp [pyHashable] at h,
      fun h => by
        simp only [goodKeys] at h
        simpa [remove_nones, goodKeys] using ih h⟩
  · intro v h1 h2 h3 h4
    cases v
    case list xs => exact absurd rfl (h1 _)
    case tuple xs => exact absurd rfl (h2 _)
    case set xs => exact absurd rfl (h3 _)
    case dict kvs => exact absurd rfl (h4 _)
    all_goals simp [remove_nones]
  · exact ⟨fun _ => by simp [removeNonesList, pyHashableList],
      fun _ => by simp [removeNonesList, goodKeysList]⟩
  · intro xs ih
    have hrw : removeNonesList (PyValue.none :: xs) = removeNonesList xs := by
      simp [removeNonesList]
    refine ⟨fun h => ?_, fun h => ?_⟩
    · rw [hrw]
      simp only [pyHashableList, Bool.and_eq_true] at h
      exact ih.1 h.2
    · rw [hrw]
      simp only [goodKeysList, Bool.and_eq_true] at h
      exact ih.2 h.2
  · intro x xs hx ihx ih
    have hrw : removeNonesList (x :: xs) =
        remove_nones x :: removeNonesList xs := by
      simp [removeNonesList, hx]
    refine ⟨fun h => ?_, fun h => ?_⟩
    · rw [hrw]
      simp only [pyHashableList, Bool.and_eq_true] at h ⊢
      exact ⟨ihx.1 h.1, ih.1 h.2⟩
    · rw [hrw]
      simp only [goodKeysList, Bool.and_eq_true] at h ⊢
      exact ⟨ihx.2 h.1, ih.2 h.2⟩
  · intro _; simp [removeNonesPairs, goodKeysPairs]
  · intro k v rest hkv ih h
    have hrw : removeNonesPairs ((k, v) :: rest) = removeNonesPairs rest := by
      simp [removeNonesPairs, hkv]
    rw [hrw]
    simp only [goodKeysPairs, Bool.and_eq_true] at h
    exact ih h.2
  · intro k v rest hkv ihk ihv ih h
    have hrw : removeNonesPairs ((k, v) :: rest) =
        (remove_nones k, remove_nones v) :: removeNonesPairs rest := by
      simp [removeNonesPairs, hkv]
    rw [hrw]
    simp only [goodKeysPairs, Bool.and_eq_true] at h ⊢
    exact ⟨⟨ihk.1 h.1.1, ihv.2 h.1.2⟩, ih h.2⟩

theorem remove_empty_goodKeys :
    ∀ x : PyValue,
      (pyHashable x = true → pyHashable (remove_empty_dicts x) = true) ∧
      (goodKeys x = true → goodKeys (remove_empty_dicts x) = true) := by
  refine remove_empty_dicts.induct
    (fun x => (pyHashable x = true → pyHashable (remove_empty_dicts x) = true) ∧
      (goodKeys x = true → goodKeys (remove_empty_dicts x) = true))
    (fun kvs => goodKeysPairs kvs = true →
      goodKeysPairs (removeEmptyPairs kvs) = true)
    (fun xs => (pyHashableList xs = true →
        pyHashableList (removeEmptyList xs) = true) ∧
      (goodKeysList xs = true → goodKeysList (removeEmptyList xs) = true))
    ?_ ?_ ?_ ?_ ?_ ?_ ?_ ?_ ?_ ?_ ?_
  · intro xs ih
    exact ⟨fun h => by simp [pyHashable] at h,
      fun h => by
        simp only [goodKeys] at h
        simpa [remove_empty_dicts, goodKeys] using ih.2 h⟩
  · intro xs ih
    exact ⟨fun h => by
        simp only [pyHashable] at h
        simpa [remove_empty_dicts, pyHashable] using ih.1 h,
      fun h => by
        simp only [goodKeys] at h
        simpa [remove_empty_dicts, goodKeys] using ih.2 h⟩
  · intro xs ih
    exact ⟨fun h => by simp [pyHashable] at h,
      fun h => by
        simp only [goodKeys] at h
        simpa [remove_empty_dicts, goodKeys] using ih.2 h⟩
  · intro kvs ih
    exact ⟨fun h => by simp [pyHashable] at h,
      fun h => by
        simp only [goodKeys] at h
        simpa [remove_empty_dicts, goodKeys] using ih h⟩
  · intro v h1 h2 h3 h4
    cases v
    case list xs => exact absurd rfl (h1 _)
    case tuple xs => exact absurd rfl (h2 _)
    case set xs => exact absurd rfl (h3 _)
    case dict kvs => exact absurd rfl (h4 _)
    all_goals simp [remove_empty_dicts]
  · exact ⟨fun _ => by simp [removeEmptyList, pyHashableList],
      fun _ => by simp [removeEmptyList, goodKeysList]⟩
  · intro x xs hx ih
    have hrw : removeEmptyList (x :: xs) = removeEmptyList xs := by
      simp [removeEmptyList, hx]
    refine ⟨fun h => ?_, fun h => ?_⟩
    · rw [hrw]
      simp only [pyHashableList, Bool.and_eq_true] at h
      exact ih.1 h.2
    · rw [hrw]
      simp only [goodKeysList, Bool.and_eq_true] at h
      exact ih.2 h.2
  · intro x xs hx ihx ih
    have hrw : removeEmptyList (x :: xs) =
        remove_empty_dicts x :: removeEmptyList xs := by
      simp [removeEmptyList, hx]
    refine ⟨fun h => ?_, fun h => ?_⟩
    · rw [hrw]
      simp only [pyHashableList, Bool.and_eq_true] at h ⊢
      exact ⟨ihx.1 h.1, ih.1 h.2⟩
    · rw [hrw]
      simp only [goodKeysList, Bool.and_eq_true] at h ⊢
      exact ⟨ihx.2 h.1, ih.2 h.2⟩
  · intro _; simp [removeEmptyPairs, goodKeysPairs]
  · intro k v rest hkv ih h
    have hrw : removeEmptyPairs ((k, v) :: rest) = removeEmptyPairs rest := by
      simp [removeEmptyPairs, hkv]
    rw [hrw]
    simp only [goodKeysPairs, Bool.and_eq_true] at h
    exact ih h.2
  · intro k v rest hkv ihk ihv ih h
    have hrw : removeEmptyPairs ((k, v) :: rest) =
        (remove_empty_dicts k, remove_empty_dicts v) :: removeEmptyPairs rest := by
      simp [removeEmptyPairs, hkv]
    rw [hrw]
    simp only [goodKeysPairs, Bool.and_eq_true] at h ⊢
    exact ⟨⟨ihk.1 h.1.1, ihv.2 h.1.2⟩, ih h.2⟩

theorem removeEmpty_fix_noEmpties :
    ∀ x : PyValue, remove_empty_dicts x = x → goodKeys x = true →
      noEmpties x = true := by
  refine remove_empty_dicts.induct
    (fun x => remove_empty_dicts x = x → goodKeys x = true → noEmpties x = true)
    (fun kvs => removeEmptyPairs kvs = kvs → goodKeysPairs kvs = true →
      noEmptiesPairs kvs = true)
    (fun xs => removeEmptyList xs = xs → goodKeysList xs = true →
      noEmptiesList xs = true)
    ?_ ?_ ?_ ?_ ?_ ?_ ?_ ?_ ?_ ?_ ?_
  · intro xs ih hfix hg
    simp only [remove_empty_dicts, PyValue.list.injEq] at hfix
    simp only [goodKeys] at hg
    simpa [noEmpties] using ih hfix hg
  · intro xs ih hfix hg
    simp only [remove_empty_dicts, PyValue.tuple.injEq] at hfix
    simp only [goodKeys] at hg
    simpa [noEmpties] using ih hfix hg
  · intro xs ih hfix hg
    simp only [remove_empty_dicts, PyValue.set.injEq] at hfix
    simp only [goodKeys] at hg
    simpa [noEmpties] using ih hfix hg
  · intro kvs ih hfix hg
    simp only [remove_empty_dicts, PyValue.dict.injEq] at hfix
    simp only [goodKeys] at hg
    simpa [noEmpties] using ih hfix hg
  · intro v h1 h2 h3 h4 _ _
    cases v
    case list xs => exact absurd rfl (h1 _)
    case tuple xs => exact absurd rfl (h2 _)
    case set xs => exact absurd rfl (h3 _)
    case dict kvs => exact absurd rfl (h4 _)
    all_goals simp [noEmpties]
  · intro _ _; simp [noEmptiesList]
  · intro x xs hx ih hfix _
    have hrw : removeEmptyList (x :: xs) = removeEmptyList xs := by
      simp [removeEmptyList, hx]
    rw [hrw] at hfix
    have hps := congrArg psizeList hfix
    have h1 := removeEmptyList_psize xs
    have h2 := psize_pos x
    simp only [psizeList] at hps
    omega
  · intro x xs hx ihx ih hfix hg
    have hrw : removeEmptyList (x :: xs) =
        remove_empty_dicts x :: removeEmptyList xs := by
      simp [removeEmptyList, hx]
    rw [hrw] at hfix
    simp only [List.cons.injEq] at hfix
    simp only [goodKeysList, Bool.and_eq_true] at hg
    simp only [noEmptiesList, Bool.and_eq_true]
    exact ⟨⟨by simpa using hx, ihx hfix.1 hg.1⟩, ih hfix.2 hg.2⟩
  · intro _ _; simp [noEmptiesPairs]
  · intro k v rest hkv ih hfix _
    have hrw : removeEmptyPairs ((k, v) :: rest) = removeEmptyPairs rest := by
      simp [removeEmptyPairs, hkv]
    rw [hrw] at hfix
    have hps := congrArg psizePairs hfix
    have h1 := removeEmptyPairs_psize rest
    have h2 := psize_pos k
    have h3 := psize_pos v
    simp only [psizePairs] at hps
    omega
  · intro k v rest hkv ihk ihv ih hfix hg
    have hrw : removeEmptyPairs ((k, v) :: rest) =
        (remove_empty_dicts k, remove_empty_dicts v) :: removeEmptyPairs rest := by
      simp [removeEmptyPairs, hkv]
    rw [hrw] at hfix
    simp only [List.cons.injEq, Prod.mk.injEq] at hfix
    simp only [goodKeysPairs, Bool.and_eq_true] at hg
    simp only [noEmptiesPairs, Bool.and_eq_true]
    have hknoE := pyHashable_noEmpties k hg.1.1
    exact ⟨⟨⟨⟨by simp [hknoE.2], by simpa using hkv⟩, hknoE.1⟩,
      ihv hfix.1.2 hg.1.2⟩, ih hfix.2 hg.2⟩

theorem remove_nones_removable :
    ∀ x : PyValue, removable x = true → removable (remove_nones x) = true := by
  refine remove_nones.induct
    (fun x => removable x = true → removable (remove_nones x) = true)
    (fun kvs => removablePairs kvs = true →
      removablePairs (removeNonesPairs kvs) = true)
    (fun xs => True)
    ?_ ?_ ?_ ?_ ?_ ?_ ?_ ?_ ?_ ?_ ?_
  · intro xs _ h; simp [removable] at h
  · intro xs _ h; simp [removable] at h
  · intro xs _ h; simp [removable] at h
  · intro kvs ih h
    simp only [removable] at h
    simpa [remove_nones, removable] using ih h
  · intro v h1 h2 h3 h4 h
    cases v
    case list xs => exact absurd rfl (h1 _)
    case tuple xs => exact absurd rfl (h2 _)
    case set xs => exact absurd rfl (h3 _)
    case dict kvs => exact absurd rfl (h4 _)
    all_goals simpa [remove_nones, removable] using h
  · trivial
  · intro xs _; trivial
  · intro x xs _ _ _; trivial
  · intro _; simp [removeNonesPairs, removablePairs]
  · intro k v rest hkv ih h
    have hrw : removeNonesPairs ((k, v) :: rest) = removeNonesPairs rest := by
      simp [removeNonesPairs, hkv]
    rw [hrw]
    simp only [removablePairs, Bool.and_eq_true] at h
    exact ih h.2
  · intro k v rest hkv ihk ihv ih h
    have hrw : removeNonesPairs ((k, v) :: rest) =
        (remove_nones k, remove_nones v) :: removeNonesPairs rest := by
      simp [removeNonesPairs, hkv]
    rw [hrw]
    simp only [removablePairs, Bool.and_eq_true] at h ⊢
    exact ⟨ihv h.1, ih h.2⟩

theorem remove_empty_removable :
    ∀ x : PyValue, removable x = true →
      removable (remove_empty_dicts x) = true := by
  refine remove_empty_dicts.induct
    (fun x => removable x = true → removable (remove_empty_dicts x) = true)
    (fun kvs => removablePairs kvs = true →
      removablePairs (removeEmptyPairs kvs) = true)
    (fun xs => True)
    ?_ ?_ ?_ ?_ ?_ ?_ ?_ ?_ ?_ ?_ ?_
  · intro xs _ h; simp [removable] at h
  · intro xs _ h; simp [removable] at h
  · intro xs _ h; simp [removable] at h
  · intro kvs ih h
    simp only [removable] at h
    simpa [remove_empty_dicts, removable] using ih h
  · intro v h1 h2 h3 h4 h
    cases v
    case list xs => exact absurd rfl (h1 _)
    case tuple xs => exact absurd rfl (h2 _)
    case set xs => exact absurd rfl (h3 _)
    case dict kvs => exact absurd rfl (h4 _)
    all_goals simpa [remove_empty_dicts, removable] using h
  · trivial
  · intro x xs _ _; trivial
  · intro x xs _ _ _; trivial
  · intro _; simp [removeEmptyPairs, removablePairs]
  · intro k v rest hkv ih h
    have hrw : removeEmptyPairs ((k, v) :: rest) = removeEmptyPairs rest := by
      simp [removeEmptyPairs, hkv]
    rw [hrw]
    simp only [removablePairs, Bool.and_eq_true] at h
    exact ih h.2
  · intro k v rest hkv ihk ihv ih h
    have hrw : removeEmptyPairs ((k, v) :: rest) =
        (remove_empty_dicts k, remove_empty_dicts v) :: removeEmptyPairs rest := by
      simp [removeEmptyPairs, hkv]
    rw [hrw]
    simp only [removablePairs, Bool.and_eq_true] at h ⊢
    exact ⟨ihv h.1, ih h.2⟩

theorem removable_fix_none_or_empty :
    ∀ r : PyValue, removable r = true → stepFC r = r → noNones r = true →
      r = PyValue.none ∨ r = PyValue.dict [] := by
  have aux : ∀ n, ∀ r : PyValue, psize r < n → removable r = true →
      stepFC r = r → noNones r = true →
      r = PyValue.none ∨ r = PyValue.dict [] := by
    intro n
    induction n with
    | zero => intro r hr; have := psize_pos r; omega
    | succ n ih =>
      intro r hsz hrem hfix hnnO
      cases r
      case none => exact Or.inl rfl
      case dict kvs =>
        match kvs with
        | [] => exact Or.inr rfl
        | (k, v) :: rest =>
          exfalso
          have hnn := hnnO
          simp only [noNones, noNonesPairs, Bool.and_eq_true,
            decide_eq_true_eq] at hnn
          have hrem2 := hrem
          simp only [removable, removablePairs, Bool.and_eq_true] at hrem2
          have hvdict : ∃ l, v = PyValue.dict l := by
            cases v
            case none => exact absurd rfl hnn.1.1.1.2
            case dict l => exact ⟨l, rfl⟩
            all_goals simp [removable] at hrem2
          obtain ⟨l, rfl⟩ := hvdict
          have hid := noNones_remove_nones_id _ hnnO
          have hred : remove_empty_dicts
              (PyValue.dict ((k, PyValue.dict l) :: rest)) =
              PyValue.dict ((k, PyValue.dict l) :: rest) := by
            have h2 := hfix
            unfold stepFC at h2
            rw [hid] at h2
            exact h2
          simp only [remove_empty_dicts, PyValue.dict.injEq] at hred
          cases l with
          | nil =>
            have hrw : removeEmptyPairs ((k, PyValue.dict []) :: rest) =
                removeEmptyPairs rest := by
              simp [removeEmptyPairs, isEmptyDict]
            rw [hrw] at hred
            have hps := congrArg psizePairs hred
            have h1 := removeEmptyPairs_psize rest
            have h2 := psize_pos k
            simp only [psizePairs, psize] at hps
            omega
          | cons p l2 =>
            have hrw : removeEmptyPairs ((k, PyValue.dict (p :: l2)) :: rest) =
                (remove_empty_dicts k,
                 remove_empty_dicts (PyValue.dict (p :: l2))) ::
                  removeEmptyPairs rest := by
              simp [removeEmptyPairs, isEmptyDict]
            rw [hrw] at hred
            simp only [List.cons.injEq, Prod.mk.injEq] at hred
            have hnnv : noNones (PyValue.dict (p :: l2)) = true := hnn.1.2
            have hidv := noNones_remove_nones_id _ hnnv
            have hfixv : stepFC (PyValue.dict (p :: l2)) =
                PyValue.dict (p :: l2) := by
              unfold stepFC
              rw [hidv]
              exact hred.1.2
            have hlt : psize (PyValue.dict (p :: l2)) <
                psize (PyValue.dict ((k, PyValue.dict (p :: l2)) :: rest)) := by
              simp only [psize, psizePairs]
              have := psize_pos k
              omega
            rcases ih (PyValue.dict (p :: l2)) (by omega) hrem2.1 hfixv hnnv
              with h | h
            · exact absurd h (by simp)
            · exact absurd h (by simp)
      all_goals simp [removable] at hrem
  exact fun r => aux (psize r + 1) r (by omega)

/-- C6: for every configuration whose dict keys are hashable (as every
real Python dict's are), `filter_config` — `remove_nones` then
`remove_empty_dicts`, repeated to a fixed point — returns a structure
containing no `None` values and no empty mappings at any nesting
depth; and a configuration that is a mapping consisting only of
removable content (`None`s and mappings of removable content) is
reduced to the empty mapping `{}`. -/
theorem filter_config_clean (config : PyValue) (hk : goodKeys config = true) :
    noNones (filter_config config) = true ∧
    noEmpties (filter_config config) = true ∧
    (removable config = true → (∃ l, config = PyValue.dict l) →
      filter_config config = PyValue.dict []) := by
  have hfix := filter_config_fixpoint config
  have hgood : goodKeys (filter_config config) = true :=
    filter_config_preserves (fun x => goodKeys x = true)
      (fun x hx => by
        unfold stepFC
        exact (remove_empty_goodKeys (remove_nones x)).2
          ((remove_nones_goodKeys x).2 hx))
      config hk
  have hnn : noNones (filter_config config) = true := by
    rw [← hfix]
    unfold stepFC
    exact removeEmpty_preserves_noNones _ (remove_nones_noNones _)
  have hred : remove_empty_dicts (filter_config config) =
      filter_config config := by
    have hid := noNones_remove_nones_id _ hnn
    have h2 := hfix
    unfold stepFC at h2
    rw [hid] at h2
    exact h2
  refine ⟨hnn, removeEmpty_fix_noEmpties _ hred hgood, fun hrem hdict => ?_⟩
  have hrem2 : removable (filter_config config) = true :=
    filter_config_preserves (fun x => removable x = true)
      (fun x hx => by
        unfold stepFC
        exact remove_empty_removable _ (remove_nones_removable x hx))
      config hrem
  have hdict2 : ∃ l, filter_config config = PyValue.dict l :=
    filter_config_preserves (fun x => ∃ l, x = PyValue.dict l)
      (fun x hx => by
        obtain ⟨l, rfl⟩ := hx
        exact ⟨removeEmptyPairs (removeNonesPairs l),
          by simp [stepFC, remove_nones, remove_empty_dicts]⟩)
      config hdict
  rcases removable_fix_none_or_empty _ hrem2 hfix hnn with h | h
  · obtain ⟨l, hl⟩ := hdict2
    rw [hl] at h
    cases h
  · exact h

/-- Witness for C6 at a concrete removable configuration:
`{"a": None, "b": {"c": {}}, "d": {"e": None}}` normalizes to `{}`. -/
theorem filter_config_clean_witness :
    filter_config (PyValue.dict
      [(.str "a", PyValue.none),
       (.str "b", .dict [(.str "c", .dict [])]),
       (.str "d", .dict [(.str "e", PyValue.none)])]) = PyValue.dict [] :=
  (filter_config_clean _ (by decide)).2.2 (by decide) ⟨_, rfl⟩

/-! ## config.py: normalize_config

Python dict operations on the association-list model.  A lookup
compares keys with `==`; an update (`d[k] = v`) replaces the value of
the first matching entry in place (keeping the stored key object and
its position) or appends; `del d[k]` removes the entry. -/

/-- `k in d.keys()` -/
def dHas (l : List (PyValue × PyValue)) (k : PyValue) : Bool :=
  l.any (fun p => p.1 = k)

/-- `d[k]`, as an `Option`. -/
def dGet (l : List (PyValue × PyValue)) (k : PyValue) : Option PyValue :=
  (l.find? (fun p => p.1 = k)).map (fun p => p.2)

/-- `d[k] = v` -/
def dSet : List (PyValue × PyValue) → PyValue → PyValue → List (PyValue × PyValue)
  | [], k, v => [(k, v)]
  | (k1, v1) :: rest, k, v =>
    if k1 = k then (k1, v) :: rest else (k1, v1) :: dSet rest k v

/-- `del d[k]` (the callers below only delete present keys). -/
def dDel : List (PyValue × PyValue) → PyValue → List (PyValue × PyValue)
  | [], _ => []
  | (k1, v1) :: rest, k => if k1 = k then rest else (k1, v1) :: dDel rest k

/-- `constants.SUPPORTED_APIS` (a Python set; iteration order fixed in
the model — the code only uses membership and exhaustive iteration, and
the final equality claims are insensitive to the chosen order). -/
def SUPPORTED_APIS : List String := ["results", "upload", "sandbox"]

/-- `constants.COMMON_API_ATTRIBUTES` = intersection of the three
per-API attribute sets: `{base_url, version, app_name}`. -/
def COMMON_API_ATTRIBUTES : List String := ["base_url", "version", "app_name"]

/-- The loop of `add_apis_to_config`: add an empty dict under each
supported API name not already present. -/
def addMissingApis : List String → List (PyValue × PyValue) → List (PyValue × PyValue)
  | [], apisL => apisL
  | api :: more, apisL =>
    addMissingApis more
      (if dHas apisL (.str api) then apisL else apisL ++ [(.str api, .dict [])])

/-- `config.add_apis_to_config`: ensure the top-level `apis` key and
the three per-API sub-dicts exist.  A non-dict config, or a non-dict
`apis` value, raises (`.keys()` on a non-dict). -/
def add_apis_to_config : PyValue → Except PyErr PyValue
  | .dict l =>
    let l1 := if dHas l (.str "apis") then l else dSet l (.str "apis") (.dict [])
    match dGet l1 (.str "apis") with
    | Option.some (.dict apisL) =>
      .ok (.dict (dSet l1 (.str "apis")
        (.dict (addMissingApis SUPPORTED_APIS apisL))))
    | Option.some _ => .error .attributeError
    | Option.none => .error .keyError
  | _ => .error .attributeError

/-- `config["apis"][api][attr] = val` for each supported API
(`TypeError` when a sub-entry is not a dict). -/
def setIntoApis : List String → List (PyValue × PyValue) → PyValue → String →
    Except PyErr (List (PyValue × PyValue))
  | [], apisL, _, _ => .ok apisL
  | api :: more, apisL, val, attr =>
    match dGet apisL (.str api) with
    | Option.some (.dict sub) =>
      setIntoApis more (dSet apisL (.str api) (.dict (dSet sub (.str attr) val)))
        val attr
    | Option.some _ => .error .typeError
    | Option.none => .error .keyError

/-- One iteration of the common-attribute distribution loop of
`normalize_config`: when the attribute is present at top level, copy
it into every per-API sub-dict and delete it from the top. -/
def distributeOne (l : List (PyValue × PyValue)) (attr : String) :
    Except PyErr (List (PyValue × PyValue)) :=
  if dHas l (.str attr) then
    match dGet l (.str attr) with
    | Option.some val =>
      match dGet l (.str "apis") with
      | Option.some (.dict apisL) =>
        match setIntoApis SUPPORTED_APIS apisL val attr with
        | .ok apisL2 => .ok (dDel (dSet l (.str "apis") (.dict apisL2)) (.str attr))
        | .error e => .error e
      | Option.some _ => .error .typeError
      | Option.none => .error .keyError
    | Option.none => .error .keyError
  else .ok l

/-- The full distribution loop over `COMMON_API_ATTRIBUTES`. -/
def distributeAll : List String → List (PyValue × PyValue) →
    Except PyErr (List (PyValue × PyValue))
  | [], l => .ok l
  | attr :: more, l =>
    match distributeOne l attr with
    | .ok l2 => distributeAll more l2
    | .error e => .error e

/-- `str.upper` on the ASCII config strings this code handles. -/
def pyUpper (s : String) : String := String.mk (s.data.map Char.toUpper)

/-- Modelled from the CPython `logging` module: its attribute names
that are fully upper-case (the only ones `hasattr(logging,
s.upper())` can find). -/
def LOGGING_UPPER_ATTRS : List String :=
  ["CRITICAL", "FATAL", "ERROR", "WARNING", "WARN", "INFO", "DEBUG",
   "NOTSET", "BASIC_FORMAT"]

/-- The log-level normalization step of `normalize_config`: a string
`loglevel` is upper-cased when `logging` has an attribute of that
name, otherwise `AttributeError` is raised. -/
def loglevel_norm (l : List (PyValue × PyValue)) :
    Except PyErr (List (PyValue × PyValue)) :=
  match dGet l (.str "loglevel") with
  | Option.some (.str s) =>
    if LOGGING_UPPER_ATTRS.contains (pyUpper s) then
      .ok (dSet l (.str "loglevel") (.str (pyUpper s)))
    else .error .attributeError
  | _ => .ok l

/-- Modelled from `pathlib.Path(s).absolute()`: prefix the working
directory when the path is relative.  (The theorems below depend only
on the result being a `Path` value, not on its exact string.) -/
def absolutize (cwd s : String) : String :=
  if s.data.head? = Option.some '/' then s else cwd ++ "/" ++ s

/-- The build-dir normalization step of `normalize_config`: a string
`build_dir` under `apis.upload` becomes an absolute `Path`. -/
def builddir_norm (cwd : String) (l : List (PyValue × PyValue)) :
    Except PyErr (List (PyValue × PyValue)) :=
  match dGet l (.str "apis") with
  | Option.some (.dict apisL) =>
    match dGet apisL (.str "upload") with
    | Option.some (.dict up) =>
      match dGet up (.str "build_dir") with
      | Option.some (.str s) =>
        .ok (dSet l (.str "apis") (.dict (dSet apisL (.str "upload")
          (.dict (dSet up (.str "build_dir") (.path (absolutize cwd s)))))))
      | _ => .ok l
    | Option.some _ => .error .attributeError
    | Option.none => .error .keyError
  | Option.some _ => .error .typeError
  | Option.none => .error .keyError

/-- The per-entry validation of an API sub-dict: every key/value must
satisfy `is_valid_attribute` (a non-string key matches no rule and is
vacuously valid), else `ValueError`; an exception raised by the
validator itself propagates. -/
def validateEntries : List (PyValue × PyValue) → Except PyErr Unit
  | [] => .ok ()
  | (k, v) :: rest =>
    match (match k with
      | .str s => is_valid_attribute s v
      | _ => .ok true) with
    | .error e => .error e
    | .ok true => validateEntries rest
    | .ok false => .error .valueError

/-- The validation loop over the supported APIs present under
`apis`. -/
def validate_apis_loop : List String → List (PyValue × PyValue) →
    Except PyErr Unit
  | [], _ => .ok ()
  | api :: more, apisL =>
    match dGet apisL (.str api) with
    | Option.some (.dict sub) =>
      match validateEntries sub with
      | .ok _ => validate_apis_loop more apisL
      | .error e => .error e
    | Option.some _ => .error .attributeError
    | Option.none => validate_apis_loop more apisL

/-- `config["apis"]` and the validation loop over it. -/
def validate_apis_top (l5 : List (PyValue × PyValue)) : Except PyErr Unit :=
  match dGet l5 (.str "apis") with
  | Option.some (.dict apisL) => validate_apis_loop SUPPORTED_APIS apisL
  | Option.some _ => .error .attributeError
  | Option.none => .error .keyError

/-- `config.normalize_config`: establish the `apis` structure,
distribute the common attributes, normalize `loglevel` and
`build_dir`, filter the config, and (when an `apis` key survived the
filtering) validate every per-API entry. -/
def normalize_config (cwd : String) (config : PyValue) : Except PyErr PyValue :=
  match add_apis_to_config config with
  | .error e => .error e
  | .ok c1 =>
    match c1 with
    | .dict l1 =>
      match distributeAll COMMON_API_ATTRIBUTES l1 with
      | .error e => .error e
      | .ok l2 =>
        match loglevel_norm l2 with
        | .error e => .error e
        | .ok l3 =>
          match builddir_norm cwd l3 with
          | .error e => .error e
          | .ok l4 =>
            match filter_config (.dict l4) with
            | .dict l5 =>
              if dHas l5 (.str "apis") then
                match validate_apis_top l5 with
                | .ok _ => .ok (.dict l5)
                | .error e => .error e
              else .ok (.dict l5)
            | _ => .error .attributeError
    | _ => .error .attributeError

/-- Distinctness of the keys of one dict level. -/
def keysNodup : List (PyValue × PyValue) → Bool
  | [] => true
  | (k, _) :: r => !(r.any (fun p => p.1 = k)) && keysNodup r

theorem dGet_cons (k1 v1 k : PyValue) (rest : List (PyValue × PyValue)) :
    dGet ((k1, v1) :: rest) k =
      (if k1 = k then Option.some v1 else dGet rest k) := by
  by_cases h : k1 = k <;> simp [dGet, List.find?, h]

theorem dHas_cons (k1 v1 k : PyValue) (rest : List (PyValue × PyValue)) :
    dHas ((k1, v1) :: rest) k = (if k1 = k then true else dHas rest k) := by
  by_cases h : k1 = k <;> simp [dHas, h]

theorem dSet_cons (k1 v1 k v : PyValue) (rest : List (PyValue × PyValue)) :
    dSet ((k1, v1) :: rest) k v =
      (if k1 = k then (k1, v) :: rest else (k1, v1) :: dSet rest k v) := by
  by_cases h : k1 = k <;> simp [dSet, h]

theorem dDel_cons (k1 v1 k : PyValue) (rest : List (PyValue × PyValue)) :
    dDel ((k1, v1) :: rest) k =
      (if k1 = k then rest else (k1, v1) :: dDel rest k) := by
  by_cases h : k1 = k <;> simp [dDel, h]

theorem keysNodup_cons (k1 v1 : PyValue) (rest : List (PyValue × PyValue)) :
    keysNodup ((k1, v1) :: rest) =
      (!(rest.any (fun p => p.1 = k1)) && keysNodup rest) := rfl

theorem dSet_same : ∀ (l : List (PyValue × PyValue)) (k v : PyValue),
    dGet l k = Option.some v → dSet l k v = l := by
  intro l k v h
  induction l with
  | nil => simp [dGet] at h
  | cons p rest ih =>
    obtain ⟨k1, v1⟩ := p
    rw [dGet_cons] at h
    rw [dSet_cons]
    by_cases hk : k1 = k
    · rw [if_pos hk] at h
      rw [if_pos hk]
      simp at h
      rw [h]
    · rw [if_neg hk] at h
      rw [if_neg hk, ih h]

theorem dSet_absent : ∀ (l : List (PyValue × PyValue)) (k v : PyValue),
    dHas l k = false → dSet l k v = l ++ [(k, v)] := by
  intro l k v h
  induction l with
  | nil => simp [dSet]
  | cons p rest ih =>
    obtain ⟨k1, v1⟩ := p
    rw [dHas_cons] at h
    by_cases hk : k1 = k
    · rw [if_pos hk] at h
      cases h
    · rw [if_neg hk] at h
      rw [dSet_cons, if_neg hk, ih h, List.cons_append]

theorem mem_dSet : ∀ (l : List (PyValue × PyValue)) (k v : PyValue)
    (p : PyValue × PyValue), p ∈ dSet l k v → p ∈ l ∨ (p.1 = k ∧ p.2 = v) := by
  intro l k v p h
  induction l with
  | nil =>
    simp only [dSet, List.mem_singleton] at h
    exact Or.inr (by simp [h])
  | cons q rest ih =>
    obtain ⟨k1, v1⟩ := q
    rw [dSet_cons] at h
    by_cases hk : k1 = k
    · rw [if_pos hk] at h
      rcases List.mem_cons.mp h with h2 | h2
      · exact Or.inr (by simp [h2, hk])
      · exact Or.inl (List.mem_cons_of_mem _ h2)
    · rw [if_neg hk] at h
      rcases List.mem_cons.mp h with h2 | h2
      · exact Or.inl (by simp [h2])
      · rcases ih h2 with h3 | h3
        · exact Or.inl (List.mem_cons_of_mem _ h3)
        · exact Or.inr h3

theorem mem_dDel : ∀ (l : List (PyValue × PyValue)) (k : PyValue)
    (p : PyValue × PyValue), p ∈ dDel l k → p ∈ l := by
  intro l k p h
  induction l with
  | nil => simp [dDel] at h
  | cons q rest ih =>
    obtain ⟨k1, v1⟩ := q
    rw [dDel_cons] at h
    by_cases hk : k1 = k
    · rw [if_pos hk] at h
      exact List.mem_cons_of_mem _ h
    · rw [if_neg hk] at h
      rcases List.mem_cons.mp h with h2 | h2
      · exact List.mem_cons.mpr (Or.inl h2)
      · exact List.mem_cons_of_mem _ (ih h2)

theorem dGet_mem : ∀ (l : List (PyValue × PyValue)) (k v : PyValue),
    dGet l k = Option.some v → (k, v) ∈ l := by
  intro l k v h
  induction l with
  | nil => simp [dGet] at h
  | cons p rest ih =>
    obtain ⟨k1, v1⟩ := p
    rw [dGet_cons] at h
    by_cases hk : k1 = k
    · rw [if_pos hk] at h
      simp at h
      subst hk
      simp [h]
    · rw [if_neg hk] at h
      exact List.mem_cons_of_mem _ (ih h)

theorem dHas_false_iff : ∀ (l : List (PyValue × PyValue)) (k : PyValue),
    dHas l k = false ↔ ∀ v, (k, v) ∉ l := by
  intro l k
  induction l with
  | nil => simp [dHas]
  | cons p rest ih =>
    obtain ⟨k1, v1⟩ := p
    rw [dHas_cons]
    by_cases hk : k1 = k
    · rw [if_pos hk]
      subst hk
      constructor
      · intro h
        cases h
      · intro h
        exact absurd (List.mem_cons_self _ _) (h v1)
    · rw [if_neg hk]
      rw [ih]
      constructor
      · intro h v hv
        rcases List.mem_cons.mp hv with h2 | h2
        · exact hk (congrArg Prod.fst h2).symm
        · exact h v h2
      · intro h v hv
        exact h v (List.mem_cons_of_mem _ hv)

theorem dGet_none_iff : ∀ (l : List (PyValue × PyValue)) (k : PyValue),
    dGet l k = Option.none ↔ dHas l k = false := by
  intro l k
  induction l with
  | nil => simp [dGet, dHas]
  | cons p rest ih =>
    obtain ⟨k1, v1⟩ := p
    rw [dGet_cons, dHas_cons]
    by_cases hk : k1 = k
    · rw [if_pos hk, if_pos hk]
      simp
    · rw [if_neg hk, if_neg hk]
      exact ih

theorem dGet_isSome_of_dHas : ∀ (l : List (PyValue × PyValue)) (k : PyValue),
    dHas l k = true → ∃ v, dGet l k = Option.some v := by
  intro l k h
  rcases hg : dGet l k with _ | v
  · rw [dGet_none_iff] at hg
    rw [hg] at h
    cases h
  · exact ⟨v, rfl⟩

theorem dGet_dSet_self : ∀ (l : List (PyValue × PyValue)) (k v : PyValue),
    dGet (dSet l k v) k = Option.some v := by
  intro l k v
  induction l with
  | nil => simp [dSet, dGet, List.find?]
  | cons p rest ih =>
    obtain ⟨k1, v1⟩ := p
    rw [dSet_cons]
    by_cases hk : k1 = k
    · rw [if_pos hk, dGet_cons, if_pos hk]
    · rw [if_neg hk, dGet_cons, if_neg hk]
      exact ih

theorem dGet_dSet_other : ∀ (l : List (PyValue × PyValue)) (k v k2 : PyValue),
    k2 ≠ k → dGet (dSet l k v) k2 = dGet l k2 := by
  intro l k v k2 hne
  induction l with
  | nil =>
    have hstep : dSet ([] : List (PyValue × PyValue)) k v = [(k, v)] := rfl
    rw [hstep, dGet_cons, if_neg (fun h => hne h.symm)]
  | cons p rest ih =>
    obtain ⟨k1, v1⟩ := p
    rw [dSet_cons]
    by_cases hk : k1 = k
    · subst hk
      rw [if_pos rfl, dGet_cons, dGet_cons, if_neg (fun h => hne h.symm),
        if_neg (fun h => hne h.symm)]
    · rw [if_neg hk, dGet_cons, dGet_cons]
      by_cases hk2 : k1 = k2
      · rw [if_pos hk2, if_pos hk2]
      · rw [if_neg hk2, if_neg hk2]
        exact ih

theorem dGet_append : ∀ (l1 l2 : List (PyValue × PyValue)) (k : PyValue),
    dGet (l1 ++ l2) k =
      (match dGet l1 k with
       | Option.some v => Option.some v
       | Option.none => dGet l2 k) := by
  intro l1 l2 k
  induction l1 with
  | nil => simp [dGet]
  | cons p rest ih =>
    obtain ⟨k1, v1⟩ := p
    rw [List.cons_append, dGet_cons, dGet_cons]
    by_cases hk : k1 = k
    · rw [if_pos hk, if_pos hk]
    · rw [if_neg hk, if_neg hk]
      exact ih

theorem dHas_append : ∀ (l1 l2 : List (PyValue × PyValue)) (k : PyValue),
    dHas (l1 ++ l2) k = (dHas l1 k || dHas l2 k) := by
  intro l1 l2 k
  simp [dHas]

theorem keysNodup_dSet : ∀ (l : List (PyValue × PyValue)) (k v : PyValue),
    keysNodup l = true → keysNodup (dSet l k v) = true := by
  intro l k v h
  induction l with
  | nil => simp [dSet, keysNodup]
  | cons p rest ih =>
    obtain ⟨k1, v1⟩ := p
    rw [keysNodup_cons, Bool.and_eq_true, Bool.not_eq_true', List.any_eq_false] at h
    rw [dSet_cons]
    by_cases hk : k1 = k
    · rw [if_pos hk, keysNodup_cons, Bool.and_eq_true,
        Bool.not_eq_true', List.any_eq_false]
      exact h
    · rw [if_neg hk, keysNodup_cons, Bool.and_eq_true,
        Bool.not_eq_true', List.any_eq_false]
      refine ⟨?_, ih h.2⟩
      intro p hp
      rcases mem_dSet rest k v p hp with hm | hm
      · exact h.1 p hm
      · simp only [decide_eq_true_eq] at h ⊢
        rw [hm.1]
        exact fun hc => hk hc.symm

theorem keysNodup_dDel : ∀ (l : List (PyValue × PyValue)) (k : PyValue),
    keysNodup l = true → keysNodup (dDel l k) = true := by
  intro l k h
  induction l with
  | nil => simp [dDel, keysNodup]
  | cons p rest ih =>
    obtain ⟨k1, v1⟩ := p
    rw [keysNodup_cons, Bool.and_eq_true] at h
    rw [dDel_cons]
    by_cases hk : k1 = k
    · rw [if_pos hk]
      exact h.2
    · rw [if_neg hk, keysNodup_cons, Bool.and_eq_true]
      refine ⟨?_, ih h.2⟩
      have h1 := h.1
      rw [Bool.not_eq_true', List.any_eq_false] at h1 ⊢
      intro p hp
      exact h1 p (mem_dDel rest k p hp)

theorem dHas_dDel_false : ∀ (l : List (PyValue × PyValue)) (k : PyValue),
    keysNodup l = true → dHas (dDel l k) k = false := by
  intro l k h
  induction l with
  | nil => simp [dDel, dHas]
  | cons p rest ih =>
    obtain ⟨k1, v1⟩ := p
    rw [keysNodup_cons, Bool.and_eq_true] at h
    rw [dDel_cons]
    by_cases hk : k1 = k
    · rw [if_pos hk]
      subst hk
      have h1 := h.1
      rw [Bool.not_eq_true', List.any_eq_false] at h1
      rw [dHas_false_iff]
      intro v hv
      exact h1 (k1, v) hv (by simp)
    · rw [if_neg hk, dHas_cons, if_neg hk]
      exact ih h.2


mutual

/-- No dict anywhere in the value has two `==`-equal keys — the
invariant Python's runtime maintains for every actual dict. -/
def recNoDup : PyValue → Bool
  | .list xs => recNoDupList xs
  | .tuple xs => recNoDupList xs
  | .set xs => recNoDupList xs
  | .dict kvs => keysNodup kvs && recNoDupPairs kvs
  | _ => true

/-- `recNoDup` over list items. -/
def recNoDupList : List PyValue → Bool
  | [] => true
  | x :: xs => recNoDup x && recNoDupList xs

/-- `recNoDup` over dict entries. -/
def recNoDupPairs : List (PyValue × PyValue) → Bool
  | [] => true
  | (k, v) :: r => recNoDup k && recNoDup v && recNoDupPairs r

end

end EasySast

namespace EasySast

theorem mem_unique_of_nodup : ∀ (l : List (PyValue × PyValue)) (k v : PyValue),
    keysNodup l = true → (k, v) ∈ l → dGet l k = Option.some v := by
  intro l k v hnd hm
  induction l with
  | nil => cases hm
  | cons p rest ih =>
    obtain ⟨k1, v1⟩ := p
    rw [keysNodup_cons, Bool.and_eq_true, Bool.not_eq_true',
      List.any_eq_false] at hnd
    rcases List.mem_cons.mp hm with h2 | h2
    · rw [dGet_cons, if_pos (congrArg Prod.fst h2).symm]
      exact congrArg (Option.some ∘ Prod.snd) h2.symm
    · rw [dGet_cons]
      by_cases hk : k1 = k
      · exfalso
        have hcontra := hnd.1 (k, v) h2
        simp only [decide_eq_true_eq] at hcontra
        exact hcontra hk.symm
      · rw [if_neg hk]
        exact ih hnd.2 h2

theorem keysNodup_append_single (l : List (PyValue × PyValue)) (k v : PyValue)
    (hnd : keysNodup l = true) (habs : dHas l k = false) :
    keysNodup (l ++ [(k, v)]) = true := by
  induction l with
  | nil => simp [keysNodup]
  | cons p rest ih =>
    obtain ⟨k1, v1⟩ := p
    rw [keysNodup_cons, Bool.and_eq_true, Bool.not_eq_true',
      List.any_eq_false] at hnd
    rw [dHas_cons] at habs
    by_cases hk : k1 = k
    · rw [if_pos hk] at habs
      cases habs
    · rw [if_neg hk] at habs
      rw [List.cons_append, keysNodup_cons, Bool.and_eq_true,
        Bool.not_eq_true', List.any_eq_false]
      refine ⟨?_, ih hnd.2 habs⟩
      intro p hp
      rcases List.mem_append.mp hp with h2 | h2
      · exact hnd.1 p h2
      · simp only [List.mem_singleton] at h2
        subst h2
        simp only [decide_eq_true_eq]
        exact fun hc => hk hc.symm

theorem dSet_append_last (l : List (PyValue × PyValue)) (k v0 v : PyValue)
    (habs : dHas l k = false) :
    dSet (l ++ [(k, v0)]) k v = l ++ [(k, v)] := by
  induction l with
  | nil => simp [dSet]
  | cons p rest ih =>
    obtain ⟨k1, v1⟩ := p
    rw [dHas_cons] at habs
    by_cases hk : k1 = k
    · rw [if_pos hk] at habs
      cases habs
    · rw [if_neg hk] at habs
      rw [List.cons_append, dSet_cons, if_neg hk, ih habs, List.cons_append]

theorem dGet_decompose : ∀ (l : List (PyValue × PyValue)) (k v : PyValue),
    dGet l k = Option.some v →
    ∃ pre k1 post, l = pre ++ (k1, v) :: post ∧ k1 = k ∧ dHas pre k = false := by
  intro l k v h
  induction l with
  | nil => simp [dGet] at h
  | cons p rest ih =>
    obtain ⟨k1, v1⟩ := p
    rw [dGet_cons] at h
    by_cases hk : k1 = k
    · rw [if_pos hk] at h
      simp only [Option.some.injEq] at h
      exact ⟨[], k1, rest, by rw [h]; rfl, hk, by simp [dHas]⟩
    · rw [if_neg hk] at h
      obtain ⟨pre, k2, post, heq, hk2, habs⟩ := ih h
      refine ⟨(k1, v1) :: pre, k2, post, by rw [heq]; rfl, hk2, ?_⟩
      rw [dHas_cons, if_neg hk]
      exact habs

theorem dSet_on_decomposed (pre post : List (PyValue × PyValue))
    (k1 v1 v : PyValue) (habs : dHas pre k1 = false) :
    dSet (pre ++ (k1, v1) :: post) k1 v = pre ++ (k1, v) :: post := by
  induction pre with
  | nil => simp [dSet]
  | cons p rest ih =>
    obtain ⟨k2, v2⟩ := p
    rw [dHas_cons] at habs
    by_cases hk : k2 = k1
    · rw [if_pos hk] at habs
      cases habs
    · rw [if_neg hk] at habs
      rw [List.cons_append, dSet_cons, if_neg hk, ih habs, List.cons_append]

theorem removeNonesPairs_append : ∀ l1 l2 : List (PyValue × PyValue),
    removeNonesPairs (l1 ++ l2) = removeNonesPairs l1 ++ removeNonesPairs l2 := by
  intro l1 l2
  induction l1 with
  | nil => simp [removeNonesPairs]
  | cons p rest ih =>
    obtain ⟨k, v⟩ := p
    by_cases h : k = PyValue.none ∨ v = PyValue.none
    · rw [List.cons_append]
      have h1 : removeNonesPairs ((k, v) :: (rest ++ l2)) =
          removeNonesPairs (rest ++ l2) := by simp [removeNonesPairs, h]
      have h2 : removeNonesPairs ((k, v) :: rest) = removeNonesPairs rest := by
        simp [removeNonesPairs, h]
      rw [h1, h2, ih]
    · rw [List.cons_append]
      have h1 : removeNonesPairs ((k, v) :: (rest ++ l2)) =
          (remove_nones k, remove_nones v) :: removeNonesPairs (rest ++ l2) := by
        simp [removeNonesPairs, h]
      have h2 : removeNonesPairs ((k, v) :: rest) =
          (remove_nones k, remove_nones v) :: removeNonesPairs rest := by
        simp [removeNonesPairs, h]
      rw [h1, h2, ih, List.cons_append]

theorem removeEmptyPairs_append : ∀ l1 l2 : List (PyValue × PyValue),
    removeEmptyPairs (l1 ++ l2) = removeEmptyPairs l1 ++ removeEmptyPairs l2 := by
  intro l1 l2
  induction l1 with
  | nil => simp [removeEmptyPairs]
  | cons p rest ih =>
    obtain ⟨k, v⟩ := p
    by_cases h : isEmptyDict v = true
    · rw [List.cons_append]
      have h1 : removeEmptyPairs ((k, v) :: (rest ++ l2)) =
          removeEmptyPairs (rest ++ l2) := by simp [removeEmptyPairs, h]
      have h2 : removeEmptyPairs ((k, v) :: rest) = removeEmptyPairs rest := by
        simp [removeEmptyPairs, h]
      rw [h1, h2, ih]
    · rw [List.cons_append]
      have h1 : removeEmptyPairs ((k, v) :: (rest ++ l2)) =
          (remove_empty_dicts k, remove_empty_dicts v) ::
            removeEmptyPairs (rest ++ l2) := by
        simp [removeEmptyPairs, h]
      have h2 : removeEmptyPairs ((k, v) :: rest) =
          (remove_empty_dicts k, remove_empty_dicts v) ::
            removeEmptyPairs rest := by
        simp [removeEmptyPairs, h]
      rw [h1, h2, ih, List.cons_append]

theorem removeNonesPairs_fix_pointwise :
    ∀ l : List (PyValue × PyValue), removeNonesPairs l = l →
      ∀ p, p ∈ l → p.1 ≠ PyValue.none ∧ p.2 ≠ PyValue.none ∧
        remove_nones p.1 = p.1 ∧ remove_nones p.2 = p.2 := by
  intro l hfix p hp
  induction l with
  | nil => cases hp
  | cons q rest ih =>
    obtain ⟨k, v⟩ := q
    by_cases h : k = PyValue.none ∨ v = PyValue.none
    · have hrw : removeNonesPairs ((k, v) :: rest) = removeNonesPairs rest := by
        simp [removeNonesPairs, h]
      rw [hrw] at hfix
      have hps := congrArg psizePairs hfix
      have h1 := removeNonesPairs_psize rest
      have h2 := psize_pos k
      have h3 := psize_pos v
      simp only [psizePairs] at hps
      omega
    · push_neg at h
      have hrw : removeNonesPairs ((k, v) :: rest) =
          (remove_nones k, remove_nones v) :: removeNonesPairs rest := by
        simp [removeNonesPairs, h.1, h.2]
      rw [hrw] at hfix
      simp only [List.cons.injEq, Prod.mk.injEq] at hfix
      rcases List.mem_cons.mp hp with h2 | h2
      · subst h2
        exact ⟨h.1, h.2, hfix.1.1, hfix.1.2⟩
      · exact ih hfix.2 h2

theorem removeEmptyPairs_fix_pointwise :
    ∀ l : List (PyValue × PyValue), removeEmptyPairs l = l →
      ∀ p, p ∈ l → isEmptyDict p.2 = false ∧
        remove_empty_dicts p.1 = p.1 ∧ remove_empty_dicts p.2 = p.2 := by
  intro l hfix p hp
  induction l with
  | nil => cases hp
  | cons q rest ih =>
    obtain ⟨k, v⟩ := q
    by_cases h : isEmptyDict v = true
    · have hrw : removeEmptyPairs ((k, v) :: rest) = removeEmptyPairs rest := by
        simp [removeEmptyPairs, h]
      rw [hrw] at hfix
      have hps := congrArg psizePairs hfix
      have h1 := removeEmptyPairs_psize rest
      have h2 := psize_pos k
      have h3 := psize_pos v
      simp only [psizePairs] at hps
      omega
    · have hrw : removeEmptyPairs ((k, v) :: rest) =
          (remove_empty_dicts k, remove_empty_dicts v) ::
            removeEmptyPairs rest := by
        simp [removeEmptyPairs, h]
      rw [hrw] at hfix
      simp only [List.cons.injEq, Prod.mk.injEq] at hfix
      rcases List.mem_cons.mp hp with h2 | h2
      · subst h2
        exact ⟨by simpa using h, hfix.1.1, hfix.1.2⟩
      · exact ih hfix.2 h2

theorem removeNonesPairs_of_pointwise :
    ∀ l : List (PyValue × PyValue),
      (∀ p, p ∈ l → p.1 ≠ PyValue.none ∧ p.2 ≠ PyValue.none ∧
        remove_nones p.1 = p.1 ∧ remove_nones p.2 = p.2) →
      removeNonesPairs l = l := by
  intro l h
  induction l with
  | nil => simp [removeNonesPairs]
  | cons q rest ih =>
    obtain ⟨k, v⟩ := q
    have hq := h (k, v) (List.mem_cons_self _ _)
    have hrw : removeNonesPairs ((k, v) :: rest) =
        (remove_nones k, remove_nones v) :: removeNonesPairs rest := by
      simp [removeNonesPairs, hq.1, hq.2.1]
    rw [hrw, hq.2.2.1, hq.2.2.2, ih (fun p hp => h p (List.mem_cons_of_mem _ hp))]

theorem removeEmptyPairs_of_pointwise :
    ∀ l : List (PyValue × PyValue),
      (∀ p, p ∈ l → isEmptyDict p.2 = false ∧
        remove_empty_dicts p.1 = p.1 ∧ remove_empty_dicts p.2 = p.2) →
      removeEmptyPairs l = l := by
  intro l h
  induction l with
  | nil => simp [removeEmptyPairs]
  | cons q rest ih =>
    obtain ⟨k, v⟩ := q
    have hq := h (k, v) (List.mem_cons_self _ _)
    have hrw : removeEmptyPairs ((k, v) :: rest) =
        (remove_empty_dicts k, remove_empty_dicts v) ::
          removeEmptyPairs rest := by
      simp [removeEmptyPairs, hq.1]
    rw [hrw, hq.2.1, hq.2.2, ih (fun p hp => h p (List.mem_cons_of_mem _ hp))]

theorem removeEmptyPairs_all_empty :
    ∀ l : List (PyValue × PyValue),
      (∀ p, p ∈ l → isEmptyDict p.2 = true) → removeEmptyPairs l = [] := by
  intro l h
  induction l with
  | nil => simp [removeEmptyPairs]
  | cons q rest ih =>
    obtain ⟨k, v⟩ := q
    have hq := h (k, v) (List.mem_cons_self _ _)
    have hrw : removeEmptyPairs ((k, v) :: rest) = removeEmptyPairs rest := by
      simp [removeEmptyPairs, hq]
    rw [hrw, ih (fun p hp => h p (List.mem_cons_of_mem _ hp))]

theorem mem_removeNonesPairs :
    ∀ (l : List (PyValue × PyValue)) (p : PyValue × PyValue),
      p ∈ removeNonesPairs l →
      ∃ q, q ∈ l ∧ p.1 = remove_nones q.1 ∧ p.2 = remove_nones q.2 := by
  intro l p hp
  induction l with
  | nil => simp [removeNonesPairs] at hp
  | cons q rest ih =>
    obtain ⟨k, v⟩ := q
    by_cases h : k = PyValue.none ∨ v = PyValue.none
    · have hrw : removeNonesPairs ((k, v) :: rest) = removeNonesPairs rest := by
        simp [removeNonesPairs, h]
      rw [hrw] at hp
      obtain ⟨q, hq, h1, h2⟩ := ih hp
      exact ⟨q, List.mem_cons_of_mem _ hq, h1, h2⟩
    · have hrw : removeNonesPairs ((k, v) :: rest) =
          (remove_nones k, remove_nones v) :: removeNonesPairs rest := by
        simp [removeNonesPairs, h]
      rw [hrw] at hp
      rcases List.mem_cons.mp hp with h2 | h2
      · exact ⟨(k, v), List.mem_cons_self _ _, by simp [h2], by simp [h2]⟩
      · obtain ⟨q, hq, ha, hb⟩ := ih h2
        exact ⟨q, List.mem_cons_of_mem _ hq, ha, hb⟩

theorem mem_removeEmptyPairs :
    ∀ (l : List (PyValue × PyValue)) (p : PyValue × PyValue),
      p ∈ removeEmptyPairs l →
      ∃ q, q ∈ l ∧ p.1 = remove_empty_dicts q.1 ∧
        p.2 = remove_empty_dicts q.2 := by
  intro l p hp
  induction l with
  | nil => simp [removeEmptyPairs] at hp
  | cons q rest ih =>
    obtain ⟨k, v⟩ := q
    by_cases h : isEmptyDict v = true
    · have hrw : removeEmptyPairs ((k, v) :: rest) = removeEmptyPairs rest := by
        simp [removeEmptyPairs, h]
      rw [hrw] at hp
      obtain ⟨q, hq, h1, h2⟩ := ih hp
      exact ⟨q, List.mem_cons_of_mem _ hq, h1, h2⟩
    · have hrw : removeEmptyPairs ((k, v) :: rest) =
          (remove_empty_dicts k, remove_empty_dicts v) ::
            removeEmptyPairs rest := by
        simp [removeEmptyPairs, h]
      rw [hrw] at hp
      rcases List.mem_cons.mp hp with h2 | h2
      · exact ⟨(k, v), List.mem_cons_self _ _, by simp [h2], by simp [h2]⟩
      · obtain ⟨q, hq, ha, hb⟩ := ih h2
        exact ⟨q, List.mem_cons_of_mem _ hq, ha, hb⟩

theorem rn_str_inv (x : PyValue) (s : String)
    (h : remove_nones x = PyValue.str s) : x = PyValue.str s := by
  cases x <;> simp [remove_nones] at h <;> simp [h]

theorem red_str_inv (x : PyValue) (s : String)
    (h : remove_empty_dicts x = PyValue.str s) : x = PyValue.str s := by
  cases x <;> simp [remove_empty_dicts] at h <;> simp [h]

theorem rn_dict_inv (x : PyValue) (d : List (PyValue × PyValue))
    (h : remove_nones x = PyValue.dict d) :
    ∃ l0, x = PyValue.dict l0 ∧ d = removeNonesPairs l0 := by
  cases x <;> simp [remove_nones] at h
  case dict kvs => exact ⟨kvs, rfl, h.symm⟩

theorem red_dict_inv (x : PyValue) (d : List (PyValue × PyValue))
    (h : remove_empty_dicts x = PyValue.dict d) :
    ∃ l0, x = PyValue.dict l0 ∧ d = removeEmptyPairs l0 := by
  cases x <;> simp [remove_empty_dicts] at h
  case dict kvs => exact ⟨kvs, rfl, h.symm⟩

theorem stepFC_dict (l : List (PyValue × PyValue)) :
    stepFC (PyValue.dict l) =
      PyValue.dict (removeEmptyPairs (removeNonesPairs l)) := rfl

end EasySast

namespace EasySast

/-- The nodup structure `normalize_config`'s distribution loop
maintains: top-level keys distinct, the `apis` value a dict with
distinct keys, and every string-keyed dict below it with distinct
keys. -/
def DistInv (l : List (PyValue × PyValue)) : Prop :=
  keysNodup l = true ∧
  ∀ v, (PyValue.str "apis", v) ∈ l → ∃ la, v = PyValue.dict la ∧
    keysNodup la = true ∧
    ∀ s w, (PyValue.str s, w) ∈ la → ∀ lu, w = PyValue.dict lu →
      keysNodup lu = true

theorem recNoDupPairs_mem : ∀ l : List (PyValue × PyValue),
    recNoDupPairs l = true → ∀ p, p ∈ l →
      recNoDup p.1 = true ∧ recNoDup p.2 = true := by
  intro l h p hp
  induction l with
  | nil => cases hp
  | cons q rest ih =>
    obtain ⟨k, v⟩ := q
    simp only [recNoDupPairs, Bool.and_eq_true] at h
    rcases List.mem_cons.mp hp with h2 | h2
    · subst h2
      exact ⟨h.1.1, h.1.2⟩
    · exact ih h.2 h2

theorem recNoDup_dict (l : List (PyValue × PyValue))
    (h : recNoDup (PyValue.dict l) = true) :
    keysNodup l = true ∧
      ∀ p, p ∈ l → recNoDup p.1 = true ∧ recNoDup p.2 = true := by
  simp only [recNoDup, Bool.and_eq_true] at h
  exact ⟨h.1, recNoDupPairs_mem l h.2⟩

theorem addMissing_spec : ∀ (names : List String) (l : List (PyValue × PyValue)),
    ∃ adds, addMissingApis names l = l ++ adds ∧
      (∀ p, p ∈ adds → (∃ a, p.1 = PyValue.str a) ∧ p.2 = PyValue.dict []) ∧
      (∀ a, a ∈ names → dHas l (PyValue.str a) = false →
        dGet adds (PyValue.str a) = Option.some (PyValue.dict [])) := by
  intro names
  induction names with
  | nil =>
    intro l
    exact ⟨[], by simp [addMissingApis], by simp, by simp⟩
  | cons api more ih =>
    intro l
    by_cases h : dHas l (PyValue.str api) = true
    · obtain ⟨adds, heq, hent, hget⟩ := ih l
      refine ⟨adds, ?_, hent, ?_⟩
      · simpa [addMissingApis, h] using heq
      · intro a ha habs
        rcases List.mem_cons.mp ha with h2 | h2
        · subst h2
          rw [h] at habs
          cases habs
        · exact hget a h2 habs
    · rw [Bool.not_eq_true] at h
      obtain ⟨adds, heq, hent, hget⟩ := ih (l ++ [(PyValue.str api, PyValue.dict [])])
      refine ⟨(PyValue.str api, PyValue.dict []) :: adds, ?_, ?_, ?_⟩
      · have hrw : addMissingApis (api :: more) l =
            addMissingApis more (l ++ [(PyValue.str api, PyValue.dict [])]) := by
          simp [addMissingApis, h]
        rw [hrw, heq, List.append_assoc]
        rfl
      · intro p hp
        rcases List.mem_cons.mp hp with h2 | h2
        · subst h2
          exact ⟨⟨api, rfl⟩, rfl⟩
        · exact hent p h2
      · intro a ha habs
        rw [dGet_cons]
        by_cases hA : api = a
        · rw [if_pos (by rw [hA])]
        · rw [if_neg (by simp [hA])]
          rcases List.mem_cons.mp ha with h2 | h2
          · exact absurd h2.symm hA
          · refine hget a h2 ?_
            rw [dHas_append, habs, Bool.false_or]
            simp [dHas, hA]

theorem setIntoApis_inv : ∀ (names : List String)
    (apisL : List (PyValue × PyValue)) (val : PyValue) (attr : String)
    (apisL2 : List (PyValue × PyValue)),
    keysNodup apisL = true →
    (∀ s w, (PyValue.str s, w) ∈ apisL → ∀ lu, w = PyValue.dict lu →
      keysNodup lu = true) →
    setIntoApis names apisL val attr = .ok apisL2 →
    keysNodup apisL2 = true ∧
    (∀ s w, (PyValue.str s, w) ∈ apisL2 → ∀ lu, w = PyValue.dict lu →
      keysNodup lu = true) := by
  intro names
  induction names with
  | nil =>
    intro apisL val attr apisL2 hnd hsub hrun
    simp only [setIntoApis, Except.ok.injEq] at hrun
    subst hrun
    exact ⟨hnd, hsub⟩
  | cons api more ih =>
    intro apisL val attr apisL2 hnd hsub hrun
    simp only [setIntoApis] at hrun
    rcases hg : dGet apisL (PyValue.str api) with _ | w
    · rw [hg] at hrun
      cases hrun
    · rw [hg] at hrun
      cases w <;> try cases hrun
      case dict sub =>
        have hsubnd : keysNodup sub = true :=
          hsub api (PyValue.dict sub) (dGet_mem _ _ _ hg) sub rfl
        refine ih _ val attr apisL2 (keysNodup_dSet _ _ _ hnd) ?_ hrun
        intro s w hm lu heq
        rcases mem_dSet _ _ _ _ hm with h2 | h2
        · exact hsub s w h2 lu heq
        · simp only at h2
          rw [h2.2] at heq
          simp only [PyValue.dict.injEq] at heq
          rw [← heq]
          exact keysNodup_dSet _ _ _ hsubnd

theorem distributeOne_inv (l : List (PyValue × PyValue)) (attr : String)
    (l2 : List (PyValue × PyValue)) (hattr : attr ≠ "apis")
    (hinv : DistInv l) (hrun : distributeOne l attr = .ok l2) :
    DistInv l2 ∧ (∀ p, p ∈ l2 → p ∈ l ∨ p.1 = PyValue.str "apis") ∧
    (∀ v, (PyValue.str attr, v) ∉ l2) := by
  unfold distributeOne at hrun
  by_cases hH : dHas l (PyValue.str attr) = true
  · rw [if_pos hH] at hrun
    split at hrun <;> try exact (Except.noConfusion hrun)
    rename_i val hgv
    split at hrun <;> try exact (Except.noConfusion hrun)
    rename_i apisL hga
    split at hrun <;> try exact (Except.noConfusion hrun)
    rename_i apisL2 hsi
    simp only [Except.ok.injEq] at hrun
    obtain ⟨la, hla, hand, hsubf⟩ :=
      hinv.2 (PyValue.dict apisL) (dGet_mem _ _ _ hga)
    simp only [PyValue.dict.injEq] at hla
    subst hla
    have hsi2 := setIntoApis_inv SUPPORTED_APIS apisL val attr apisL2
      hand hsubf hsi
    have hndL1 : keysNodup
        (dSet l (PyValue.str "apis") (PyValue.dict apisL2)) = true :=
      keysNodup_dSet _ _ _ hinv.1
    subst hrun
    refine ⟨⟨keysNodup_dDel _ _ hndL1, ?_⟩, ?_, ?_⟩
    · intro v hm
      have hm2 := mem_dDel _ _ _ hm
      have huq := mem_unique_of_nodup _ _ _ hndL1 hm2
      rw [dGet_dSet_self] at huq
      simp only [Option.some.injEq] at huq
      subst huq
      exact ⟨apisL2, rfl, hsi2.1, hsi2.2⟩
    · intro p hp
      have hp2 := mem_dDel _ _ _ hp
      rcases mem_dSet _ _ _ _ hp2 with h2 | h2
      · exact Or.inl h2
      · exact Or.inr h2.1
    · have hfree := dHas_dDel_false
        (dSet l (PyValue.str "apis") (PyValue.dict apisL2))
        (PyValue.str attr) hndL1
      exact (dHas_false_iff _ _).mp hfree
  · rw [Bool.not_eq_true] at hH
    rw [if_neg (by rw [hH]; exact Bool.false_ne_true)] at hrun
    simp only [Except.ok.injEq] at hrun
    subst hrun
    exact ⟨hinv, fun p hp => Or.inl hp, (dHas_false_iff _ _).mp hH⟩

theorem distributeAll_inv : ∀ (names : List String)
    (l l2 : List (PyValue × PyValue)),
    (∀ a, a ∈ names → a ≠ "apis") → DistInv l →
    distributeAll names l = .ok l2 →
    DistInv l2 ∧ (∀ p, p ∈ l2 → p ∈ l ∨ p.1 = PyValue.str "apis") ∧
    (∀ a, a ∈ names → ∀ v, (PyValue.str a, v) ∉ l2) := by
  intro names
  induction names with
  | nil =>
    intro l l2 hne hinv hrun
    simp only [distributeAll, Except.ok.injEq] at hrun
    subst hrun
    exact ⟨hinv, fun p hp => Or.inl hp, by simp⟩
  | cons attr more ih =>
    intro l l2 hne hinv hrun
    simp only [distributeAll] at hrun
    rcases ho : distributeOne l attr with e | lmid
    · rw [ho] at hrun
      cases hrun
    · rw [ho] at hrun
      have d1 := distributeOne_inv l attr lmid
        (hne attr (List.mem_cons_self _ _)) hinv ho
      have drec := ih lmid l2 (fun a ha => hne a (List.mem_cons_of_mem _ ha))
        d1.1 hrun
      refine ⟨drec.1, ?_, ?_⟩
      · intro p hp
        rcases drec.2.1 p hp with h2 | h2
        · exact d1.2.1 p h2
        · exact Or.inr h2
      · intro a ha v hv
        rcases List.mem_cons.mp ha with h2 | h2
        · subst h2
          rcases drec.2.1 (PyValue.str a, v) hv with h3 | h3
          · exact d1.2.2 v h3
          · simp only [PyValue.str.injEq] at h3
            exact hne a (List.mem_cons_self _ _) h3
        · exact drec.2.2 a h2 v hv

end EasySast

namespace EasySast

/-- What a successful `normalize_config` run has arranged, in
membership form (robust under the filtering pass): no common API
attribute at top level, every `loglevel` string already upper-cased
and known to `logging`, and under `apis` every `upload.build_dir`
already a non-string (a `Path`). -/
def NormFacts (l : List (PyValue × PyValue)) : Prop :=
  (∀ a, a ∈ COMMON_API_ATTRIBUTES → ∀ v, (PyValue.str a, v) ∉ l) ∧
  (∀ v, (PyValue.str "loglevel", v) ∈ l → ∀ s, v = PyValue.str s →
    pyUpper s = s ∧ LOGGING_UPPER_ATTRS.contains s = true) ∧
  (∀ v, (PyValue.str "apis", v) ∈ l → ∃ la, v = PyValue.dict la ∧
    ∀ w, (PyValue.str "upload", w) ∈ la → ∃ lu, w = PyValue.dict lu ∧
      ∀ u, (PyValue.str "build_dir", u) ∈ lu → ∀ s, u ≠ PyValue.str s)

theorem keysNodup_addMissing : ∀ (names : List String)
    (l : List (PyValue × PyValue)), keysNodup l = true →
    keysNodup (addMissingApis names l) = true := by
  intro names
  induction names with
  | nil => intro l h; simpa [addMissingApis] using h
  | cons api more ih =>
    intro l h
    by_cases hH : dHas l (PyValue.str api) = true
    · have hrw : addMissingApis (api :: more) l = addMissingApis more l := by
        simp [addMissingApis, hH]
      rw [hrw]
      exact ih l h
    · rw [Bool.not_eq_true] at hH
      have hrw : addMissingApis (api :: more) l =
          addMissingApis more (l ++ [(PyValue.str api, PyValue.dict [])]) := by
        simp [addMissingApis, hH]
      rw [hrw]
      exact ih _ (keysNodup_append_single l _ _ h hH)

theorem LOG_fix (u : String) (h : LOGGING_UPPER_ATTRS.contains u = true) :
    pyUpper u = u := by
  simp only [LOGGING_UPPER_ATTRS, List.contains, List.elem_iff,
    List.mem_cons, List.not_mem_nil, or_false] at h
  rcases h with rfl | rfl | rfl | rfl | rfl | rfl | rfl | rfl | rfl <;> decide

theorem add_apis_inv (config c1 : PyValue) (hnd : recNoDup config = true)
    (hrun : add_apis_to_config config = .ok c1) :
    ∃ l1, c1 = PyValue.dict l1 ∧ DistInv l1 := by
  cases config <;> try cases hrun
  rename_i l0
  obtain ⟨hnd0, hmem0⟩ := recNoDup_dict l0 hnd
  simp only [add_apis_to_config] at hrun
  by_cases hH : dHas l0 (PyValue.str "apis") = true
  · rw [if_pos hH] at hrun
    split at hrun <;> try exact (Except.noConfusion hrun)
    rename_i apisL hga
    simp only [Except.ok.injEq] at hrun
    have hapisMem := dGet_mem _ _ _ hga
    have hndA : keysNodup apisL = true := by
      have := (hmem0 _ hapisMem).2
      simp only [recNoDup, Bool.and_eq_true] at this
      exact this.1
    have hsubA : ∀ s w, (PyValue.str s, w) ∈ apisL → ∀ lu,
        w = PyValue.dict lu → keysNodup lu = true := by
      intro s w hm lu heq
      have := (hmem0 _ hapisMem).2
      simp only [recNoDup, Bool.and_eq_true] at this
      have h2 := (recNoDupPairs_mem apisL this.2 _ hm).2
      rw [heq] at h2
      simp only [recNoDup, Bool.and_eq_true] at h2
      exact h2.1
    obtain ⟨adds, haddeq, hent, _⟩ := addMissing_spec SUPPORTED_APIS apisL
    refine ⟨_, hrun.symm, keysNodup_dSet _ _ _ hnd0, ?_⟩
    intro v hm
    have huq := mem_unique_of_nodup _ _ _ (keysNodup_dSet _ _ _ hnd0) hm
    rw [dGet_dSet_self] at huq
    simp only [Option.some.injEq] at huq
    subst huq
    refine ⟨_, rfl, keysNodup_addMissing _ _ hndA, ?_⟩
    intro s w hm2 lu heq
    rw [haddeq] at hm2
    rcases List.mem_append.mp hm2 with h2 | h2
    · exact hsubA s w h2 lu heq
    · have := (hent _ h2).2
      simp only at this
      rw [this] at heq
      simp only [PyValue.dict.injEq] at heq
      rw [← heq]
      rfl
  · rw [Bool.not_eq_true] at hH
    rw [if_neg (by rw [hH]; exact Bool.false_ne_true)] at hrun
    split at hrun <;> try exact (Except.noConfusion hrun)
    rename_i apisL hga
    rw [dGet_dSet_self] at hga
    simp only [Option.some.injEq, PyValue.dict.injEq] at hga
    subst hga
    simp only [Except.ok.injEq] at hrun
    have hnd1 : keysNodup (dSet l0 (PyValue.str "apis")
        (PyValue.dict [])) = true := keysNodup_dSet _ _ _ hnd0
    obtain ⟨adds, haddeq, hent, _⟩ := addMissing_spec SUPPORTED_APIS []
    refine ⟨_, hrun.symm, keysNodup_dSet _ _ _ hnd1, ?_⟩
    intro v hm
    have huq := mem_unique_of_nodup _ _ _ (keysNodup_dSet _ _ _ hnd1) hm
    rw [dGet_dSet_self] at huq
    simp only [Option.some.injEq] at huq
    subst huq
    refine ⟨_, rfl, keysNodup_addMissing _ _ rfl, ?_⟩
    intro s w hm2 lu heq
    rw [haddeq] at hm2
    simp only [List.nil_append] at hm2
    have := (hent _ hm2).2
    simp only at this
    rw [this] at heq
    simp only [PyValue.dict.injEq] at heq
    rw [← heq]
    rfl

theorem loglevel_inv (l2 l3 : List (PyValue × PyValue)) (hinv : DistInv l2)
    (hrun : loglevel_norm l2 = .ok l3) :
    DistInv l3 ∧ (∀ p, p ∈ l3 → p ∈ l2 ∨ p.1 = PyValue.str "loglevel") ∧
    (∀ v, (PyValue.str "loglevel", v) ∈ l3 → ∀ s, v = PyValue.str s →
      pyUpper s = s ∧ LOGGING_UPPER_ATTRS.contains s = true) := by
  unfold loglevel_norm at hrun
  split at hrun
  · rename_i s hg
    split at hrun <;> try exact (Except.noConfusion hrun)
    rename_i hcont
    simp only [Except.ok.injEq] at hrun
    subst hrun
    have hnd3 : keysNodup (dSet l2 (PyValue.str "loglevel")
        (PyValue.str (pyUpper s))) = true := keysNodup_dSet _ _ _ hinv.1
    refine ⟨⟨hnd3, ?_⟩, ?_, ?_⟩
    · intro v hm
      rcases mem_dSet _ _ _ _ hm with h2 | h2
      · exact hinv.2 v h2
      · simp only [PyValue.str.injEq] at h2
        exact absurd h2.1 (by decide)
    · intro p hp
      rcases mem_dSet _ _ _ _ hp with h2 | h2
      · exact Or.inl h2
      · exact Or.inr h2.1
    · intro v hm s' heq
      have huq := mem_unique_of_nodup _ _ _ hnd3 hm
      rw [dGet_dSet_self] at huq
      simp only [Option.some.injEq] at huq
      rw [heq] at huq
      simp only [PyValue.str.injEq] at huq
      subst huq
      exact ⟨LOG_fix _ hcont, hcont⟩
  · rename_i hne
    simp only [Except.ok.injEq] at hrun
    subst hrun
    refine ⟨hinv, fun p hp => Or.inl hp, ?_⟩
    intro v hm s heq
    subst heq
    have huq := mem_unique_of_nodup _ _ _ hinv.1 hm
    exact absurd huq (hne s)

theorem builddir_inv (cwd : String) (l3 l4 : List (PyValue × PyValue))
    (hinv : DistInv l3)
    (hcom : ∀ a, a ∈ COMMON_API_ATTRIBUTES → ∀ v, (PyValue.str a, v) ∉ l3)
    (hlog : ∀ v, (PyValue.str "loglevel", v) ∈ l3 → ∀ s, v = PyValue.str s →
      pyUpper s = s ∧ LOGGING_UPPER_ATTRS.contains s = true)
    (hrun : builddir_norm cwd l3 = .ok l4) : NormFacts l4 := by
  unfold builddir_norm at hrun
  split at hrun <;> try exact (Except.noConfusion hrun)
  rename_i apisL hga
  have hapisFact := hinv.2 (PyValue.dict apisL) (dGet_mem _ _ _ hga)
  obtain ⟨la, hla, hndA, hsubA⟩ := hapisFact
  simp only [PyValue.dict.injEq] at hla
  subst hla
  split at hrun <;> try exact (Except.noConfusion hrun)
  rename_i up hgu
  have hndU : keysNodup up = true :=
    hsubA "upload" (PyValue.dict up) (dGet_mem _ _ _ hgu) up rfl
  split at hrun
  · rename_i s hgb
    simp only [Except.ok.injEq] at hrun
    subst hrun
    have hnd4 : keysNodup (dSet l3 (PyValue.str "apis")
        (PyValue.dict (dSet apisL (PyValue.str "upload")
          (PyValue.dict (dSet up (PyValue.str "build_dir")
            (PyValue.path (absolutize cwd s))))))) = true :=
      keysNodup_dSet _ _ _ hinv.1
    refine ⟨?_, ?_, ?_⟩
    · intro a ha v hv
      rcases mem_dSet _ _ _ _ hv with h2 | h2
      · exact hcom a ha v h2
      · simp only [PyValue.str.injEq] at h2
        have : a = "apis" := h2.1
        subst this
        simp only [COMMON_API_ATTRIBUTES, List.mem_cons,
          List.not_mem_nil, or_false] at ha
        rcases ha with h | h | h <;> exact absurd h (by decide)
    · intro v hm s' heq
      rcases mem_dSet _ _ _ _ hm with h2 | h2
      · exact hlog v h2 s' heq
      · simp only [PyValue.str.injEq] at h2
        exact absurd h2.1 (by decide)
    · intro v hm
      have huq := mem_unique_of_nodup _ _ _ hnd4 hm
      rw [dGet_dSet_self] at huq
      simp only [Option.some.injEq] at huq
      subst huq
      refine ⟨_, rfl, ?_⟩
      intro w hw
      have hndA2 : keysNodup (dSet apisL (PyValue.str "upload")
          (PyValue.dict (dSet up (PyValue.str "build_dir")
            (PyValue.path (absolutize cwd s))))) = true :=
        keysNodup_dSet _ _ _ hndA
      have huq2 := mem_unique_of_nodup _ _ _ hndA2 hw
      rw [dGet_dSet_self] at huq2
      simp only [Option.some.injEq] at huq2
      subst huq2
      refine ⟨_, rfl, ?_⟩
      intro u hu
      have hndU2 : keysNodup (dSet up (PyValue.str "build_dir")
          (PyValue.path (absolutize cwd s))) = true :=
        keysNodup_dSet _ _ _ hndU
      have huq3 := mem_unique_of_nodup _ _ _ hndU2 hu
      rw [dGet_dSet_self] at huq3
      simp only [Option.some.injEq] at huq3
      subst huq3
      intro s2 h
      cases h
  · rename_i hne
    simp only [Except.ok.injEq] at hrun
    subst hrun
    refine ⟨hcom, hlog, ?_⟩
    intro v hm
    have huq := mem_unique_of_nodup _ _ _ hinv.1 hm
    rw [hga] at huq
    simp only [Option.some.injEq] at huq
    subst huq
    refine ⟨_, rfl, ?_⟩
    intro w hw
    have huq2 := mem_unique_of_nodup _ _ _ hndA hw
    rw [hgu] at huq2
    simp only [Option.some.injEq] at huq2
    subst huq2
    refine ⟨_, rfl, ?_⟩
    intro u hu
    have huq3 := mem_unique_of_nodup _ _ _ hndU hu
    intro s2 heq
    subst heq
    exact hne s2 huq3

end EasySast

namespace EasySast

theorem NormFacts_rn (l : List (PyValue × PyValue)) (h : NormFacts l) :
    NormFacts (removeNonesPairs l) := by
  obtain ⟨hcom, hlog, hapis⟩ := h
  refine ⟨?_, ?_, ?_⟩
  · intro a ha v hv
    obtain ⟨q, hq, h1, h2⟩ := mem_removeNonesPairs _ _ hv
    have hk := rn_str_inv q.1 a h1.symm
    exact hcom a ha q.2 (by rw [← hk]; exact hq)
  · intro v hm s heq
    obtain ⟨q, hq, h1, h2⟩ := mem_removeNonesPairs _ _ hm
    have hk := rn_str_inv q.1 "loglevel" h1.symm
    subst heq
    have hv := rn_str_inv q.2 s h2.symm
    exact hlog q.2 (by rw [← hk]; exact hq) s hv
  · intro v hm
    obtain ⟨q, hq, h1, h2⟩ := mem_removeNonesPairs _ _ hm
    have hk := rn_str_inv q.1 "apis" h1.symm
    obtain ⟨la0, hla0, hup⟩ := hapis q.2 (by rw [← hk]; exact hq)
    rw [hla0] at h2
    simp only [remove_nones] at h2
    refine ⟨removeNonesPairs la0, h2, ?_⟩
    intro w hw
    obtain ⟨q2, hq2, h3, h4⟩ := mem_removeNonesPairs _ _ hw
    have hk2 := rn_str_inv q2.1 "upload" h3.symm
    obtain ⟨lu0, hlu0, hbd⟩ := hup q2.2 (by rw [← hk2]; exact hq2)
    rw [hlu0] at h4
    simp only [remove_nones] at h4
    refine ⟨removeNonesPairs lu0, h4, ?_⟩
    intro u hu
    obtain ⟨q3, hq3, h5, h6⟩ := mem_removeNonesPairs _ _ hu
    have hk3 := rn_str_inv q3.1 "build_dir" h5.symm
    intro s heq
    rw [heq] at h6
    have := rn_str_inv q3.2 s h6.symm
    exact hbd q3.2 (by rw [← hk3]; exact hq3) s this

theorem NormFacts_red (l : List (PyValue × PyValue)) (h : NormFacts l) :
    NormFacts (removeEmptyPairs l) := by
  obtain ⟨hcom, hlog, hapis⟩ := h
  refine ⟨?_, ?_, ?_⟩
  · intro a ha v hv
    obtain ⟨q, hq, h1, h2⟩ := mem_removeEmptyPairs _ _ hv
    have hk := red_str_inv q.1 a h1.symm
    exact hcom a ha q.2 (by rw [← hk]; exact hq)
  · intro v hm s heq
    obtain ⟨q, hq, h1, h2⟩ := mem_removeEmptyPairs _ _ hm
    have hk := red_str_inv q.1 "loglevel" h1.symm
    subst heq
    have hv := red_str_inv q.2 s h2.symm
    exact hlog q.2 (by rw [← hk]; exact hq) s hv
  · intro v hm
    obtain ⟨q, hq, h1, h2⟩ := mem_removeEmptyPairs _ _ hm
    have hk := red_str_inv q.1 "apis" h1.symm
    obtain ⟨la0, hla0, hup⟩ := hapis q.2 (by rw [← hk]; exact hq)
    rw [hla0] at h2
    simp only [remove_empty_dicts] at h2
    refine ⟨removeEmptyPairs la0, h2, ?_⟩
    intro w hw
    obtain ⟨q2, hq2, h3, h4⟩ := mem_removeEmptyPairs _ _ hw
    have hk2 := red_str_inv q2.1 "upload" h3.symm
    obtain ⟨lu0, hlu0, hbd⟩ := hup q2.2 (by rw [← hk2]; exact hq2)
    rw [hlu0] at h4
    simp only [remove_empty_dicts] at h4
    refine ⟨removeEmptyPairs lu0, h4, ?_⟩
    intro u hu
    obtain ⟨q3, hq3, h5, h6⟩ := mem_removeEmptyPairs _ _ hu
    have hk3 := red_str_inv q3.1 "build_dir" h5.symm
    intro s heq
    rw [heq] at h6
    have := red_str_inv q3.2 s h6.symm
    exact hbd q3.2 (by rw [← hk3]; exact hq3) s this

theorem NormFacts_filter (l4 : List (PyValue × PyValue)) (h : NormFacts l4) :
    ∃ ltop, filter_config (PyValue.dict l4) = PyValue.dict ltop ∧
      NormFacts ltop ∧ removeNonesPairs ltop = ltop ∧
      removeEmptyPairs ltop = ltop := by
  have hpres := filter_config_preserves
    (fun x => ∃ l, x = PyValue.dict l ∧ NormFacts l)
    (fun x hx => by
      obtain ⟨l, rfl, hNF⟩ := hx
      exact ⟨removeEmptyPairs (removeNonesPairs l), stepFC_dict l,
        NormFacts_red _ (NormFacts_rn _ hNF)⟩)
    (PyValue.dict l4) ⟨l4, rfl, h⟩
  obtain ⟨ltop, heq, hNF⟩ := hpres
  have hfix := filter_config_fixpoint (PyValue.dict l4)
  rw [heq] at hfix
  have hnn : noNones (PyValue.dict ltop) = true := by
    rw [← hfix]
    unfold stepFC
    exact removeEmpty_preserves_noNones _ (remove_nones_noNones _)
  have hrnid : remove_nones (PyValue.dict ltop) = PyValue.dict ltop :=
    noNones_remove_nones_id _ hnn
  have hredid : remove_empty_dicts (PyValue.dict ltop) = PyValue.dict ltop := by
    have h2 := hfix
    unfold stepFC at h2
    rw [hrnid] at h2
    exact h2
  simp only [remove_nones, PyValue.dict.injEq] at hrnid
  simp only [remove_empty_dicts, PyValue.dict.injEq] at hredid
  exact ⟨ltop, heq, hNF, hrnid, hredid⟩

end EasySast

namespace EasySast

theorem distributeOne_noop (l : List (PyValue × PyValue)) (attr : String)
    (h : dHas l (PyValue.str attr) = false) : distributeOne l attr = .ok l := by
  unfold distributeOne
  rw [if_neg (by rw [h]; exact Bool.false_ne_true)]

theorem distributeAll_noop : ∀ (names : List String)
    (l : List (PyValue × PyValue)),
    (∀ a, a ∈ names → dHas l (PyValue.str a) = false) →
    distributeAll names l = .ok l := by
  intro names
  induction names with
  | nil => intro l h; rfl
  | cons attr more ih =>
    intro l h
    simp only [distributeAll,
      distributeOne_noop l attr (h attr (List.mem_cons_self _ _))]
    exact ih l (fun a ha => h a (List.mem_cons_of_mem _ ha))

theorem loglevel_norm_noop (l : List (PyValue × PyValue))
    (hgood : ∀ s, dGet l (PyValue.str "loglevel") = Option.some (PyValue.str s) →
      pyUpper s = s ∧ LOGGING_UPPER_ATTRS.contains s = true) :
    loglevel_norm l = .ok l := by
  unfold loglevel_norm
  split
  · rename_i s hg
    obtain ⟨hfixs, hcont⟩ := hgood s hg
    rw [hfixs, if_pos hcont, dSet_same l _ _ (by rw [hg])]
  · rfl

theorem builddir_norm_noop (cwd : String) (l : List (PyValue × PyValue))
    (apisN lu : List (PyValue × PyValue))
    (hapis : dGet l (PyValue.str "apis") = Option.some (PyValue.dict apisN))
    (hup : dGet apisN (PyValue.str "upload") = Option.some (PyValue.dict lu))
    (hbd : ∀ s, dGet lu (PyValue.str "build_dir") ≠
      Option.some (PyValue.str s)) :
    builddir_norm cwd l = .ok l := by
  unfold builddir_norm
  split
  · rename_i apisL hga
    rw [hapis] at hga
    simp only [Option.some.injEq, PyValue.dict.injEq] at hga
    subst hga
    split
    · rename_i up hgu
      rw [hup] at hgu
      simp only [Option.some.injEq, PyValue.dict.injEq] at hgu
      subst hgu
      split
      · rename_i s hgb
        exact absurd hgb (hbd s)
      · rfl
    · rename_i w hcond heq
      rw [hup] at heq
      simp only [Option.some.injEq] at heq
      exact (hcond lu heq.symm).elim
    · rename_i heq
      rw [hup] at heq
      cases heq
  · rename_i w hcond heq
    rw [hapis] at heq
    simp only [Option.some.injEq] at heq
    exact (hcond apisN heq.symm).elim
  · rename_i heq
    rw [hapis] at heq
    cases heq

theorem dHas_middle_congr (pre post : List (PyValue × PyValue))
    (k1 v w k : PyValue) :
    dHas (pre ++ (k1, v) :: post) k = dHas (pre ++ (k1, w) :: post) k := by
  simp [dHas]

theorem dGet_middle_congr (pre post : List (PyValue × PyValue))
    (k1 v w k : PyValue) (hne : k1 ≠ k) :
    dGet (pre ++ (k1, v) :: post) k = dGet (pre ++ (k1, w) :: post) k := by
  rw [dGet_append, dGet_append, dGet_cons, dGet_cons, if_neg hne, if_neg hne]

end EasySast

namespace EasySast

theorem run2_caseA (cwd : String) (ltop : List (PyValue × PyValue))
    (hNF : NormFacts ltop) (hrn : removeNonesPairs ltop = ltop)
    (hred : removeEmptyPairs ltop = ltop)
    (hA : dHas ltop (PyValue.str "apis") = false) :
    normalize_config cwd (PyValue.dict ltop) = .ok (PyValue.dict ltop) := by
  have hA0 : addMissingApis SUPPORTED_APIS [] =
      [(PyValue.str "results", PyValue.dict []),
       (PyValue.str "upload", PyValue.dict []),
       (PyValue.str "sandbox", PyValue.dict [])] := rfl
  have hs1 : add_apis_to_config (PyValue.dict ltop) =
      .ok (PyValue.dict (ltop ++ [(PyValue.str "apis", PyValue.dict
        [(PyValue.str "results", PyValue.dict []),
         (PyValue.str "upload", PyValue.dict []),
         (PyValue.str "sandbox", PyValue.dict [])])])) := by
    simp only [add_apis_to_config, hA, Bool.false_eq_true, if_false,
      dGet_dSet_self, hA0]
    rw [dSet_absent ltop _ _ hA, dSet_append_last ltop _ _ _ hA]
  set AD : List (PyValue × PyValue) :=
    [(PyValue.str "results", PyValue.dict []),
     (PyValue.str "upload", PyValue.dict []),
     (PyValue.str "sandbox", PyValue.dict [])] with hAD
  set lA : List (PyValue × PyValue) :=
    ltop ++ [(PyValue.str "apis", PyValue.dict AD)] with hlA
  have hs2 : distributeAll COMMON_API_ATTRIBUTES lA = .ok lA := by
    refine distributeAll_noop _ _ ?_
    intro a ha
    rw [hlA, dHas_append, (dHas_false_iff _ _).mpr (hNF.1 a ha), Bool.false_or]
    simp only [COMMON_API_ATTRIBUTES, List.mem_cons, List.not_mem_nil,
      or_false] at ha
    rcases ha with rfl | rfl | rfl <;> decide
  have hs3 : loglevel_norm lA = .ok lA := by
    refine loglevel_norm_noop _ ?_
    intro s hg
    rcases hlt : dGet ltop (PyValue.str "loglevel") with _ | v
    · rw [hlA] at hg
      simp only [dGet_append, hlt] at hg
      rw [dGet_cons, if_neg (by decide)] at hg
      simp [dGet] at hg
    · rw [hlA] at hg
      simp only [dGet_append, hlt, Option.some.injEq] at hg
      subst hg
      exact hNF.2.1 _ (dGet_mem _ _ _ hlt) s rfl
  have hapis : dGet lA (PyValue.str "apis") =
      Option.some (PyValue.dict AD) := by
    rw [hlA]
    simp only [dGet_append, (dGet_none_iff _ _).mpr hA]
    rw [dGet_cons, if_pos rfl]
  have hs4 : builddir_norm cwd lA = .ok lA := by
    refine builddir_norm_noop cwd lA AD [] hapis (by rw [hAD]; rfl) ?_
    intro s h
    simp [dGet] at h
  have hrnAD : removeNonesPairs [(PyValue.str "apis", PyValue.dict AD)] =
      [(PyValue.str "apis", PyValue.dict AD)] := by rw [hAD]; rfl
  have hredAD : removeEmptyPairs [(PyValue.str "apis", PyValue.dict AD)] =
      [(PyValue.str "apis", PyValue.dict [])] := by rw [hAD]; rfl
  have hstep1 : stepFC (PyValue.dict lA) =
      PyValue.dict (ltop ++ [(PyValue.str "apis", PyValue.dict [])]) := by
    rw [hlA, stepFC_dict, removeNonesPairs_append, hrn, hrnAD,
      removeEmptyPairs_append, hred, hredAD]
  have hstep2 : stepFC (PyValue.dict
      (ltop ++ [(PyValue.str "apis", PyValue.dict [])])) =
      PyValue.dict ltop := by
    rw [stepFC_dict, removeNonesPairs_append, hrn,
      show removeNonesPairs [(PyValue.str "apis", PyValue.dict [])] =
        [(PyValue.str "apis", PyValue.dict [])] from rfl,
      removeEmptyPairs_append, hred,
      show removeEmptyPairs [(PyValue.str "apis", PyValue.dict [])] =
        ([] : List (PyValue × PyValue)) from rfl,
      List.append_nil]
  have hfixr : stepFC (PyValue.dict ltop) = PyValue.dict ltop := by
    rw [stepFC_dict, hrn, hred]
  have hs5 : filter_config (PyValue.dict lA) = PyValue.dict ltop := by
    have hne1 : PyValue.dict lA ≠ stepFC (PyValue.dict lA) := by
      rw [hstep1, hlA]
      intro hcontra
      simp only [PyValue.dict.injEq] at hcontra
      have h2 := List.append_cancel_left hcontra
      simp only [List.cons.injEq, Prod.mk.injEq, PyValue.dict.injEq] at h2
      rw [hAD] at h2
      cases h2.1.2
    have hne2 : ¬(stepFC (PyValue.dict
        (ltop ++ [(PyValue.str "apis", PyValue.dict [])])) =
        PyValue.dict (ltop ++ [(PyValue.str "apis", PyValue.dict [])])) := by
      rw [hstep2]
      intro hcontra
      simp only [PyValue.dict.injEq] at hcontra
      have h2 := congrArg List.length hcontra
      simp at h2
    unfold filter_config
    rw [if_neg hne1, hstep1, filterLoop, dif_neg hne2, hstep2, filterLoop,
      dif_pos hfixr]
  simp only [normalize_config, hs1]
  simp only [hs2, hs3, hs4, hs5, hA, Bool.false_eq_true, if_false]

end EasySast

namespace EasySast

theorem run2_caseB (cwd : String) (ltop : List (PyValue × PyValue))
    (hNF : NormFacts ltop) (hrn : removeNonesPairs ltop = ltop)
    (hred : removeEmptyPairs ltop = ltop)
    (hB : dHas ltop (PyValue.str "apis") = true)
    (hval : validate_apis_top ltop = .ok ()) :
    normalize_config cwd (PyValue.dict ltop) = .ok (PyValue.dict ltop) := by
  obtain ⟨v0, hg0⟩ := dGet_isSome_of_dHas _ _ hB
  obtain ⟨apisR, hv0, hupFact⟩ := hNF.2.2 v0 (dGet_mem _ _ _ hg0)
  subst hv0
  obtain ⟨pre, k1, post, hdec, hk1, hpre⟩ := dGet_decompose _ _ _ hg0
  subst hk1
  obtain ⟨adds, haddeq, hent, hget⟩ := addMissing_spec SUPPORTED_APIS apisR
  have hrnpt := removeNonesPairs_fix_pointwise ltop hrn
  have hredpt := removeEmptyPairs_fix_pointwise ltop hred
  have hmemA : (PyValue.str "apis", PyValue.dict apisR) ∈ ltop := by
    rw [hdec]
    exact List.mem_append.mpr (Or.inr (List.mem_cons_self _ _))
  have hrnA : removeNonesPairs apisR = apisR := by
    have := (hrnpt _ hmemA).2.2.2
    simpa [remove_nones] using this
  have hredA : removeEmptyPairs apisR = apisR := by
    have := (hredpt _ hmemA).2.2
    simpa [remove_empty_dicts] using this
  have hAne : isEmptyDict (PyValue.dict apisR) = false := (hredpt _ hmemA).1
  have hApos : isEmptyDict (PyValue.dict (apisR ++ adds)) = false := by
    cases apisR with
    | nil => cases hAne
    | cons a rest => rfl
  have hrnadds : removeNonesPairs adds = adds := by
    refine removeNonesPairs_of_pointwise adds ?_
    intro p hp
    obtain ⟨⟨a, hk⟩, hv⟩ := hent p hp
    rw [hk, hv]
    exact ⟨by simp, by simp, rfl, rfl⟩
  have hredadds : removeEmptyPairs adds = [] := by
    refine removeEmptyPairs_all_empty adds ?_
    intro p hp
    rw [(hent p hp).2]
    rfl
  set c1top : List (PyValue × PyValue) :=
    pre ++ (PyValue.str "apis", PyValue.dict (apisR ++ adds)) :: post
    with hc1top
  have hs1 : add_apis_to_config (PyValue.dict ltop) =
      .ok (PyValue.dict c1top) := by
    simp only [add_apis_to_config, hB, if_true, hg0, haddeq]
    rw [hdec, dSet_on_decomposed pre post _ _ _ hpre]
  have hs2 : distributeAll COMMON_API_ATTRIBUTES c1top = .ok c1top := by
    refine distributeAll_noop _ _ ?_
    intro a ha
    have hcongr : dHas c1top (PyValue.str a) = dHas ltop (PyValue.str a) := by
      rw [hdec, hc1top]
      exact dHas_middle_congr pre post _ _ _ _
    rw [hcongr]
    exact (dHas_false_iff _ _).mpr (hNF.1 a ha)
  have hs3 : loglevel_norm c1top = .ok c1top := by
    refine loglevel_norm_noop _ ?_
    intro s hg
    have hcongr : dGet c1top (PyValue.str "loglevel") =
        dGet ltop (PyValue.str "loglevel") := by
      rw [hdec, hc1top]
      exact dGet_middle_congr pre post _ _ _ _ (by decide)
    rw [hcongr] at hg
    exact hNF.2.1 _ (dGet_mem _ _ _ hg) s rfl
  have hapis : dGet c1top (PyValue.str "apis") =
      Option.some (PyValue.dict (apisR ++ adds)) := by
    rw [hc1top]
    simp only [dGet_append, (dGet_none_iff _ _).mpr hpre]
    rw [dGet_cons, if_pos rfl]
  have hs4 : builddir_norm cwd c1top = .ok c1top := by
    rcases hgu : dGet apisR (PyValue.str "upload") with _ | w
    · have hupA : dGet (apisR ++ adds) (PyValue.str "upload") =
          Option.some (PyValue.dict []) := by
        simp only [dGet_append, hgu]
        exact hget "upload" (by simp [SUPPORTED_APIS])
          ((dGet_none_iff _ _).mp hgu)
      refine builddir_norm_noop cwd c1top (apisR ++ adds) [] hapis hupA ?_
      intro s h
      simp [dGet] at h
    · obtain ⟨lu, hwlu, hbdFact⟩ := hupFact w (dGet_mem _ _ _ hgu)
      subst hwlu
      have hupB : dGet (apisR ++ adds) (PyValue.str "upload") =
          Option.some (PyValue.dict lu) := by
        simp only [dGet_append, hgu]
      refine builddir_norm_noop cwd c1top (apisR ++ adds) lu hapis hupB ?_
      intro s h
      exact hbdFact _ (dGet_mem _ _ _ h) s rfl
  have hrnpre : removeNonesPairs pre = pre := by
    refine removeNonesPairs_of_pointwise pre ?_
    intro p hp
    exact hrnpt p (by rw [hdec]; exact List.mem_append.mpr (Or.inl hp))
  have hrnpost : removeNonesPairs post = post := by
    refine removeNonesPairs_of_pointwise post ?_
    intro p hp
    exact hrnpt p (by
      rw [hdec]
      exact List.mem_append.mpr (Or.inr (List.mem_cons_of_mem _ hp)))
  have hredpre : removeEmptyPairs pre = pre := by
    refine removeEmptyPairs_of_pointwise pre ?_
    intro p hp
    exact hredpt p (by rw [hdec]; exact List.mem_append.mpr (Or.inl hp))
  have hredpost : removeEmptyPairs post = post := by
    refine removeEmptyPairs_of_pointwise post ?_
    intro p hp
    exact hredpt p (by
      rw [hdec]
      exact List.mem_append.mpr (Or.inr (List.mem_cons_of_mem _ hp)))
  have hrnc1 : removeNonesPairs c1top = c1top := by
    rw [hc1top, removeNonesPairs_append, hrnpre]
    have hcons : removeNonesPairs
        ((PyValue.str "apis", PyValue.dict (apisR ++ adds)) :: post) =
        (PyValue.str "apis",
          PyValue.dict (removeNonesPairs (apisR ++ adds))) ::
          removeNonesPairs post := by
      simp [removeNonesPairs, remove_nones]
    rw [hcons, hrnpost, removeNonesPairs_append, hrnA, hrnadds]
  have hredc1 : removeEmptyPairs c1top = ltop := by
    rw [hc1top, removeEmptyPairs_append, hredpre]
    have hcons : removeEmptyPairs
        ((PyValue.str "apis", PyValue.dict (apisR ++ adds)) :: post) =
        (PyValue.str "apis",
          PyValue.dict (removeEmptyPairs (apisR ++ adds))) ::
          removeEmptyPairs post := by
      simp [removeEmptyPairs, hApos, remove_empty_dicts]
    rw [hcons, hredpost, removeEmptyPairs_append, hredA, hredadds,
      List.append_nil, hdec]
  have hstep : stepFC (PyValue.dict c1top) = PyValue.dict ltop := by
    rw [stepFC_dict, hrnc1, hredc1]
  have hfixr : stepFC (PyValue.dict ltop) = PyValue.dict ltop := by
    rw [stepFC_dict, hrn, hred]
  have hs5 : filter_config (PyValue.dict c1top) = PyValue.dict ltop := by
    by_cases hEq : PyValue.dict c1top = stepFC (PyValue.dict c1top)
    · unfold filter_config
      rw [if_pos hEq]
      rw [hstep] at hEq
      exact hEq
    · unfold filter_config
      rw [if_neg hEq, hstep, filterLoop, dif_pos hfixr]
  simp only [normalize_config, hs1]
  simp only [hs2, hs3, hs4, hs5, hB, if_true, hval]

end EasySast

namespace EasySast

theorem normalize_run2 (cwd : String) (ltop : List (PyValue × PyValue))
    (hNF : NormFacts ltop) (hrn : removeNonesPairs ltop = ltop)
    (hred : removeEmptyPairs ltop = ltop)
    (hval : dHas ltop (PyValue.str "apis") = true →
      validate_apis_top ltop = .ok ()) :
    normalize_config cwd (PyValue.dict ltop) = .ok (PyValue.dict ltop) := by
  by_cases hB : dHas ltop (PyValue.str "apis") = true
  · exact run2_caseB cwd ltop hNF hrn hred hB (hval hB)
  · rw [Bool.not_eq_true] at hB
    exact run2_caseA cwd ltop hNF hrn hred hB

end EasySast

namespace EasySast

/-- C7: `normalize_config` is idempotent on every configuration it
accepts: if a run on a well-formed config (every dict in it has
distinct keys, the invariant Python's runtime guarantees) succeeds
with result `r`, then a second run on `r` succeeds and returns `r`
unchanged. -/
theorem normalize_config_idempotent (cwd : String) (config r : PyValue)
    (hnd : recNoDup config = true)
    (h : normalize_config cwd config = .ok r) :
    normalize_config cwd r = .ok r := by
  unfold normalize_config at h
  split at h <;> try exact (Except.noConfusion h)
  rename_i c1 heq1
  split at h <;> try exact (Except.noConfusion h)
  rename_i l1
  split at h <;> try exact (Except.noConfusion h)
  rename_i l2 heq2
  split at h <;> try exact (Except.noConfusion h)
  rename_i l3 heq3
  split at h <;> try exact (Except.noConfusion h)
  rename_i l4 heq4
  split at h <;> try exact (Except.noConfusion h)
  rename_i l5 heq5
  obtain ⟨l1', hc1, hinv1⟩ := add_apis_inv config (PyValue.dict l1) hnd heq1
  have hl1 : l1 = l1' := by injection hc1
  subst hl1
  have d2 := distributeAll_inv COMMON_API_ATTRIBUTES l1 l2
    (by decide) hinv1 heq2
  have d3 := loglevel_inv l2 l3 d2.1 heq3
  have hcom3 : ∀ a, a ∈ COMMON_API_ATTRIBUTES → ∀ v,
      (PyValue.str a, v) ∉ l3 := by
    intro a ha v hv
    rcases d3.2.1 _ hv with h2 | h2
    · exact d2.2.2 a ha v h2
    · simp only [PyValue.str.injEq] at h2
      subst h2
      simp only [COMMON_API_ATTRIBUTES, List.mem_cons, List.not_mem_nil,
        or_false] at ha
      rcases ha with h3 | h3 | h3 <;> exact absurd h3 (by decide)
  have d4 := builddir_inv cwd l3 l4 d3.1 hcom3 d3.2.2 heq4
  obtain ⟨ltop, hfc, hNFtop, hrnt, hredt⟩ := NormFacts_filter l4 d4
  have hl5 : l5 = ltop := by
    rw [heq5] at hfc
    injection hfc
  subst hl5
  by_cases hB : dHas l5 (PyValue.str "apis") = true
  · rw [if_pos hB] at h
    split at h <;> try exact (Except.noConfusion h)
    rename_i u hvrun
    simp only [Except.ok.injEq] at h
    subst h
    exact normalize_run2 cwd l5 hNFtop hrnt hredt
      (fun _ => by rw [hvrun])
  · rw [if_neg hB] at h
    simp only [Except.ok.injEq] at h
    subst h
    exact normalize_run2 cwd l5 hNFtop hrnt hredt
      (fun hB2 => absurd hB2 hB)

end EasySast

namespace EasySast

/-- Witness for C7 at the concrete config `{"loglevel": "warning"}`:
the first run returns `{"loglevel": "WARNING"}` (the `apis` scaffolding
is filtered away again), and a second run on that result returns it
unchanged. -/
theorem normalize_config_idempotent_witness :
    recNoDup (PyValue.dict
      [(PyValue.str "loglevel", PyValue.str "warning")]) = true ∧
    normalize_config "/cwd" (PyValue.dict
      [(PyValue.str "loglevel", PyValue.str "warning")]) =
      .ok (PyValue.dict
        [(PyValue.str "loglevel", PyValue.str "WARNING")]) ∧
    normalize_config "/cwd" (PyValue.dict
      [(PyValue.str "loglevel", PyValue.str "WARNING")]) =
      .ok (PyValue.dict
        [(PyValue.str "loglevel", PyValue.str "WARNING")]) := by
  have h1 : recNoDup (PyValue.dict
      [(PyValue.str "loglevel", PyValue.str "warning")]) = true := by decide
  have hfc : filter_config (PyValue.dict
      [(PyValue.str "loglevel", PyValue.str "WARNING"),
       (PyValue.str "apis", PyValue.dict
         [(PyValue.str "results", PyValue.dict []),
          (PyValue.str "upload", PyValue.dict []),
          (PyValue.str "sandbox", PyValue.dict [])])]) =
      PyValue.dict [(PyValue.str "loglevel", PyValue.str "WARNING")] := by
    unfold filter_config
    rw [if_neg (by decide)]
    rw [show stepFC (PyValue.dict
      [(PyValue.str "loglevel", PyValue.str "WARNING"),
       (PyValue.str "apis", PyValue.dict
         [(PyValue.str "results", PyValue.dict []),
          (PyValue.str "upload", PyValue.dict []),
          (PyValue.str "sandbox", PyValue.dict [])])]) =
      PyValue.dict [(PyValue.str "loglevel", PyValue.str "WARNING"),
        (PyValue.str "apis", PyValue.dict [])] from by decide]
    rw [filterLoop, dif_neg (by decide)]
    rw [show stepFC (PyValue.dict
      [(PyValue.str "loglevel", PyValue.str "WARNING"),
       (PyValue.str "apis", PyValue.dict [])]) =
      PyValue.dict [(PyValue.str "loglevel", PyValue.str "WARNING")]
      from by decide]
    rw [filterLoop, dif_pos (by decide)]
  have h2 : normalize_config "/cwd" (PyValue.dict
      [(PyValue.str "loglevel", PyValue.str "warning")]) =
      .ok (PyValue.dict
        [(PyValue.str "loglevel", PyValue.str "WARNING")]) := by
    simp only [normalize_config,
      show add_apis_to_config (PyValue.dict
        [(PyValue.str "loglevel", PyValue.str "warning")]) =
        .ok (PyValue.dict
          [(PyValue.str "loglevel", PyValue.str "warning"),
           (PyValue.str "apis", PyValue.dict
             [(PyValue.str "results", PyValue.dict []),
              (PyValue.str "upload", PyValue.dict []),
              (PyValue.str "sandbox", PyValue.dict [])])]) from by decide,
      show distributeAll COMMON_API_ATTRIBUTES
          [(PyValue.str "loglevel", PyValue.str "warning"),
           (PyValue.str "apis", PyValue.dict
             [(PyValue.str "results", PyValue.dict []),
              (PyValue.str "upload", PyValue.dict []),
              (PyValue.str "sandbox", PyValue.dict [])])] =
        .ok [(PyValue.str "loglevel", PyValue.str "warning"),
           (PyValue.str "apis", PyValue.dict
             [(PyValue.str "results", PyValue.dict []),
              (PyValue.str "upload", PyValue.dict []),
              (PyValue.str "sandbox", PyValue.dict [])])] from by decide,
      show loglevel_norm
          [(PyValue.str "loglevel", PyValue.str "warning"),
           (PyValue.str "apis", PyValue.dict
             [(PyValue.str "results", PyValue.dict []),
              (PyValue.str "upload", PyValue.dict []),
              (PyValue.str "sandbox", PyValue.dict [])])] =
        .ok [(PyValue.str "loglevel", PyValue.str "WARNING"),
           (PyValue.str "apis", PyValue.dict
             [(PyValue.str "results", PyValue.dict []),
              (PyValue.str "upload", PyValue.dict []),
              (PyValue.str "sandbox", PyValue.dict [])])] from by decide,
      show builddir_norm "/cwd"
          [(PyValue.str "loglevel", PyValue.str "WARNING"),
           (PyValue.str "apis", PyValue.dict
             [(PyValue.str "results", PyValue.dict []),
              (PyValue.str "upload", PyValue.dict []),
              (PyValue.str "sandbox", PyValue.dict [])])] =
        .ok [(PyValue.str "loglevel", PyValue.str "WARNING"),
           (PyValue.str "apis", PyValue.dict
             [(PyValue.str "results", PyValue.dict []),
              (PyValue.str "upload", PyValue.dict []),
              (PyValue.str "sandbox", PyValue.dict [])])] from by decide,
      hfc]
    rw [if_neg (by decide)]
  exact ⟨h1, h2,
    normalize_config_idempotent "/cwd" _ _ h1 h2⟩

end EasySast
